import Mathlib

/-!
# Mesa: checkers rules engine and alpha-beta search (`server.js`, `script.js`)

A shallow embedding of the move generation, board simulation and search code
of the server and of the move computation of the client, followed by the
properties proved about it.

Conventions of the embedding.

* A JavaScript board is an array of rows; it is embedded as a list of lists
  of cells.  `null` and `undefined` are both the empty cell `none`.
* Coordinates are JavaScript numbers holding integers; they are `Int`, so
  that `row + dr` may leave the grid exactly as in the source.
* A JavaScript `TypeError` (property access on `null`/`undefined`) and an
  exhausted loop budget are both the result `none`; a returned value is
  `some v`.
* Where the identity of objects matters (does `simulateMove` write to the
  board it is given?), `simulateMove` is embedded a second time on a store of
  objects with addresses, and related to the embedding on values.
* Scores are rationals: every score the code computes is a multiple of `0.5`
  of small magnitude, which IEEE doubles represent and add exactly.
  `-Infinity` and `Infinity` are `⊥` and `⊤` of `WithBot (WithTop ℚ)`.
-/

namespace Mesa

/-! ## Data model -/

/-- The two sides, the strings `'white'` and `'black'` of the source. -/
inductive Player
  | white
  | black
deriving DecidableEq, Repr

/-- A piece object `{ player, isKing }`. -/
structure Piece where
  player : Player
  isKing : Bool
deriving DecidableEq, Repr

/-- A board cell: `none` is an empty square (`null`). -/
abbrev Cell := Option Piece

/-- A board: the array of row arrays. -/
abbrev Board := List (List Cell)

/-- A position object `{ row, col }`. -/
structure Pos where
  row : Int
  col : Int
deriving DecidableEq, Repr

/-- An entry of the list built by `findJumpPaths`:
`{ finalRow, finalCol, captured }`. -/
structure JumpPath where
  finalRow : Int
  finalCol : Int
  captured : List Pos
deriving DecidableEq, Repr

/-- An entry of the list built by `findSimpleMoves`:
`{ row, col, captured: null }`. -/
structure MoveOption where
  row : Int
  col : Int
  captured : Option (List Pos)
deriving DecidableEq, Repr

/-- A move object `{ startRow, startCol, row, col, captured }`; `captured` is
`none` for the `null` of a simple move. -/
structure Move where
  startRow : Int
  startCol : Int
  row : Int
  col : Int
  captured : Option (List Pos)
deriving DecidableEq, Repr

/-- A well-formed board: eight rows of eight cells. -/
def WellFormed (b : Board) : Prop :=
  b.length = 8 ∧ ∀ row ∈ b, row.length = 8

instance (b : Board) : Decidable (WellFormed b) := by
  unfold WellFormed
  infer_instance

/-- The value of `p === 'white' ? 'black' : 'white'`. -/
def opponentOf (p : Player) : Player :=
  if p = Player.white then Player.black else Player.white

/-- The test `r >= 0 && r < 8 && c >= 0 && c < 8`. -/
def inGrid (r c : Int) : Bool :=
  decide (0 ≤ r) && decide (r < 8) && decide (0 ≤ c) && decide (c < 8)

/-! ## Array access -/

/-- The row `boardState[r]`; `none` is `undefined`. -/
def rowAt (b : Board) (r : Int) : Option (List Cell) :=
  if 0 ≤ r then b[r.toNat]? else none

/-- The element `row[c]` of a row array, `undefined` read as the empty cell. -/
def elemAt (row : List Cell) (c : Int) : Cell :=
  if 0 ≤ c then (row[c.toNat]?).join else none

/-- The read `boardState[r][c]`: it throws when `boardState[r]` is
`undefined`. -/
def cellAt (b : Board) (r c : Int) : Option Cell :=
  (rowAt b r).map fun row => elemAt row c

/-- The guarded read `boardState?.[r]?.[c]`: it never throws. -/
def safeAt (b : Board) (r c : Int) : Cell :=
  match rowAt b r with
  | some row => elemAt row c
  | none => none

/-- The write `newBoard[r][c] = v`: it throws when `newBoard[r]` is
`undefined`.  A write to a column outside the row (where JavaScript would
grow the array) lies outside the embedding and is reported as `none`; no
board and move considered below reaches it. -/
def setCell (b : Board) (r c : Int) (v : Cell) : Option Board :=
  match rowAt b r with
  | none => none
  | some row =>
    if 0 ≤ c ∧ c.toNat < row.length then
      some (b.set r.toNat (row.set c.toNat v))
    else none

/-- The four diagonal directions, in the order of the source. -/
def directions : List (Int × Int) := [(-1, -1), (-1, 1), (1, -1), (1, 1)]

/-- The squares visited by `for r in 0..7, for c in 0..7`, in loop order. -/
def allSquares : List (Int × Int) :=
  (List.range 8).flatMap fun (r : Nat) =>
    (List.range 8).map fun (c : Nat) => ((r : Int), (c : Int))

/-! ## `simulateMove` -/

/-- The loop `capturedPieces.forEach(cap => newBoard[cap.row][cap.col] = null)`. -/
def clearCaptured (b : Board) (caps : List Pos) : Option Board :=
  caps.foldlM (fun acc cap => setCell acc cap.row cap.col none) b

/-- The function `simulateMove` of `server.js`.  The deep copy is the
identity on values.  The moved object is written to the end square, the
start square and the captured squares are set to `null`, and the promotion
writes `isKing` on whatever the end square then holds. -/
def simulateMove (b : Board) (startRow startCol endRow endCol : Int)
    (capturedPieces : Option (List Pos)) : Option Board := do
  let piece ← cellAt b startRow startCol
  let b1 ← setCell b endRow endCol piece
  let b2 ← setCell b1 startRow startCol none
  let b3 ← match capturedPieces with
    | some caps => clearCaptured b2 caps
    | none => some b2
  let p ← piece
  if p.player = Player.white ∧ endRow = 0 then
    let q ← (← cellAt b3 endRow endCol)
    setCell b3 endRow endCol (some { q with isKing := true })
  else if p.player = Player.black ∧ endRow = 7 then
    let q ← (← cellAt b3 endRow endCol)
    setCell b3 endRow endCol (some { q with isKing := true })
  else
    some b3

/-! ## `findSimpleMoves` -/

/-- The `while` loop of `findSimpleMoves` for one direction, from the square
`(r, c)`; the first argument bounds the number of iterations.  A diagonal
run inside the grid has at most eight squares, so nine iterations always
reach the exit test. -/
def simpleScan (b : Board) (isKing : Bool) (dir : Int × Int) :
    Nat → Int → Int → List MoveOption → Option (List MoveOption)
  | 0, _, _, _ => none
  | n + 1, r, c, moves =>
    if inGrid r c && (safeAt b r c).isNone then
      let moves1 := moves ++ [{ row := r, col := c, captured := none }]
      if !isKing then some moves1
      else simpleScan b isKing dir n (r + dir.1) (c + dir.2) moves1
    else some moves

/-- The body of the direction loop of `findSimpleMoves`. -/
def simpleStep (b : Board) (row col : Int) (piece : Piece)
    (moves : List MoveOption) (dir : Int × Int) : Option (List MoveOption) :=
  if !piece.isKing && ((piece.player = Player.white && decide (dir.1 > 0)) ||
      (piece.player = Player.black && decide (dir.1 < 0))) then
    some moves
  else
    simpleScan b piece.isKing dir 9 (row + dir.1) (col + dir.2) moves

/-- The function `findSimpleMoves` of `server.js`. -/
def findSimpleMoves (b : Board) (row col : Int) (_currentPlayer : Player) :
    Option (List MoveOption) := do
  let piece ← (← cellAt b row col)
  directions.foldlM (simpleStep b row col piece) []

/-! ## `findJumpPaths` -/

/-- The test `cell && cell.player === opponent`. -/
def isOpponentPiece (cell : Cell) (opponent : Player) : Bool :=
  match cell with
  | some q => decide (q.player = opponent)
  | none => false

/-- The state of the direction loop of `findJumpPaths`: the array `paths`
and the flag `foundCapture`. -/
abbrev ScanState := List JumpPath × Bool

/-- The code run once a capture over `over`, landing on `(lr, lc)`, has been
found: the jump is simulated, the search continues from the landing square
(`recur` is the recursive call), and the results are pushed on `paths`. -/
def pushCapture (recur : Board → Int → Int → List Pos → Option (List JumpPath))
    (b : Board) (startRow startCol : Int) (capturedPath : List Pos)
    (over : Pos) (lr lc : Int) (st : ScanState) : Option ScanState := do
  let newCapturedPath := capturedPath ++ [over]
  let newBoard ← simulateMove b startRow startCol lr lc (some [over])
  let continuationMoves ← recur newBoard lr lc newCapturedPath
  if continuationMoves.length > 0 then
    some (st.1 ++ continuationMoves, true)
  else
    some (st.1 ++ [{ finalRow := lr, finalCol := lc, captured := newCapturedPath }], true)

/-- The branch of the direction loop of `findJumpPaths` for a man. -/
def manJump (recur : Board → Int → Int → List Pos → Option (List JumpPath))
    (b : Board) (startRow startCol : Int) (opponent : Player)
    (capturedPath : List Pos) (dir : Int × Int) (st : ScanState) :
    Option ScanState :=
  let jumpedOverRow := startRow + dir.1
  let jumpedOverCol := startCol + dir.2
  let landingRow := startRow + 2 * dir.1
  let landingCol := startCol + 2 * dir.2
  if inGrid landingRow landingCol then
    if isOpponentPiece (safeAt b jumpedOverRow jumpedOverCol) opponent &&
        (safeAt b landingRow landingCol).isNone then
      pushCapture recur b startRow startCol capturedPath
        { row := jumpedOverRow, col := jumpedOverCol } landingRow landingCol st
    else some st
  else some st

/-- The `while` loop of the king branch of `findJumpPaths` for one direction,
from the square `(r, c)` with the current `capturedPiecePos`; the first
argument bounds the number of iterations. -/
def kingScan (recur : Board → Int → Int → List Pos → Option (List JumpPath))
    (b : Board) (startRow startCol : Int) (opponent : Player)
    (capturedPath : List Pos) (dir : Int × Int) :
    Nat → Int → Int → Option Pos → ScanState → Option ScanState
  | 0, _, _, _, _ => none
  | n + 1, r, c, capturedPiecePos, st =>
    if inGrid r c then do
      let currentSquare ← cellAt b r c
      match currentSquare with
      | some q =>
        if q.player = opponent then
          match capturedPiecePos with
          | some _ => some st
          | none =>
            kingScan recur b startRow startCol opponent capturedPath dir n
              (r + dir.1) (c + dir.2) (some { row := r, col := c }) st
        else some st
      | none =>
        match capturedPiecePos with
        | some over => do
          let st1 ← pushCapture recur b startRow startCol capturedPath over r c st
          kingScan recur b startRow startCol opponent capturedPath dir n
            (r + dir.1) (c + dir.2) capturedPiecePos st1
        | none =>
          kingScan recur b startRow startCol opponent capturedPath dir n
            (r + dir.1) (c + dir.2) none st
    else some st

/-- The body of the direction loop of `findJumpPaths`. -/
def jumpStep (recur : Board → Int → Int → List Pos → Option (List JumpPath))
    (b : Board) (startRow startCol : Int) (piece : Piece) (opponent : Player)
    (capturedPath : List Pos) (st : ScanState) (dir : Int × Int) :
    Option ScanState :=
  if !piece.isKing then
    manJump recur b startRow startCol opponent capturedPath dir st
  else
    kingScan recur b startRow startCol opponent capturedPath dir 9
      (startRow + dir.1) (startCol + dir.2) none st

/-- The function `findJumpPaths` of `server.js`, with a bound on the depth of
the recursion as first argument. -/
def findJumpPathsAux : Nat → Board → Int → Int → Player → List Pos →
    Option (List JumpPath)
  | 0, _, _, _, _, _ => none
  | fuel + 1, b, startRow, startCol, currentPlayer, capturedPath => do
    let piece ← (← cellAt b startRow startCol)
    let opponent := opponentOf piece.player
    let st ← directions.foldlM
      (jumpStep (fun nb r c cp => findJumpPathsAux fuel nb r c currentPlayer cp)
        b startRow startCol piece opponent capturedPath) ([], false)
    if !st.2 && decide (capturedPath.length > 0) then
      some [{ finalRow := startRow, finalCol := startCol, captured := capturedPath }]
    else
      some st.1

/-- The number of occupied squares of a board. -/
def pieceCount (b : Board) : Nat :=
  (b.map fun row => row.countP Option.isSome).sum

/-- The function `findJumpPaths` of `server.js`.  Every recursive call is made
on a board with one piece fewer, so the number of pieces bounds the depth. -/
def findJumpPaths (b : Board) (startRow startCol : Int) (currentPlayer : Player)
    (capturedPath : List Pos) : Option (List JumpPath) :=
  findJumpPathsAux (pieceCount b + 1) b startRow startCol currentPlayer capturedPath

/-! ## `getAllPossibleMoves` -/

/-- The body of the first double loop of `getAllPossibleMoves`. -/
def captureStep (b : Board) (currentPlayer : Player) (acc : List Move)
    (sq : Int × Int) : Option (List Move) :=
  match safeAt b sq.1 sq.2 with
  | some piece =>
    if piece.player = currentPlayer then do
      let capturesForPiece ← findJumpPaths b sq.1 sq.2 currentPlayer []
      if capturesForPiece.length > 0 then
        some (acc ++ capturesForPiece.map fun path =>
          { startRow := sq.1, startCol := sq.2, row := path.finalRow,
            col := path.finalCol, captured := some path.captured })
      else some acc
    else some acc
  | none => some acc

/-- The body of the second double loop of `getAllPossibleMoves`. -/
def simpleMoveStep (b : Board) (currentPlayer : Player) (acc : List Move)
    (sq : Int × Int) : Option (List Move) :=
  match safeAt b sq.1 sq.2 with
  | some piece =>
    if piece.player = currentPlayer then do
      let simpleMovesForPiece ← findSimpleMoves b sq.1 sq.2 currentPlayer
      some (acc ++ simpleMovesForPiece.map fun move =>
        { startRow := sq.1, startCol := sq.2, row := move.row, col := move.col,
          captured := move.captured })
    else some acc
  | none => some acc

/-- The function `getAllPossibleMoves` of `server.js`. -/
def getAllPossibleMoves (b : Board) (currentPlayer : Player) : Option (List Move) := do
  let allPossibleCaptures ← allSquares.foldlM (captureStep b currentPlayer) []
  if allPossibleCaptures.length > 0 then
    some allPossibleCaptures
  else
    allSquares.foldlM (simpleMoveStep b currentPlayer) []

/-- The test `m.captured && m.captured.length > 0`. -/
def isCapture (m : Move) : Bool :=
  match m.captured with
  | some caps => decide (caps.length > 0)
  | none => false

/-- The handler of `/api/getPossibleMoves`: the legal moves of the piece on
`(startRow, startCol)`. -/
def apiGetPossibleMoves (b : Board) (startRow startCol : Int)
    (currentPlayer : Player) : Option (List Move) := do
  let allCaptures := (← getAllPossibleMoves b currentPlayer).filter isCapture
  if allCaptures.length > 0 then
    let pieceCaptures := allCaptures.filter fun m =>
      decide (m.startRow = startRow) && decide (m.startCol = startCol)
    if pieceCaptures.length > 0 then some pieceCaptures else some []
  else
    let moves ← findSimpleMoves b startRow startCol currentPlayer
    some (moves.map fun m =>
      { startRow := startRow, startCol := startCol, row := m.row, col := m.col,
        captured := none })

/-! ## Evaluation and search -/

/-- A JavaScript number that may be `-Infinity` (`⊥`) or `Infinity` (`⊤`). -/
abbrev JSNum := WithBot (WithTop ℚ)

/-- A finite score as a JavaScript number. -/
def JSNum.ofRat (q : ℚ) : JSNum := ((q : WithTop ℚ) : WithBot (WithTop ℚ))

/-- The body of the double loop of `evaluateBoard`. -/
def evalStep (b : Board) (player opponent : Player) (score : ℚ) (sq : Int × Int) :
    Option ℚ := do
  let cell ← cellAt b sq.1 sq.2
  match cell with
  | some piece =>
    if piece.player = player then
      let s1 := score + 10
      let s2 := if piece.isKing then s1 + 20 else s1
      let s3 := if player = Player.white then s2 + (7 - (sq.1 : ℚ)) * (1 / 2) else s2
      let s4 := if player = Player.black then s3 + (sq.1 : ℚ) * (1 / 2) else s3
      some s4
    else if piece.player = opponent then
      let s1 := score - 10
      let s2 := if piece.isKing then s1 - 20 else s1
      let s3 := if opponent = Player.white then s2 - (7 - (sq.1 : ℚ)) * (1 / 2) else s2
      let s4 := if opponent = Player.black then s3 - (sq.1 : ℚ) * (1 / 2) else s3
      some s4
    else some score
  | none => some score

/-- The function `evaluateBoard` of `server.js`. -/
def evaluateBoard (b : Board) (player : Player) : Option ℚ :=
  allSquares.foldlM (evalStep b player (opponentOf player)) 0

/-- The function `isGameOver` of `server.js`. -/
def isGameOver (b : Board) (player : Player) : Option Bool := do
  let moves ← getAllPossibleMoves b player
  some (decide (moves.length = 0))

/-- The `for` loop of the maximising branch of `minimax`; `child` is the
recursive call on a simulated board. -/
def maxLoop (child : Board → JSNum → JSNum → Option JSNum) (b : Board) :
    List Move → JSNum → JSNum → JSNum → Option JSNum
  | [], _, _, maxEval => some maxEval
  | move :: rest, alpha, beta, maxEval => do
    let simulatedBoard ← simulateMove b move.startRow move.startCol move.row move.col
      move.captured
    let evaluation ← child simulatedBoard alpha beta
    let maxEval1 := max maxEval evaluation
    let alpha1 := max alpha maxEval1
    if beta ≤ alpha1 then some maxEval1
    else maxLoop child b rest alpha1 beta maxEval1

/-- The `for` loop of the minimising branch of `minimax`. -/
def minLoop (child : Board → JSNum → JSNum → Option JSNum) (b : Board) :
    List Move → JSNum → JSNum → JSNum → Option JSNum
  | [], _, _, minEval => some minEval
  | move :: rest, alpha, beta, minEval => do
    let simulatedBoard ← simulateMove b move.startRow move.startCol move.row move.col
      move.captured
    let evaluation ← child simulatedBoard alpha beta
    let minEval1 := min minEval evaluation
    let beta1 := min beta minEval1
    if beta1 ≤ alpha then some minEval1
    else minLoop child b rest alpha beta1 minEval1

/-- The function `minimax` of `server.js`, by recursion on `depth`. -/
def minimax : Nat → Board → JSNum → JSNum → Bool → Player → Option JSNum
  | 0, b, _, _, maximizingPlayer, currentPlayer =>
    (evaluateBoard b
      (if maximizingPlayer then currentPlayer else opponentOf currentPlayer)).map
      JSNum.ofRat
  | depth + 1, b, alpha, beta, maximizingPlayer, currentPlayer => do
    let opponent := opponentOf currentPlayer
    if (← isGameOver b currentPlayer) then
      (evaluateBoard b (if maximizingPlayer then currentPlayer else opponent)).map
        JSNum.ofRat
    else
      let allPossibleMoves ← getAllPossibleMoves b currentPlayer
      if maximizingPlayer then
        maxLoop (fun sb a be => minimax depth sb a be false opponent) b
          allPossibleMoves alpha beta ⊥
      else
        minLoop (fun sb a be => minimax depth sb a be true opponent) b
          allPossibleMoves alpha beta ⊤

/-- The search of the claim on pruning: the maximising loop of `minimax`
that never breaks out, so that every sibling is explored. -/
def maxLoopAll (child : Board → Option JSNum) (b : Board) :
    List Move → JSNum → Option JSNum
  | [], maxEval => some maxEval
  | move :: rest, maxEval => do
    let simulatedBoard ← simulateMove b move.startRow move.startCol move.row move.col
      move.captured
    let evaluation ← child simulatedBoard
    maxLoopAll child b rest (max maxEval evaluation)

/-- The minimising loop of `minimax` that never breaks out. -/
def minLoopAll (child : Board → Option JSNum) (b : Board) :
    List Move → JSNum → Option JSNum
  | [], minEval => some minEval
  | move :: rest, minEval => do
    let simulatedBoard ← simulateMove b move.startRow move.startCol move.row move.col
      move.captured
    let evaluation ← child simulatedBoard
    minLoopAll child b rest (min minEval evaluation)

/-- The unpruned minimax of the claim on pruning: the same legal moves, the
same simulated children and the same terminal evaluation as `minimax`, with
no `break` in the sibling loops (so `alpha` and `beta` play no part). -/
def minimaxUnpruned : Nat → Board → Bool → Player → Option JSNum
  | 0, b, maximizingPlayer, currentPlayer =>
    (evaluateBoard b
      (if maximizingPlayer then currentPlayer else opponentOf currentPlayer)).map
      JSNum.ofRat
  | depth + 1, b, maximizingPlayer, currentPlayer => do
    let opponent := opponentOf currentPlayer
    if (← isGameOver b currentPlayer) then
      (evaluateBoard b (if maximizingPlayer then currentPlayer else opponent)).map
        JSNum.ofRat
    else
      let allPossibleMoves ← getAllPossibleMoves b currentPlayer
      if maximizingPlayer then
        maxLoopAll (fun sb => minimaxUnpruned depth sb false opponent) b
          allPossibleMoves ⊥
      else
        minLoopAll (fun sb => minimaxUnpruned depth sb true opponent) b
          allPossibleMoves ⊤

/-! ## Single jumps and jump chains -/

/-- A single jump: the captured square and the landing square. -/
structure Jump where
  over : Pos
  row : Int
  col : Int
deriving DecidableEq, Repr

/-- The capture that the man branch of `findJumpPaths` accepts in one
direction: the landing square is in the grid and empty, and the square in
between holds an opposing piece. -/
def manJumpsDir (b : Board) (startRow startCol : Int) (opponent : Player)
    (dir : Int × Int) : List Jump :=
  if inGrid (startRow + 2 * dir.1) (startCol + 2 * dir.2) &&
      (isOpponentPiece (safeAt b (startRow + dir.1) (startCol + dir.2)) opponent &&
        (safeAt b (startRow + 2 * dir.1) (startCol + 2 * dir.2)).isNone) then
    [{ over := { row := startRow + dir.1, col := startCol + dir.2 },
       row := startRow + 2 * dir.1, col := startCol + 2 * dir.2 }]
  else []

/-- The captures that the king branch of `findJumpPaths` accepts in one
direction: the scan of the `while` loop, from the square `(r, c)` with the
current `capturedPiecePos`, without the recursive search. -/
def kingJumpsDir (b : Board) (opponent : Player) (dir : Int × Int) :
    Nat → Int → Int → Option Pos → List Jump
  | 0, _, _, _ => []
  | n + 1, r, c, capturedPiecePos =>
    if inGrid r c then
      match safeAt b r c with
      | some q =>
        if q.player = opponent then
          match capturedPiecePos with
          | some _ => []
          | none => kingJumpsDir b opponent dir n (r + dir.1) (c + dir.2)
              (some { row := r, col := c })
        else []
      | none =>
        match capturedPiecePos with
        | some over =>
          { over := over, row := r, col := c } ::
            kingJumpsDir b opponent dir n (r + dir.1) (c + dir.2) capturedPiecePos
        | none => kingJumpsDir b opponent dir n (r + dir.1) (c + dir.2) none
    else []

/-- The single jumps that `findJumpPaths` accepts for `piece` standing on
`(startRow, startCol)`, in the order in which the direction loop finds them. -/
def singleJumps (b : Board) (startRow startCol : Int) (piece : Piece) : List Jump :=
  directions.flatMap fun dir =>
    if !piece.isKing then
      manJumpsDir b startRow startCol (opponentOf piece.player) dir
    else
      kingJumpsDir b (opponentOf piece.player) dir 9
        (startRow + dir.1) (startCol + dir.2) none

/-- The single jumps available to the piece standing on `(r, c)`; none when
the square is empty. -/
def jumpsAt (b : Board) (r c : Int) : List Jump :=
  match safeAt b r c with
  | some piece => singleJumps b r c piece
  | none => []

/-- A chain of jumps taken from the lists `jumpsAt`, performed one by one; an
auxiliary form of `JumpChain` below, to which it is equivalent on well-formed
boards. -/
inductive ScanChain : Board → Int → Int → List Pos → Int → Int → Board → Prop
  | one {b nb : Board} {r c : Int} {j : Jump} :
      j ∈ jumpsAt b r c →
      simulateMove b r c j.row j.col (some [j.over]) = some nb →
      ScanChain b r c [j.over] j.row j.col nb
  | cons {b nb fb : Board} {r c fr fc : Int} {j : Jump} {caps : List Pos} :
      j ∈ jumpsAt b r c →
      simulateMove b r c j.row j.col (some [j.over]) = some nb →
      ScanChain nb j.row j.col caps fr fc fb →
      ScanChain b r c (j.over :: caps) fr fc fb

/-- A jump available to a man on `(r, c)`: for one of the four diagonal
directions, the square two steps away is in the grid and empty, and the
square in between holds a piece of the opponent.  (The capture test of
`findJumpPaths` does not look at the colour's direction of travel.) -/
def ManJumpAvailable (b : Board) (opponent : Player) (r c : Int) (j : Jump) : Prop :=
  ∃ d ∈ directions,
    j.over = { row := r + d.1, col := c + d.2 } ∧
    j.row = r + 2 * d.1 ∧ j.col = c + 2 * d.2 ∧
    inGrid j.row j.col = true ∧
    isOpponentPiece (safeAt b (r + d.1) (c + d.2)) opponent = true ∧
    safeAt b j.row j.col = none

/-- A jump available to a king on `(r, c)`: along one of the four diagonal
directions the first piece met, at distance `k`, belongs to the opponent, and
the landing square, at distance `m > k`, is in the grid with every square
between the captured piece and it (itself included) empty. -/
def KingJumpAvailable (b : Board) (opponent : Player) (r c : Int) (j : Jump) : Prop :=
  ∃ d ∈ directions, ∃ k m : Nat, 1 ≤ k ∧ k < m ∧
    j.over = { row := r + k * d.1, col := c + k * d.2 } ∧
    j.row = r + m * d.1 ∧ j.col = c + m * d.2 ∧
    inGrid j.row j.col = true ∧
    (∀ i : Nat, 1 ≤ i → i < k → safeAt b (r + i * d.1) (c + i * d.2) = none) ∧
    isOpponentPiece (safeAt b (r + k * d.1) (c + k * d.2)) opponent = true ∧
    (∀ i : Nat, k < i → i ≤ m → safeAt b (r + i * d.1) (c + i * d.2) = none)

/-- A single jump available to the piece standing on `(r, c)`. -/
def JumpAvailable (b : Board) (r c : Int) (j : Jump) : Prop :=
  ∃ piece, safeAt b r c = some piece ∧
    ((piece.isKing = false ∧ ManJumpAvailable b (opponentOf piece.player) r c j) ∨
      (piece.isKing = true ∧ KingJumpAvailable b (opponentOf piece.player) r c j))

/-- A chain of single jumps performed one by one: `JumpChain b r c caps fr fc fb`
holds when the piece on `(r, c)` of `b` can jump over the squares `caps` in
this order, every jump being available on the snapshot left by the previous
one (captured piece removed, piece relocated and promoted on its back rank,
as `simulateMove` does for that jump), ending on `(fr, fc)` with the
snapshot `fb`. -/
inductive JumpChain : Board → Int → Int → List Pos → Int → Int → Board → Prop
  | one {b nb : Board} {r c : Int} {j : Jump} :
      JumpAvailable b r c j →
      simulateMove b r c j.row j.col (some [j.over]) = some nb →
      JumpChain b r c [j.over] j.row j.col nb
  | cons {b nb fb : Board} {r c fr fc : Int} {j : Jump} {caps : List Pos} :
      JumpAvailable b r c j →
      simulateMove b r c j.row j.col (some [j.over]) = some nb →
      JumpChain nb j.row j.col caps fr fc fb →
      JumpChain b r c (j.over :: caps) fr fc fb

/-! ## The opening layout of the client -/

/-- The write `boardState[i][j] = v` of the client on its grid of piece
codes. -/
def setCode (g : List (List Nat)) (i j v : Nat) : List (List Nat) :=
  g.set i ((g.getD i []).set j v)

/-- The loops of `createBoard` that place the men of one side on the squares
with `i + j` odd of the rows `rows`. -/
def placeMen (g : List (List Nat)) (rows : List Nat) (code : Nat) : List (List Nat) :=
  rows.foldl (fun g1 i => (List.range 8).foldl
    (fun g2 j => if (i + j) % 2 ≠ 0 then setCode g2 i j code else g2) g1) g

/-- The board state built by `createBoard` of `script.js`, in the client's
piece codes (`0` empty, `1` white man, `2` black man, `3` white king,
`4` black king). -/
def createBoard : List (List Nat) :=
  let zeros := List.replicate 8 (List.replicate 8 0)
  let withBlack := placeMen zeros [0, 1, 2] 2
  placeMen withBlack [5, 6, 7] 1

/-- Modelled from the spec: the source has no code that turns the client's
piece codes into the cells of the server; a code is encoded as the cell
`{player, isKing}` that the comment on the client's codes describes. -/
def cellOfCode : Nat → Cell
  | 1 => some { player := Player.white, isKing := false }
  | 2 => some { player := Player.black, isKing := false }
  | 3 => some { player := Player.white, isKing := true }
  | 4 => some { player := Player.black, isKing := true }
  | _ => none

/-- The opening layout as a board of the server. -/
def openingBoard : Board := createBoard.map fun row => row.map cellOfCode

/-! ## Boards used in the examples -/

/-- An empty square. -/
def o : Cell := none

/-- A white man. -/
def wM : Cell := some { player := Player.white, isKing := false }

/-- A black man. -/
def bM : Cell := some { player := Player.black, isKing := false }

/-- A white king. -/
def wK : Cell := some { player := Player.white, isKing := true }

/-- A black king. -/
def bK : Cell := some { player := Player.black, isKing := true }

/-- A white man on `(4, 1)`, black men on `(3, 2)` and `(1, 4)`. -/
def chainBoard : Board :=
  [[o, o, o, o, o, o, o, o],
   [o, o, o, o, bM, o, o, o],
   [o, o, o, o, o, o, o, o],
   [o, o, bM, o, o, o, o, o],
   [o, wM, o, o, o, o, o, o],
   [o, o, o, o, o, o, o, o],
   [o, o, o, o, o, o, o, o],
   [o, o, o, o, o, o, o, o]]

/-- A white king on `(0, 3)` ringed by black men on `(1, 2)`, `(1, 4)`,
`(3, 2)` and `(3, 4)`: the king can capture all four and come back to its
start square. -/
def ringBoard : Board :=
  [[o, o, o, wK, o, o, o, o],
   [o, o, bM, o, bM, o, o, o],
   [o, o, o, o, o, o, o, o],
   [o, o, bM, o, bM, o, o, o],
   [o, o, o, o, o, o, o, o],
   [o, o, o, o, o, o, o, o],
   [o, o, o, o, o, o, o, o],
   [o, o, o, o, o, o, o, o]]

/-- A white man on `(2, 3)`, black men on `(1, 4)` and `(3, 2)`: the man
captures `(1, 4)`, is crowned on `(0, 5)` and, as a king, captures `(3, 2)`. -/
def promoBoard : Board :=
  [[o, o, o, o, o, o, o, o],
   [o, o, o, o, bM, o, o, o],
   [o, o, o, wM, o, o, o, o],
   [o, o, bM, o, o, o, o, o],
   [o, o, o, o, o, o, o, o],
   [o, o, o, o, o, o, o, o],
   [o, o, o, o, o, o, o, o],
   [o, o, o, o, o, o, o, o]]

/-! ## Auxiliary definitions for the statements -/

/-- The piece after landing on `row`: the promotion test of `simulateMove`. -/
def crown (p : Piece) (row : Int) : Piece :=
  if p.player = Player.white ∧ row = 0 then { p with isKing := true }
  else if p.player = Player.black ∧ row = 7 then { p with isKing := true }
  else p

/-- The entries that `pushCapture` adds to `paths` for the jump `j`. -/
def jumpResults (recur : Board → Int → Int → List Pos → Option (List JumpPath))
    (b : Board) (startRow startCol : Int) (capturedPath : List Pos) (j : Jump) :
    Option (List JumpPath) := do
  let newBoard ← simulateMove b startRow startCol j.row j.col (some [j.over])
  let continuationMoves ← recur newBoard j.row j.col (capturedPath ++ [j.over])
  if continuationMoves.length > 0 then some continuationMoves
  else some [{ finalRow := j.row, finalCol := j.col, captured := capturedPath ++ [j.over] }]

/-- The entries pushed for a list of jumps, in order: the direction loop of
`findJumpPaths` seen as a fold of `pushCapture` over the accepted jumps. -/
def pushJumps (recur : Board → Int → Int → List Pos → Option (List JumpPath))
    (b : Board) (sr sc : Int) (cp : List Pos) (st : ScanState) (js : List Jump) :
    Option ScanState :=
  js.foldlM (fun s j => pushCapture recur b sr sc cp j.over j.row j.col s) st

/-- The move object built from an entry of `findJumpPaths` for the piece on
`(r, c)`. -/
def moveOfPath (r c : Int) (path : JumpPath) : Move :=
  { startRow := r, startCol := c, row := path.finalRow, col := path.finalCol,
    captured := some path.captured }

/-- The move object built from an entry of `findSimpleMoves` for the piece on
`(r, c)`. -/
def moveOfOption (r c : Int) (move : MoveOption) : Move :=
  { startRow := r, startCol := c, row := move.row, col := move.col,
    captured := move.captured }

/-- The moves that the first loop of `getAllPossibleMoves` pushes for one
square. -/
def capturesOf (b : Board) (cur : Player) (sq : Int × Int) : List Move :=
  match safeAt b sq.1 sq.2 with
  | some piece =>
    if piece.player = cur then
      ((findJumpPaths b sq.1 sq.2 cur []).getD []).map (moveOfPath sq.1 sq.2)
    else []
  | none => []

/-- The moves that the second loop of `getAllPossibleMoves` pushes for one
square. -/
def simplesOf (b : Board) (cur : Player) (sq : Int × Int) : List Move :=
  match safeAt b sq.1 sq.2 with
  | some piece =>
    if piece.player = cur then
      ((findSimpleMoves b sq.1 sq.2 cur).getD []).map (moveOfOption sq.1 sq.2)
    else []
  | none => []

/-- The relation between the value `r` returned by an alpha-beta search with
window `(α, β)` and the value `v` of the unpruned search: `r` is `v` inside
the window, an upper bound of `v` at or below `α`, a lower bound of `v` at or
above `β`. -/
def Bracket {L : Type} [LinearOrder L] (α β v r : L) : Prop :=
  (r ≤ α → v ≤ r) ∧ (β ≤ r → r ≤ v) ∧ (α < r → r < β → r = v)

/-- The board `chainBoard` after the first jump of the white man. -/
def chainBoard1 : Board :=
  [[o, o, o, o, o, o, o, o],
   [o, o, o, o, bM, o, o, o],
   [o, o, o, wM, o, o, o, o],
   [o, o, o, o, o, o, o, o],
   [o, o, o, o, o, o, o, o],
   [o, o, o, o, o, o, o, o],
   [o, o, o, o, o, o, o, o],
   [o, o, o, o, o, o, o, o]]

/-- The board `chainBoard` after both jumps: a white king on `(0, 5)`. -/
def chainBoard2 : Board :=
  [[o, o, o, o, o, wK, o, o],
   [o, o, o, o, o, o, o, o],
   [o, o, o, o, o, o, o, o],
   [o, o, o, o, o, o, o, o],
   [o, o, o, o, o, o, o, o],
   [o, o, o, o, o, o, o, o],
   [o, o, o, o, o, o, o, o],
   [o, o, o, o, o, o, o, o]]

/-- The board `promoBoard` after the first jump: the man has been crowned on
`(0, 5)`. -/
def promoBoard1 : Board :=
  [[o, o, o, o, o, wK, o, o],
   [o, o, o, o, o, o, o, o],
   [o, o, o, o, o, o, o, o],
   [o, o, bM, o, o, o, o, o],
   [o, o, o, o, o, o, o, o],
   [o, o, o, o, o, o, o, o],
   [o, o, o, o, o, o, o, o],
   [o, o, o, o, o, o, o, o]]

/-- The board `promoBoard` after both jumps, as `findJumpPaths` builds it: a
white king on `(4, 1)`. -/
def promoBoard2 : Board :=
  [[o, o, o, o, o, o, o, o],
   [o, o, o, o, o, o, o, o],
   [o, o, o, o, o, o, o, o],
   [o, o, o, o, o, o, o, o],
   [o, wK, o, o, o, o, o, o],
   [o, o, o, o, o, o, o, o],
   [o, o, o, o, o, o, o, o],
   [o, o, o, o, o, o, o, o]]

/-- A white king on `(1, 4)` ringed by black men on `(2, 3)`, `(2, 5)`,
`(4, 3)` and `(4, 5)`: the king can capture all four and come back to its
start square. -/
def vanishBoard : Board :=
  [[o, o, o, o, o, o, o, o],
   [o, o, o, o, wK, o, o, o],
   [o, o, o, bM, o, bM, o, o],
   [o, o, o, o, o, o, o, o],
   [o, o, o, bM, o, bM, o, o],
   [o, o, o, o, o, o, o, o],
   [o, o, o, o, o, o, o, o],
   [o, o, o, o, o, o, o, o]]

/-- The board without any piece. -/
def emptyBoard : Board :=
  [[o, o, o, o, o, o, o, o],
   [o, o, o, o, o, o, o, o],
   [o, o, o, o, o, o, o, o],
   [o, o, o, o, o, o, o, o],
   [o, o, o, o, o, o, o, o],
   [o, o, o, o, o, o, o, o],
   [o, o, o, o, o, o, o, o],
   [o, o, o, o, o, o, o, o]]

/-- A black king on `(7, 2)` and white men on `(4, 1)`, `(4, 3)`, `(6, 1)` and
`(6, 3)`, white to move.  After the white move `(4, 3) → (3, 4)` the black
king has a capture chain that comes back to `(7, 2)`. -/
def pruneBoard : Board :=
  [[o, o, o, o, o, o, o, o],
   [o, o, o, o, o, o, o, o],
   [o, o, o, o, o, o, o, o],
   [o, o, o, o, o, o, o, o],
   [o, wM, o, wM, o, o, o, o],
   [o, o, o, o, o, o, o, o],
   [o, wM, o, wM, o, o, o, o],
   [o, o, bK, o, o, o, o, o]]

/-! ## The best-move driver -/

/-- The constant `SEARCH_DEPTH` of the handler of `/api/getAIMove`. -/
def SEARCH_DEPTH : Nat := 5

/-- The score that the handler of `/api/getAIMove` computes for a move:
`minimax(simulatedBoard, SEARCH_DEPTH - 1, -Infinity, Infinity, false,
OPPONENT_PLAYER)` on the board simulated for the move. -/
def moveScore (b : Board) (opponentPlayer : Player) (move : Move) : Option JSNum := do
  let simulatedBoard ← simulateMove b move.startRow move.startCol move.row move.col
    move.captured
  minimax (SEARCH_DEPTH - 1) simulatedBoard ⊥ ⊤ false opponentPlayer

/-- The `for` loop of the handler of `/api/getAIMove` that keeps the first
move of strictly greatest score, with the current `bestScore` and
`bestMove`. -/
def bestLoop (b : Board) (opponentPlayer : Player) :
    List Move → JSNum → Option Move → Option (JSNum × Option Move)
  | [], bestScore, bestMove => some (bestScore, bestMove)
  | move :: rest, bestScore, bestMove => do
    let score ← moveScore b opponentPlayer move
    if score > bestScore then bestLoop b opponentPlayer rest score (some move)
    else bestLoop b opponentPlayer rest bestScore bestMove

/-- The call `allMovesForAI.filter(move => score === bestScore)` of the
handler of `/api/getAIMove`, the score being computed again for every move. -/
def equallyGoodMoves (b : Board) (opponentPlayer : Player) (bestScore : JSNum) :
    List Move → Option (List Move)
  | [] => some []
  | move :: rest => do
    let score ← moveScore b opponentPlayer move
    let tail ← equallyGoodMoves b opponentPlayer bestScore rest
    if score = bestScore then some (move :: tail) else some tail

/-- The index `Math.floor(Math.random() * n)`, for the value `random` of
`Math.random()`. -/
def randomIndex (random : ℚ) (n : Nat) : Nat := (⌊random * n⌋).toNat

/-- The handler of `/api/getAIMove`, for the value `random` returned by
`Math.random()`.  The result `some none` is the response `{ move: null }`. -/
def apiGetAIMove (b : Board) (currentPlayer : Player) (random : ℚ) :
    Option (Option Move) := do
  let opponentPlayer := opponentOf currentPlayer
  let allMovesForAI ← getAllPossibleMoves b currentPlayer
  if allMovesForAI.length = 0 then some none
  else
    let best ← bestLoop b opponentPlayer allMovesForAI ⊥ none
    let equallyGood ← equallyGoodMoves b opponentPlayer best.1 allMovesForAI
    if equallyGood.length > 0 then
      some (equallyGood[randomIndex random equallyGood.length]?)
    else some best.2

/-! ## The score of a board, piece by piece -/

/-- The number of rows a piece standing on `row` has advanced toward its
promotion row: `7 - row` for white, `row` for black. -/
def advancement (p : Piece) (row : Int) : ℚ :=
  if p.player = Player.white then 7 - (row : ℚ) else (row : ℚ)

/-- The share of one piece in the score of a board for `side`:
`s * (10 + (20 for a king) + 0.5 * advancement)` with `s = 1` for a piece of
`side` and `s = -1` for a piece of the opponent. -/
def pieceScore (side : Player) (row : Int) (p : Piece) : ℚ :=
  (if p.player = side then 1 else -1) *
    (10 + (if p.isKing then 20 else 0) + (1 / 2) * advancement p row)

/-- The share of one square in the score of a board for `side`. -/
def cellScore (side : Player) (row : Int) (cell : Cell) : ℚ :=
  match cell with
  | some p => pieceScore side row p
  | none => 0

/-- The sum of the shares of all pieces of a board. -/
def boardScore (b : Board) (side : Player) : ℚ :=
  (allSquares.map fun sq => cellScore side sq.1 (safeAt b sq.1 sq.2)).sum

/-- Landing on `row` is landing on the back rank of the colour: row 0 for
white, row 7 for black. -/
def isBackRank (p : Player) (row : Int) : Prop :=
  (p = Player.white ∧ row = 0) ∨ (p = Player.black ∧ row = 7)

/-- A white man on `(2, 3)` and a black man on `(3, 2)`, behind it. -/
def backBoard : Board :=
  [[o, o, o, o, o, o, o, o],
   [o, o, o, o, o, o, o, o],
   [o, o, o, wM, o, o, o, o],
   [o, o, bM, o, o, o, o, o],
   [o, o, o, o, o, o, o, o],
   [o, o, o, o, o, o, o, o],
   [o, o, o, o, o, o, o, o],
   [o, o, o, o, o, o, o, o]]

/-- A white man on `(4, 3)`, black men on `(3, 2)`, `(3, 4)` and `(1, 4)`. -/
def branchBoard : Board :=
  [[o, o, o, o, o, o, o, o],
   [o, o, o, o, bM, o, o, o],
   [o, o, o, o, o, o, o, o],
   [o, o, bM, o, bM, o, o, o],
   [o, o, o, wM, o, o, o, o],
   [o, o, o, o, o, o, o, o],
   [o, o, o, o, o, o, o, o],
   [o, o, o, o, o, o, o, o]]

/-- The legal moves of white on `promoBoard`, in the order of
`getAllPossibleMoves`. -/
def promoMoves : List Move :=
  [{ startRow := 2, startCol := 3, row := 4, col := 1, captured := some [⟨1, 4⟩, ⟨3, 2⟩] },
   { startRow := 2, startCol := 3, row := 5, col := 0, captured := some [⟨1, 4⟩, ⟨3, 2⟩] },
   { startRow := 2, startCol := 3, row := 4, col := 1, captured := some [⟨3, 2⟩] }]

/-- The squares that the `while` loop of `findSimpleMoves` pushes for one
direction from the square `(r, c)`, in order: the loop of `simpleScan`
without the array `moves`. -/
def simpleRay (b : Board) (isKing : Bool) (dir : Int × Int) :
    Nat → Int → Int → List MoveOption
  | 0, _, _ => []
  | n + 1, r, c =>
    if inGrid r c && (safeAt b r c).isNone then
      { row := r, col := c, captured := none } ::
        (if !isKing then [] else simpleRay b isKing dir n (r + dir.1) (c + dir.2))
    else []

/-- The entries that `findSimpleMoves` pushes for `piece` standing on
`(row, col)`, direction by direction. -/
def simpleMovesOf (b : Board) (row col : Int) (piece : Piece) : List MoveOption :=
  directions.flatMap fun dir =>
    if !piece.isKing && ((piece.player = Player.white && decide (dir.1 > 0)) ||
        (piece.player = Player.black && decide (dir.1 < 0))) then []
    else simpleRay b piece.isKing dir 9 (row + dir.1) (col + dir.2)

/-- A diagonal direction along which `piece` may make a simple move: any of
the four for a King, the two forward ones for a man (toward row 0 for white,
toward row 7 for black). -/
def AllowedDirection (piece : Piece) (dir : Int × Int) : Prop :=
  dir ∈ directions ∧
    (piece.isKing = true ∨ (piece.player = Player.white ∧ dir.1 = -1) ∨
      (piece.player = Player.black ∧ dir.1 = 1))

/-- The number of squares of the grid on which the guarded read finds a piece
of `side` (the test `piece && piece.player === side` of the loops of
`getAllPossibleMoves`). -/
def piecesOf (b : Board) (side : Player) : Nat :=
  allSquares.countP fun sq => isOpponentPiece (safeAt b sq.1 sq.2) side

/-- A white king on `(0, 1)`, black men on `(1, 2)` and `(4, 5)` of the same
diagonal: after the first capture the king may land on `(2, 3)` or `(3, 4)`,
and captures the second man from either square. -/
def dupBoard : Board :=
  [[o, wK, o, o, o, o, o, o],
   [o, o, bM, o, o, o, o, o],
   [o, o, o, o, o, o, o, o],
   [o, o, o, o, o, o, o, o],
   [o, o, o, o, o, bM, o, o],
   [o, o, o, o, o, o, o, o],
   [o, o, o, o, o, o, o, o],
   [o, o, o, o, o, o, o, o]]

/-- The list returned by `getAllPossibleMoves` for white on `dupBoard`. -/
def dupMoves : List Move :=
  [{ startRow := 0, startCol := 1, row := 5, col := 6, captured := some [⟨1, 2⟩, ⟨4, 5⟩] },
   { startRow := 0, startCol := 1, row := 6, col := 7, captured := some [⟨1, 2⟩, ⟨4, 5⟩] },
   { startRow := 0, startCol := 1, row := 5, col := 6, captured := some [⟨1, 2⟩, ⟨4, 5⟩] },
   { startRow := 0, startCol := 1, row := 6, col := 7, captured := some [⟨1, 2⟩, ⟨4, 5⟩] }]

/-- A white king on `(4, 3)` with a white man on `(2, 1)` and a black man on
`(6, 5)`. -/
def rayBoard : Board :=
  [[o, o, o, o, o, o, o, o],
   [o, o, o, o, o, o, o, o],
   [o, wM, o, o, o, o, o, o],
   [o, o, o, o, o, o, o, o],
   [o, o, o, wK, o, o, o, o],
   [o, o, o, o, o, o, o, o],
   [o, o, o, o, o, bM, o, o],
   [o, o, o, o, o, o, o, o]]

/-- The calls of `minimax` that the search started by the best-move driver
for the side `P` can make: the first call
`minimax(root, depth, alpha, beta, false, opponent(P))` on the board `root`
simulated for a move of `P`, and, from a call with remaining depth `d + 1`
whose side to move has a legal move, the recursive call on the board simulated
for each legal move, with the flag negated and the other side to move.
`SearchNode P root depth d b flag cur` is the call
`minimax(b, d, _, _, flag, cur)`. -/
inductive SearchNode (P : Player) (root : Board) (depth : Nat) :
    Nat → Board → Bool → Player → Prop
  | root : SearchNode P root depth depth root false (opponentOf P)
  | child {d : Nat} {b sb : Board} {flag : Bool} {cur : Player} {moves : List Move}
      {m : Move} :
      SearchNode P root depth (d + 1) b flag cur →
      isGameOver b cur = some false →
      getAllPossibleMoves b cur = some moves → m ∈ moves →
      simulateMove b m.startRow m.startCol m.row m.col m.captured = some sb →
      SearchNode P root depth d sb (!flag) (opponentOf cur)

/-- The boards reached by successive legal moves: `Reachable k b side fb`
holds when `fb` results from `b`, with `side` to move, after `k` moves, each an
entry of `getAllPossibleMoves` for the side to move applied by `simulateMove`,
the sides alternating. -/
inductive Reachable : Nat → Board → Player → Board → Prop
  | here {b : Board} {side : Player} : Reachable 0 b side b
  | move {k : Nat} {b sb fb : Board} {side : Player} {moves : List Move} {m : Move} :
      getAllPossibleMoves b side = some moves → m ∈ moves →
      simulateMove b m.startRow m.startCol m.row m.col m.captured = some sb →
      Reachable k sb (opponentOf side) fb →
      Reachable (k + 1) b side fb

/-- The board that one call of `simulateMove` builds from `promoBoard` for the
chain `(2, 3) → (4, 1)` capturing `(1, 4)` and `(3, 2)`: a white man on
`(4, 1)`. -/
def promoBoardOneCall : Board :=
  [[o, o, o, o, o, o, o, o],
   [o, o, o, o, o, o, o, o],
   [o, o, o, o, o, o, o, o],
   [o, o, o, o, o, o, o, o],
   [o, wM, o, o, o, o, o, o],
   [o, o, o, o, o, o, o, o],
   [o, o, o, o, o, o, o, o],
   [o, o, o, o, o, o, o, o]]

/-- The board `promoBoard1` after the black man has moved from `(3, 2)` to
`(4, 1)`. -/
def replyBoard : Board :=
  [[o, o, o, o, o, wK, o, o],
   [o, o, o, o, o, o, o, o],
   [o, o, o, o, o, o, o, o],
   [o, o, o, o, o, o, o, o],
   [o, bM, o, o, o, o, o, o],
   [o, o, o, o, o, o, o, o],
   [o, o, o, o, o, o, o, o],
   [o, o, o, o, o, o, o, o]]

/-! ## The move computation of the client (`script.js`) -/

/-- A move object of the client: `{ row, col }` for a simple move (no
`captured` property, `none`), `{ row, col, captured: { row, col } }` for a
capture. -/
structure ClientMove where
  row : Int
  col : Int
  captured : Option Pos
deriving DecidableEq, Repr

/-- A well-formed grid of the client: eight rows of eight piece codes, each
code one of `0` (empty), `1`, `2` (white and black man), `3`, `4` (white and
black king). -/
def ClientWellFormed (g : List (List Nat)) : Prop :=
  g.length = 8 ∧ ∀ row ∈ g, row.length = 8 ∧ ∀ code ∈ row, code ≤ 4

instance (g : List (List Nat)) : Decidable (ClientWellFormed g) := by
  unfold ClientWellFormed
  infer_instance

/-- The read `board[r][c]` of the client: it throws (`none`) when `board[r]`
is `undefined`, and yields `undefined` (`some none`) when the row has no
element `c`. -/
def codeAt (g : List (List Nat)) (r c : Int) : Option (Option Nat) :=
  if 0 ≤ r then (g[r.toNat]?).map fun row => if 0 ≤ c then row[c.toNat]? else none
  else none

/-- The test `code === 1 || code === 3`. -/
def isWhiteCode (code : Option Nat) : Bool :=
  decide (code = some 1) || decide (code = some 3)

/-- The colour `(code === 1 || code === 3) ? 'white' : 'black'`. -/
def codeColor (code : Option Nat) : Player :=
  if isWhiteCode code then Player.white else Player.black

/-- The body of the loops of the client's `getPossibleMoves` for a man and
the direction `(dRow, dCol)`: the step to the adjacent square and the jump
over it. -/
def clientManStep (g : List (List Nat)) (row col : Int) (myColor : Player)
    (dRow dCol : Int) (moves : List ClientMove) : Option (List ClientMove) := do
  let newRow := row + dRow
  let newCol := col + dCol
  let moves1 ←
    if inGrid newRow newCol then do
      let square ← codeAt g newRow newCol
      if square = some 0 then
        some (moves ++ [{ row := newRow, col := newCol, captured := none }])
      else some moves
    else some moves
  let jumpRow := row + dRow * 2
  let jumpCol := col + dCol * 2
  if inGrid jumpRow jumpCol then do
    let landing ← codeAt g jumpRow jumpCol
    if landing = some 0 then do
      let capturedPiece ← codeAt g newRow newCol
      if capturedPiece ≠ some 0 then
        if codeColor capturedPiece ≠ myColor then
          some (moves1 ++ [⟨jumpRow, jumpCol, some ⟨newRow, newCol⟩⟩])
        else some moves1
      else some moves1
    else some moves1
  else some moves1

/-- The `while` loop of the client's `getPossibleMoves` for a King and the
direction `(dRow, dCol)`, from the square `(tempRow, tempCol)` with the current
`capturedPiece` and `foundOpponent`; the first argument bounds the number of
iterations (a diagonal run inside the grid has at most eight squares). -/
def clientKingScan (g : List (List Nat)) (myColor : Player) (dRow dCol : Int) :
    Nat → Int → Int → Option Pos → Bool → List ClientMove → Option (List ClientMove)
  | 0, _, _, _, _, _ => none
  | n + 1, tempRow, tempCol, capturedPiece, foundOpponent, moves =>
    if inGrid tempRow tempCol then do
      let nextSquare ← codeAt g tempRow tempCol
      let nextPieceColor := codeColor nextSquare
      if nextSquare = some 0 then
        if foundOpponent then
          clientKingScan g myColor dRow dCol n (tempRow + dRow) (tempCol + dCol)
            capturedPiece foundOpponent
            (moves ++ [{ row := tempRow, col := tempCol, captured := capturedPiece }])
        else
          clientKingScan g myColor dRow dCol n (tempRow + dRow) (tempCol + dCol)
            capturedPiece foundOpponent
            (moves ++ [{ row := tempRow, col := tempCol, captured := none }])
      else if nextPieceColor = myColor then some moves
      else if foundOpponent then some moves
      else
        clientKingScan g myColor dRow dCol n (tempRow + dRow) (tempCol + dCol)
          (some { row := tempRow, col := tempCol }) true moves
    else some moves

/-- The function `getPossibleMoves(row, col, board)` of `script.js`. -/
def getPossibleMoves (row col : Int) (g : List (List Nat)) : Option (List ClientMove) := do
  let pieceType ← codeAt g row col
  let isKing : Bool := match pieceType with
    | some code => decide (code > 2)
    | none => false
  let isWhite := isWhiteCode pieceType
  let rowDirections : List Int := if isKing then [-1, 1] else if isWhite then [-1] else [1]
  let myColor := if isWhite then Player.white else Player.black
  rowDirections.foldlM (fun moves dRow =>
    ([-1, 1] : List Int).foldlM (fun moves1 dCol =>
      if !isKing then clientManStep g row col myColor dRow dCol moves1
      else clientKingScan g myColor dRow dCol 9 (row + dRow) (col + dCol) none false moves1)
      moves) []

/-- The moves that the King loop of the client's `getPossibleMoves` pushes
for one direction from the square `(r, c)`, in order: the loop of
`clientKingScan` without the array `moves`. -/
def clientKingRay (g : List (List Nat)) (myColor : Player) (dRow dCol : Int) :
    Nat → Int → Int → Option Pos → Bool → List ClientMove
  | 0, _, _, _, _ => []
  | n + 1, r, c, capturedPiece, foundOpponent =>
    if inGrid r c then
      match codeAt g r c with
      | none => []
      | some nextSquare =>
        if nextSquare = some 0 then
          { row := r, col := c, captured := if foundOpponent then capturedPiece else none } ::
            clientKingRay g myColor dRow dCol n (r + dRow) (c + dCol) capturedPiece
              foundOpponent
        else if codeColor nextSquare = myColor then []
        else if foundOpponent then []
        else clientKingRay g myColor dRow dCol n (r + dRow) (c + dCol)
          (some { row := r, col := c }) true
    else []

/-- The square `(r, c)` of the client's grid is empty. -/
def ClientEmpty (g : List (List Nat)) (r c : Int) : Prop :=
  codeAt g r c = some (some 0)

/-- The square `(r, c)` of the client's grid holds a piece whose colour is not
`myColor`. -/
def ClientOpposing (g : List (List Nat)) (myColor : Player) (r c : Int) : Prop :=
  ∃ code, codeAt g r c = some (some code) ∧ code ≠ 0 ∧ codeColor (some code) ≠ myColor

/-- A grid of the client with a white king on `(4, 3)`, a white man on
`(2, 1)`, black men on `(6, 5)`, `(2, 5)` and `(1, 6)`. -/
def clientBoard : List (List Nat) :=
  [[0, 0, 0, 0, 0, 0, 0, 0],
   [0, 0, 0, 0, 0, 0, 2, 0],
   [0, 1, 0, 0, 0, 2, 0, 0],
   [0, 0, 0, 0, 0, 0, 0, 0],
   [0, 0, 0, 3, 0, 0, 0, 0],
   [0, 0, 0, 0, 0, 0, 0, 0],
   [0, 0, 0, 0, 0, 2, 0, 0],
   [0, 0, 0, 0, 0, 0, 0, 0]]

/-! ## A store of JavaScript objects, for the aliasing behaviour of `simulateMove` -/

/-- A store of JavaScript objects, each with an address: piece objects
`{ player, isKing }`, row arrays (each element `null`, written `none`, or the
address of a piece object) and board arrays (each element the address of a row
array).  `next` is the first address not yet in use. -/
structure Store where
  next : Nat
  pieces : Nat → Option Piece
  rows : Nat → Option (List (Option Nat))
  boards : Nat → Option (List Nat)

/-- The value of an element of a row array of the store: `null`, or the piece
object it refers to. -/
def Store.readCell (s : Store) (cell : Option Nat) : Cell :=
  cell.bind s.pieces

/-- The rows of the board array at address `b`, each as the list of its
elements. -/
def Store.view (s : Store) (b : Nat) : List (List (Option Nat)) :=
  ((s.boards b).getD []).map fun rowRef => (s.rows rowRef).getD []

/-- The contents of the board array at address `b`: the board as a value, as
`JSON.stringify` sees it. -/
def Store.readBoard (s : Store) (b : Nat) : Board :=
  (s.view b).map fun row => row.map s.readCell

/-- The allocation of a new piece object with the contents `p`, at the address
`s.next`. -/
def Store.pushPiece (s : Store) (p : Piece) : Store :=
  { s with next := s.next + 1,
           pieces := fun a => if a = s.next then some p else s.pieces a }

/-- The allocation of a new row array with the elements `cells`, at the
address `s.next`. -/
def Store.pushRow (s : Store) (cells : List (Option Nat)) : Store :=
  { s with next := s.next + 1,
           rows := fun a => if a = s.next then some cells else s.rows a }

/-- The allocation of a new board array with the elements `rowRefs`, at the
address `s.next`. -/
def Store.pushBoard (s : Store) (rowRefs : List Nat) : Store :=
  { s with next := s.next + 1,
           boards := fun a => if a = s.next then some rowRefs else s.boards a }

/-- The allocation of the elements of a new row array with the contents `row`:
a new piece object for every piece.  The result is the new store and the
elements. -/
def Store.allocCells (s : Store) : List Cell → Store × List (Option Nat)
  | [] => (s, [])
  | none :: rest =>
    let r := s.allocCells rest
    (r.1, none :: r.2)
  | some p :: rest =>
    let r := (s.pushPiece p).allocCells rest
    (r.1, some s.next :: r.2)

/-- The allocation of new row arrays with the contents of the rows of a board.
The result is the new store and the addresses of the rows. -/
def Store.allocRows (s : Store) : Board → Store × List Nat
  | [] => (s, [])
  | row :: rest =>
    let c := s.allocCells row
    let r := (c.1.pushRow c.2).allocRows rest
    (r.1, c.1.next :: r.2)

/-- The value of `JSON.parse(text)` for the JSON text of the board `v`: a new
board array, new row arrays and new piece objects with the contents `v`.  The
result is the new store and the address of the board array. -/
def Store.allocBoard (s : Store) (v : Board) : Store × Nat :=
  let r := s.allocRows v
  (r.1.pushBoard r.2, r.1.next)

/-- The store after the row array at `rowRef` has been given the elements
`cells`. -/
def Store.writeRow (s : Store) (rowRef : Nat) (cells : List (Option Nat)) : Store :=
  { s with rows := fun a => if a = rowRef then some cells else s.rows a }

/-- The store after the piece object at `q` has been given the contents `p`. -/
def Store.writePiece (s : Store) (q : Nat) (p : Piece) : Store :=
  { s with pieces := fun a => if a = q then some p else s.pieces a }

/-- The read `board[r][c]` in the store: `none` when `board[r]` is `undefined`
(a `TypeError`), otherwise the element, `null` and `undefined` both being
`some none`. -/
def Store.cellAt (s : Store) (b : Nat) (r c : Int) : Option (Option Nat) := do
  let rowRefs ← s.boards b
  let rowRef ← if 0 ≤ r then rowRefs[r.toNat]? else none
  let cells ← s.rows rowRef
  some (if 0 ≤ c then (cells[c.toNat]?).join else none)

/-- The write `board[r][c] = x` in the store: the row array `board[r]` is
modified in place.  As for `setCell`, a write outside the row is reported as
`none`. -/
def Store.setCell (s : Store) (b : Nat) (r c : Int) (x : Option Nat) : Option Store := do
  let rowRefs ← s.boards b
  let rowRef ← if 0 ≤ r then rowRefs[r.toNat]? else none
  let cells ← s.rows rowRef
  if 0 ≤ c ∧ c.toNat < cells.length then
    some (s.writeRow rowRef (cells.set c.toNat x))
  else none

/-- The loop `capturedPieces.forEach(cap => newBoard[cap.row][cap.col] = null)`
in the store. -/
def Store.clearCaptured (s : Store) (b : Nat) (caps : List Pos) : Option Store :=
  caps.foldlM (fun acc cap => acc.setCell b cap.row cap.col none) s

/-- The write `board[r][c].isKing = true` in the store: the piece object that
the element refers to is modified in place. -/
def Store.crownAt (s : Store) (b : Nat) (r c : Int) : Option Store := do
  let q ← (← s.cellAt b r c)
  let p ← s.pieces q
  some (s.writePiece q { p with isKing := true })

/-- The function `simulateMove` of `server.js` on the store: `currentBoard` is
the address of the board array it is given, the result is the store after the
call and the address of the board array it returns.
`JSON.parse(JSON.stringify(currentBoard))` allocates a new board with the
contents of `currentBoard`; every write of the function goes through
`newBoard`.  A call whose `currentBoard` is not the address of a board array
lies outside the embedding (`none`). -/
def Store.simulateMove (s : Store) (currentBoard : Nat)
    (startRow startCol endRow endCol : Int) (capturedPieces : Option (List Pos)) :
    Option (Store × Nat) := do
  let _ ← s.boards currentBoard
  let copy := s.allocBoard (s.readBoard currentBoard)
  let newBoard := copy.2
  let piece ← copy.1.cellAt newBoard startRow startCol
  let s1 ← copy.1.setCell newBoard endRow endCol piece
  let s2 ← s1.setCell newBoard startRow startCol none
  let s3 ← match capturedPieces with
    | some caps => s2.clearCaptured newBoard caps
    | none => some s2
  let p ← piece.bind s3.pieces
  if p.player = Player.white ∧ endRow = 0 then
    let s4 ← s3.crownAt newBoard endRow endCol
    some (s4, newBoard)
  else if p.player = Player.black ∧ endRow = 7 then
    let s4 ← s3.crownAt newBoard endRow endCol
    some (s4, newBoard)
  else
    some (s3, newBoard)

/-- The board array at address `b` and everything it refers to were allocated
before `s.next`. -/
def Store.Allocated (s : Store) (b : Nat) : Prop :=
  b < s.next ∧ ∃ rowRefs, s.boards b = some rowRefs ∧
    ∀ rowRef ∈ rowRefs, rowRef < s.next ∧
      ∀ cells, s.rows rowRef = some cells → ∀ a, some a ∈ cells → a < s.next

/-- The board array at `nb`, with the rows `rowRefs`, is a copy made from the
address `n` on: its row arrays are distinct objects allocated at or after `n`,
and so are the piece objects that their elements refer to; all of them lie
below `s.next`. -/
def Store.IsCopy (s : Store) (n nb : Nat) (rowRefs : List Nat) : Prop :=
  s.boards nb = some rowRefs ∧ rowRefs.Nodup ∧
  (∀ rr ∈ rowRefs, n ≤ rr ∧ (s.rows rr).isSome = true) ∧
  (∀ rr ∈ rowRefs, ∀ a, some a ∈ (s.rows rr).getD [] → n ≤ a) ∧
  (n ≤ nb ∧ nb < s.next) ∧
  (∀ rr ∈ rowRefs, rr < s.next) ∧
  (∀ rr ∈ rowRefs, ∀ a, some a ∈ (s.rows rr).getD [] → a < s.next)

/-- The number of elements of the rows `rb` equal to `x`. -/
def occurrences (rb : List (List (Option Nat))) (x : Option Nat) : Nat :=
  (rb.map fun row => row.count x).sum

/-- A store holding the board `promoBoard` at address `13`: the piece objects
at `0`, `1`, `2`, the row arrays at `3` to `10`. -/
def promoStore : Store :=
  { next := 14,
    pieces := fun a =>
      if a = 0 then some { player := Player.black, isKing := false }
      else if a = 1 then some { player := Player.white, isKing := false }
      else if a = 2 then some { player := Player.black, isKing := false }
      else none,
    rows := fun a =>
      if a = 3 then some [none, none, none, none, none, none, none, none]
      else if a = 4 then some [none, none, none, none, some 0, none, none, none]
      else if a = 5 then some [none, none, none, some 1, none, none, none, none]
      else if a = 6 then some [none, none, some 2, none, none, none, none, none]
      else if a = 7 then some [none, none, none, none, none, none, none, none]
      else if a = 8 then some [none, none, none, none, none, none, none, none]
      else if a = 9 then some [none, none, none, none, none, none, none, none]
      else if a = 10 then some [none, none, none, none, none, none, none, none]
      else none,
    boards := fun a => if a = 13 then some [3, 4, 5, 6, 7, 8, 9, 10] else none }

/-- Every piece of the board stands on a dark square: a square of the grid
with `row + col` odd. -/
def OnDarkSquares (b : Board) : Prop :=
  ∀ sq ∈ allSquares, (safeAt b sq.1 sq.2).isSome = true → (sq.1 + sq.2) % 2 = 1

instance (b : Board) : Decidable (OnDarkSquares b) := by
  unfold OnDarkSquares
  infer_instance

/-! ## Array access on well-formed boards -/

theorem inGrid_iff {r c : Int} : inGrid r c = true ↔ (0 ≤ r ∧ r < 8) ∧ 0 ≤ c ∧ c < 8 := by
  simp [inGrid, and_assoc]

theorem rowAt_wf {b : Board} (h : WellFormed b) {r : Int} (h0 : 0 ≤ r) (h8 : r < 8) :
    ∃ row, rowAt b r = some row ∧ row.length = 8 := by
  have hlt : r.toNat < b.length := by rw [h.1]; omega
  refine ⟨b[r.toNat], ?_, h.2 _ (List.getElem_mem hlt)⟩
  simp [rowAt, h0, List.getElem?_eq_getElem hlt]

theorem cellAt_wf {b : Board} (h : WellFormed b) {r : Int} (h0 : 0 ≤ r) (h8 : r < 8)
    (c : Int) : cellAt b r c = some (safeAt b r c) := by
  obtain ⟨row, hrow, -⟩ := rowAt_wf h h0 h8
  simp [cellAt, safeAt, hrow]

theorem safeAt_inGrid {b : Board} (h : WellFormed b) {r c : Int} {p : Piece}
    (hp : safeAt b r c = some p) : inGrid r c = true := by
  unfold safeAt at hp
  cases hrow : rowAt b r with
  | none => simp [hrow] at hp
  | some row =>
    simp only [hrow] at hp
    unfold rowAt at hrow
    split at hrow
    · rename_i h0
      have hmem := List.getElem?_eq_some.1 hrow
      obtain ⟨hlt, hget⟩ := hmem
      have hlen : row.length = 8 := h.2 row (hget ▸ List.getElem_mem hlt)
      unfold elemAt at hp
      split at hp
      · rename_i hc
        cases hcell : row[c.toNat]? with
        | none => simp [hcell] at hp
        | some x =>
          have := (List.getElem?_eq_some.1 hcell).1
          rw [inGrid_iff]
          rw [h.1] at hlt
          omega
      · simp at hp
    · simp at hrow

theorem sum_map_set {α : Type} (f : α → Nat) (l : List α) (i : Nat) (x : α)
    (h : i < l.length) : ((l.set i x).map f).sum + f l[i] = (l.map f).sum + f x := by
  induction l generalizing i with
  | nil => simp at h
  | cons a t ih =>
    cases i with
    | zero => simp; omega
    | succ k =>
      simp only [List.length_cons, Nat.succ_lt_succ_iff] at h
      have := ih k h
      simp only [List.set_cons_succ, List.map_cons, List.sum_cons, List.getElem_cons_succ]
      omega

theorem setCell_wf {b : Board} (h : WellFormed b) {r c : Int} (hg : inGrid r c = true)
    (v : Cell) :
    ∃ b', setCell b r c v = some b' ∧ WellFormed b' ∧
      (∀ r' c', safeAt b' r' c' = if r' = r ∧ c' = c then v else safeAt b r' c') ∧
      pieceCount b' + (if (safeAt b r c).isSome then 1 else 0) =
        pieceCount b + (if v.isSome then 1 else 0) := by
  rw [inGrid_iff] at hg
  obtain ⟨⟨h0, h8⟩, hc0, hc8⟩ := hg
  have hlt : r.toNat < b.length := by rw [h.1]; omega
  have hrow : rowAt b r = some b[r.toNat] := by
    simp [rowAt, h0, List.getElem?_eq_getElem hlt]
  have hlen : (b[r.toNat]).length = 8 := h.2 _ (List.getElem_mem hlt)
  have hclt : c.toNat < (b[r.toNat]).length := by rw [hlen]; omega
  refine ⟨b.set r.toNat ((b[r.toNat]).set c.toNat v), ?_, ?_, ?_, ?_⟩
  · simp [setCell, hrow, hc0, hclt]
  · refine ⟨by simp [h.1], ?_⟩
    intro row hmem
    rcases List.mem_or_eq_of_mem_set hmem with hm | hm
    · exact h.2 row hm
    · rw [hm, List.length_set, hlen]
  · intro r' c'
    unfold safeAt rowAt
    by_cases hr' : 0 ≤ r'
    · simp only [hr', if_true, List.getElem?_set]
      by_cases hrr : r.toNat = r'.toNat
      · have hreq : r' = r := by omega
        subst hreq
        simp only [if_true, hlt, List.getElem?_eq_getElem hlt, true_and]
        unfold elemAt
        by_cases hc' : 0 ≤ c'
        · simp only [hc', if_true, List.getElem?_set]
          by_cases hcc : c.toNat = c'.toNat
          · have : c' = c := by omega
            subst this
            simp [hclt]
          · have : ¬ c' = c := by omega
            simp [hcc, this]
        · have : ¬ c' = c := by omega
          simp [hc', this]
      · have hne : ¬ r' = r := by omega
        simp [hrr, hne]
    · have hne : ¬ r' = r := by omega
      simp [hr', hne]
  · unfold pieceCount
    have h1 := sum_map_set (fun row : List Cell => row.countP Option.isSome) b r.toNat
      ((b[r.toNat]).set c.toNat v) hlt
    have h2 := List.countP_set Option.isSome (b[r.toNat]) c.toNat v hclt
    have h3 : safeAt b r c = (b[r.toNat])[c.toNat] := by
      simp [safeAt, hrow, elemAt, hc0, List.getElem?_eq_getElem hclt]
    have h4 : (if Option.isSome (b[r.toNat])[c.toNat] = true then 1 else 0) ≤
        List.countP Option.isSome b[r.toNat] := by
      split
      · rename_i hs
        exact List.countP_pos_iff.2 ⟨_, List.getElem_mem hclt, hs⟩
      · omega
    simp only at h1
    rw [h2] at h1
    rw [h3]
    omega


theorem clearCaptured_single (b : Board) (over : Pos) :
    clearCaptured b [over] = setCell b over.row over.col none := by
  simp [clearCaptured, List.foldlM]

theorem simulateMove_jump {b : Board} (h : WellFormed b) {sr sc lr lc : Int} {over : Pos}
    {piece q : Piece} (hp : safeAt b sr sc = some piece) (hl : inGrid lr lc = true)
    (hle : safeAt b lr lc = none) (ho : safeAt b over.row over.col = some q)
    (hne : ¬ (over.row = sr ∧ over.col = sc)) :
    ∃ nb, simulateMove b sr sc lr lc (some [over]) = some nb ∧ WellFormed nb ∧
      (∀ r c, safeAt nb r c =
        if r = lr ∧ c = lc then some (crown piece lr)
        else if (r = sr ∧ c = sc) ∨ (r = over.row ∧ c = over.col) then none
        else safeAt b r c) ∧
      pieceCount nb + 1 = pieceCount b := by
  have hsg := safeAt_inGrid h hp
  have hog := safeAt_inGrid h ho
  have hsl : ¬ (sr = lr ∧ sc = lc) := by
    rintro ⟨rfl, rfl⟩; rw [hp] at hle; cases hle
  have hol : ¬ (over.row = lr ∧ over.col = lc) := by
    rintro ⟨e1, e2⟩; rw [e1, e2, hle] at ho; cases ho
  have hcell : cellAt b sr sc = some (some piece) := by
    rw [inGrid_iff] at hsg
    rw [cellAt_wf h hsg.1.1 hsg.1.2, hp]
  obtain ⟨b1, e1, w1, s1, c1⟩ := setCell_wf h hl (some piece)
  obtain ⟨b2, e2, w2, s2, c2⟩ := setCell_wf w1 hsg none
  obtain ⟨b3, e3, w3, s3, c3⟩ := setCell_wf w2 hog none
  have v1 : safeAt b1 sr sc = some piece := by rw [s1]; simp [hsl, hp]
  have v2 : safeAt b2 over.row over.col = some q := by
    rw [s2, s1]; simp [hne, hol, ho]
  have v3 : safeAt b3 lr lc = some piece := by
    rw [s3, s2, s1]
    have a1 : ¬ (lr = over.row ∧ lc = over.col) := fun ⟨x, y⟩ => hol ⟨x.symm, y.symm⟩
    have a2 : ¬ (lr = sr ∧ lc = sc) := fun ⟨x, y⟩ => hsl ⟨x.symm, y.symm⟩
    simp [a1, a2]
  rw [hle] at c1
  rw [v1] at c2
  rw [v2] at c3
  simp at c1 c2 c3
  have hb3 : ∀ r c, safeAt b3 r c =
      if r = lr ∧ c = lc then some piece
      else if (r = sr ∧ c = sc) ∨ (r = over.row ∧ c = over.col) then none
      else safeAt b r c := by
    intro r c
    rw [s3, s2, s1]
    have a1 : ¬ (lr = over.row ∧ lc = over.col) := fun ⟨x, y⟩ => hol ⟨x.symm, y.symm⟩
    have a2 : ¬ (lr = sr ∧ lc = sc) := fun ⟨x, y⟩ => hsl ⟨x.symm, y.symm⟩
    by_cases x1 : r = lr ∧ c = lc
    · obtain ⟨rfl, rfl⟩ := x1
      simp [a1, a2]
    · by_cases x2 : r = over.row ∧ c = over.col
      · obtain ⟨rfl, rfl⟩ := x2
        simp [hol]
      · by_cases x3 : r = sr ∧ c = sc
        · obtain ⟨rfl, rfl⟩ := x3
          simp [hsl, hne]
        · simp [x1, x2, x3]
  have hlg := hl
  rw [inGrid_iff] at hlg
  have hcell3 : cellAt b3 lr lc = some (some piece) := by
    rw [cellAt_wf w3 hlg.1.1 hlg.1.2, v3]
  obtain ⟨b4, e4, w4, s4, c4⟩ := setCell_wf w3 hl (some { piece with isKing := true })
  rw [v3] at c4
  simp at c4
  have hsim : simulateMove b sr sc lr lc (some [over]) =
      if piece.player = Player.white ∧ lr = 0 then some b4
      else if piece.player = Player.black ∧ lr = 7 then some b4
      else some b3 := by
    simp only [simulateMove, hcell, Option.bind_eq_bind, Option.some_bind, e1, e2,
      clearCaptured_single, e3, hcell3, e4]
  by_cases k1 : piece.player = Player.white ∧ lr = 0
  · refine ⟨b4, by rw [hsim, if_pos k1], w4, ?_, by omega⟩
    intro r c
    rw [s4, hb3]
    by_cases x1 : r = lr ∧ c = lc
    · simp [x1, crown, k1]
    · simp [x1]
  · by_cases k2 : piece.player = Player.black ∧ lr = 7
    · refine ⟨b4, by rw [hsim, if_neg k1, if_pos k2], w4, ?_, by omega⟩
      intro r c
      rw [s4, hb3]
      by_cases x1 : r = lr ∧ c = lc
      · simp [x1, crown, k1, k2]
      · simp [x1]
    · refine ⟨b3, by rw [hsim, if_neg k1, if_neg k2], w3, ?_, by omega⟩
      intro r c
      rw [hb3]
      simp [crown, k1, k2]

/-! ## The direction loop of `findJumpPaths` -/

theorem pushCapture_eq (recur : Board → Int → Int → List Pos → Option (List JumpPath))
    (b : Board) (sr sc : Int) (cp : List Pos) (j : Jump) (st : ScanState) :
    pushCapture recur b sr sc cp j.over j.row j.col st =
      (jumpResults recur b sr sc cp j).map fun res => (st.1 ++ res, true) := by
  unfold pushCapture jumpResults
  cases simulateMove b sr sc j.row j.col (some [j.over]) with
  | none => rfl
  | some nb =>
    simp only [Option.bind_eq_bind, Option.some_bind]
    cases recur nb j.row j.col (cp ++ [j.over]) with
    | none => rfl
    | some cont =>
      simp only [Option.some_bind]
      split <;> rfl

theorem manJump_eq (recur : Board → Int → Int → List Pos → Option (List JumpPath))
    (b : Board) (sr sc : Int) (opp : Player) (cp : List Pos) (dir : Int × Int)
    (st : ScanState) :
    manJump recur b sr sc opp cp dir st =
      pushJumps recur b sr sc cp st (manJumpsDir b sr sc opp dir) := by
  unfold manJump manJumpsDir pushJumps
  by_cases hg : inGrid (sr + 2 * dir.1) (sc + 2 * dir.2) = true
  · by_cases hc : (isOpponentPiece (safeAt b (sr + dir.1) (sc + dir.2)) opp &&
        (safeAt b (sr + 2 * dir.1) (sc + 2 * dir.2)).isNone) = true
    · simp [hg, hc, List.foldlM]
    · simp [hg, hc, List.foldlM]
  · simp [hg, List.foldlM]

theorem kingJumpsDir_succ (b : Board) (opp : Player) (dir : Int × Int) (n : Nat)
    (r c : Int) (cap : Option Pos) :
    kingJumpsDir b opp dir (n + 1) r c cap =
      if inGrid r c then
        match safeAt b r c with
        | some q =>
          if q.player = opp then
            match cap with
            | some _ => []
            | none => kingJumpsDir b opp dir n (r + dir.1) (c + dir.2)
                (some { row := r, col := c })
          else []
        | none =>
          match cap with
          | some over =>
            { over := over, row := r, col := c } ::
              kingJumpsDir b opp dir n (r + dir.1) (c + dir.2) cap
          | none => kingJumpsDir b opp dir n (r + dir.1) (c + dir.2) none
      else [] := by
  cases cap <;> rfl

theorem kingScan_succ (recur : Board → Int → Int → List Pos → Option (List JumpPath))
    (b : Board) (sr sc : Int) (opp : Player) (cp : List Pos) (dir : Int × Int) (n : Nat)
    (r c : Int) (cap : Option Pos) (st : ScanState) :
    kingScan recur b sr sc opp cp dir (n + 1) r c cap st =
      if inGrid r c then
        (cellAt b r c).bind fun currentSquare =>
          match currentSquare with
          | some q =>
            if q.player = opp then
              match cap with
              | some _ => some st
              | none =>
                kingScan recur b sr sc opp cp dir n (r + dir.1) (c + dir.2)
                  (some { row := r, col := c }) st
            else some st
          | none =>
            match cap with
            | some over =>
              (pushCapture recur b sr sc cp over r c st).bind fun st1 =>
                kingScan recur b sr sc opp cp dir n (r + dir.1) (c + dir.2) cap st1
            | none =>
              kingScan recur b sr sc opp cp dir n (r + dir.1) (c + dir.2) none st
      else some st := by
  cases cap <;> rfl

theorem kingScan_eq (recur : Board → Int → Int → List Pos → Option (List JumpPath))
    {b : Board} (h : WellFormed b) (sr sc : Int) (opp : Player) (cp : List Pos)
    (dir : Int × Int) (hd : dir.1 = 1 ∨ dir.1 = -1) :
    ∀ (n : Nat) (r c : Int) (cap : Option Pos) (st : ScanState),
      0 < n → (dir.1 = 1 → 8 - r < n) → (dir.1 = -1 → r + 1 < n) →
      kingScan recur b sr sc opp cp dir n r c cap st =
        pushJumps recur b sr sc cp st (kingJumpsDir b opp dir n r c cap) := by
  intro n
  induction n with
  | zero => intro r c cap st h0; omega
  | succ k ih =>
    intro r c cap st _ h1 h2
    rw [kingScan_succ, kingJumpsDir_succ]
    by_cases hg : inGrid r c = true
    · have hg' := inGrid_iff.1 hg
      have hk : 0 < k := by rcases hd with e | e <;> [have := h1 e; have := h2 e] <;> omega
      have n1 : dir.1 = 1 → 8 - (r + dir.1) < k := by intro e; have := h1 e; omega
      have n2 : dir.1 = -1 → (r + dir.1) + 1 < k := by intro e; have := h2 e; omega
      simp only [hg, if_true, cellAt_wf h hg'.1.1 hg'.1.2, Option.bind_eq_bind,
        Option.some_bind]
      cases hs : safeAt b r c with
      | some q =>
        by_cases hq : q.player = opp
        · cases cap with
          | some o => simp [hq, pushJumps, List.foldlM]
          | none => simp only [hq, if_true]; exact ih _ _ _ _ hk n1 n2
        · simp [hq, pushJumps, List.foldlM]
      | none =>
        cases cap with
        | some o =>
          simp only
          rw [show pushJumps recur b sr sc cp st
              ({ over := o, row := r, col := c } ::
                kingJumpsDir b opp dir k (r + dir.1) (c + dir.2) (some o)) =
              (pushCapture recur b sr sc cp o r c st).bind fun s =>
                pushJumps recur b sr sc cp s
                  (kingJumpsDir b opp dir k (r + dir.1) (c + dir.2) (some o)) from by
            simp [pushJumps, List.foldlM]]
          cases pushCapture recur b sr sc cp o r c st with
          | none => rfl
          | some s => simp only [Option.some_bind]; exact ih _ _ _ _ hk n1 n2
        | none => simp only; exact ih _ _ _ _ hk n1 n2
    · simp [hg, pushJumps, List.foldlM]

theorem pushJumps_nil (recur : Board → Int → Int → List Pos → Option (List JumpPath))
    (b : Board) (sr sc : Int) (cp : List Pos) (st : ScanState) :
    pushJumps recur b sr sc cp st [] = some st := rfl

theorem pushJumps_cons (recur : Board → Int → Int → List Pos → Option (List JumpPath))
    (b : Board) (sr sc : Int) (cp : List Pos) (st : ScanState) (j : Jump)
    (js : List Jump) :
    pushJumps recur b sr sc cp st (j :: js) =
      (pushCapture recur b sr sc cp j.over j.row j.col st).bind fun s =>
        pushJumps recur b sr sc cp s js := by
  simp [pushJumps, List.foldlM]

theorem pushJumps_append (recur : Board → Int → Int → List Pos → Option (List JumpPath))
    (b : Board) (sr sc : Int) (cp : List Pos) (st : ScanState) (js ks : List Jump) :
    pushJumps recur b sr sc cp st (js ++ ks) =
      (pushJumps recur b sr sc cp st js).bind fun s =>
        pushJumps recur b sr sc cp s ks := by
  simp [pushJumps, List.foldlM_append]

theorem foldlM_pushJumps (recur : Board → Int → Int → List Pos → Option (List JumpPath))
    (b : Board) (sr sc : Int) (cp : List Pos) (f : Int × Int → List Jump)
    (step : ScanState → Int × Int → Option ScanState) :
    ∀ (ds : List (Int × Int)) (st : ScanState),
      (∀ d ∈ ds, ∀ s, step s d = pushJumps recur b sr sc cp s (f d)) →
      ds.foldlM step st = pushJumps recur b sr sc cp st (ds.flatMap f) := by
  intro ds
  induction ds with
  | nil => intro st _; rfl
  | cons d t ih =>
    intro st hstep
    rw [List.foldlM_cons, List.flatMap_cons, pushJumps_append,
      hstep d (List.mem_cons_self _ _)]
    cases pushJumps recur b sr sc cp st (f d) with
    | none => rfl
    | some s =>
      exact ih s fun d' hd' s' => hstep d' (List.mem_cons_of_mem _ hd') s'

theorem directions_fst {d : Int × Int} (h : d ∈ directions) : d.1 = 1 ∨ d.1 = -1 := by
  simp [directions] at h
  rcases h with rfl | rfl | rfl | rfl <;> simp

theorem directions_snd {d : Int × Int} (h : d ∈ directions) : d.2 = 1 ∨ d.2 = -1 := by
  simp [directions] at h
  rcases h with rfl | rfl | rfl | rfl <;> simp

theorem jumpLoop_eq (recur : Board → Int → Int → List Pos → Option (List JumpPath))
    {b : Board} (h : WellFormed b) {sr sc : Int} (hg : inGrid sr sc = true)
    (piece : Piece) (cp : List Pos) (st : ScanState) :
    directions.foldlM (jumpStep recur b sr sc piece (opponentOf piece.player) cp) st =
      pushJumps recur b sr sc cp st (singleJumps b sr sc piece) := by
  have hg' := inGrid_iff.1 hg
  unfold singleJumps
  apply foldlM_pushJumps
  intro d hd s
  unfold jumpStep
  cases hk : piece.isKing with
  | false => simp [manJump_eq]
  | true =>
    simp only [Bool.not_true, Bool.false_eq_true, if_false]
    apply kingScan_eq recur h sr sc _ cp d (directions_fst hd) 9
    · omega
    · intro e; rw [e]; push_cast; omega
    · intro e; rw [e]; push_cast; omega

theorem findJumpPathsAux_succ {b : Board} (h : WellFormed b) {sr sc : Int} {piece : Piece}
    (hp : safeAt b sr sc = some piece) (fuel : Nat) (cur : Player) (cp : List Pos) :
    findJumpPathsAux (fuel + 1) b sr sc cur cp =
      (pushJumps (fun nb r c p => findJumpPathsAux fuel nb r c cur p) b sr sc cp
        ([], false) (singleJumps b sr sc piece)).bind fun st =>
        if !st.2 && decide (cp.length > 0) then
          some [{ finalRow := sr, finalCol := sc, captured := cp }]
        else some st.1 := by
  have hg := safeAt_inGrid h hp
  have hg' := inGrid_iff.1 hg
  rw [← jumpLoop_eq _ h hg]
  simp only [findJumpPathsAux, cellAt_wf h hg'.1.1 hg'.1.2, hp, Option.bind_eq_bind,
    Option.some_bind]

theorem kingJumpsDir_mem {b : Board} {opp : Player} {dir : Int × Int} :
    ∀ (n : Nat) (r c : Int) (cap : Option Pos),
      (∀ o, cap = some o → isOpponentPiece (safeAt b o.row o.col) opp = true) →
      ∀ j ∈ kingJumpsDir b opp dir n r c cap,
        inGrid j.row j.col = true ∧ safeAt b j.row j.col = none ∧
          isOpponentPiece (safeAt b j.over.row j.over.col) opp = true := by
  intro n
  induction n with
  | zero => intro r c cap _ j hj; simp [kingJumpsDir] at hj
  | succ k ih =>
    intro r c cap hcap j hj
    rw [kingJumpsDir_succ] at hj
    by_cases hg : inGrid r c = true
    · simp only [hg, if_true] at hj
      cases hs : safeAt b r c with
      | some q =>
        simp only [hs] at hj
        by_cases hq : q.player = opp
        · simp only [hq, if_true] at hj
          cases cap with
          | some o => simp at hj
          | none =>
            simp only at hj
            refine ih _ _ _ ?_ j hj
            intro o ho
            cases ho
            simp [hs, isOpponentPiece, hq]
        · simp [hq] at hj
      | none =>
        simp only [hs] at hj
        cases cap with
        | some o =>
          simp only [List.mem_cons] at hj
          rcases hj with rfl | hj
          · exact ⟨hg, hs, hcap o rfl⟩
          · exact ih _ _ _ hcap j hj
        | none => exact ih _ _ _ hcap j hj
    · simp [hg] at hj

theorem singleJumps_mem {b : Board} {sr sc : Int} {piece : Piece} {j : Jump}
    (hj : j ∈ singleJumps b sr sc piece) :
    inGrid j.row j.col = true ∧ safeAt b j.row j.col = none ∧
      isOpponentPiece (safeAt b j.over.row j.over.col) (opponentOf piece.player) = true := by
  unfold singleJumps at hj
  rw [List.mem_flatMap] at hj
  obtain ⟨d, -, hjd⟩ := hj
  cases hk : piece.isKing with
  | false =>
    simp only [hk, Bool.not_false, if_true, manJumpsDir] at hjd
    split at hjd
    · rename_i hc
      simp only [List.mem_singleton] at hjd
      subst hjd
      simp only [Bool.and_eq_true, Option.isNone_iff_eq_none] at hc
      exact ⟨hc.1, hc.2.2, hc.2.1⟩
    · simp at hjd
  | true =>
    simp only [hk, Bool.not_true, Bool.false_eq_true, if_false] at hjd
    exact kingJumpsDir_mem 9 _ _ none (by intro o ho; cases ho) j hjd

theorem opponentOf_ne (p : Player) : opponentOf p ≠ p := by
  cases p <;> simp [opponentOf]

/-- Everything `simulateMove` needs for a jump accepted by `findJumpPaths`. -/
theorem simulateMove_singleJump {b : Board} (h : WellFormed b) {sr sc : Int}
    {piece : Piece} (hp : safeAt b sr sc = some piece) {j : Jump}
    (hj : j ∈ singleJumps b sr sc piece) :
    ∃ nb, simulateMove b sr sc j.row j.col (some [j.over]) = some nb ∧ WellFormed nb ∧
      (∀ r c, safeAt nb r c =
        if r = j.row ∧ c = j.col then some (crown piece j.row)
        else if (r = sr ∧ c = sc) ∨ (r = j.over.row ∧ c = j.over.col) then none
        else safeAt b r c) ∧
      pieceCount nb + 1 = pieceCount b := by
  obtain ⟨hg, he, ho⟩ := singleJumps_mem hj
  cases hq : safeAt b j.over.row j.over.col with
  | none => simp [hq, isOpponentPiece] at ho
  | some q =>
    simp only [hq, isOpponentPiece, decide_eq_true_eq] at ho
    refine simulateMove_jump h hp hg he hq ?_
    rintro ⟨e1, e2⟩
    rw [e1, e2, hp] at hq
    cases hq
    exact opponentOf_ne _ ho.symm

theorem pushJumps_spec (recur : Board → Int → Int → List Pos → Option (List JumpPath))
    (b : Board) (sr sc : Int) (cp : List Pos) :
    ∀ (js : List Jump) (st : ScanState),
      (∀ j ∈ js, ∃ res, jumpResults recur b sr sc cp j = some res) →
      ∃ st', pushJumps recur b sr sc cp st js = some st' ∧
        st'.2 = (st.2 || !js.isEmpty) ∧
        ∀ p, p ∈ st'.1 ↔
          p ∈ st.1 ∨ ∃ j ∈ js, ∃ res, jumpResults recur b sr sc cp j = some res ∧ p ∈ res := by
  intro js
  induction js with
  | nil => intro st _; exact ⟨st, rfl, by simp, by simp⟩
  | cons j t ih =>
    intro st hres
    obtain ⟨res, hr⟩ := hres j (List.mem_cons_self _ _)
    obtain ⟨st', e, f, m⟩ := ih (st.1 ++ res, true)
      fun j' hj' => hres j' (List.mem_cons_of_mem _ hj')
    refine ⟨st', ?_, ?_, ?_⟩
    · rw [pushJumps_cons, pushCapture_eq, hr]; exact e
    · rw [f]; simp
    · intro p
      rw [m]
      simp only [List.mem_append, List.mem_cons, exists_eq_or_imp, hr, Option.some.injEq,
        exists_eq_left']
      tauto

theorem jumpResults_ne_nil {recur : Board → Int → Int → List Pos → Option (List JumpPath)}
    {b : Board} {sr sc : Int} {cp : List Pos} {j : Jump} {res : List JumpPath}
    (h : jumpResults recur b sr sc cp j = some res) : res ≠ [] := by
  unfold jumpResults at h
  cases hs : simulateMove b sr sc j.row j.col (some [j.over]) with
  | none => simp [hs] at h
  | some nb =>
    simp only [hs, Option.bind_eq_bind, Option.some_bind] at h
    cases hc : recur nb j.row j.col (cp ++ [j.over]) with
    | none => simp [hc] at h
    | some cont =>
      simp only [hc, Option.some_bind] at h
      split at h
      · rename_i hl
        cases h
        intro e
        rw [e] at hl
        simp at hl
      · cases h
        simp

theorem jumpsAt_of_piece {b : Board} {r c : Int} {piece : Piece}
    (hp : safeAt b r c = some piece) : jumpsAt b r c = singleJumps b r c piece := by
  simp [jumpsAt, hp]

/-- The entries of `findJumpPaths` are exactly the jump chains after which no
jump is left (with the captures accumulated so far in front), or the start
square itself when captures have been made and no jump is available. -/
theorem findJumpPathsAux_spec (cur : Player) :
    ∀ (fuel : Nat) (b : Board) (r c : Int) (cp : List Pos) (piece : Piece),
      WellFormed b → safeAt b r c = some piece → pieceCount b < fuel →
      ∃ paths, findJumpPathsAux fuel b r c cur cp = some paths ∧
        (∀ p, p ∈ paths ↔
          (∃ caps fb, ScanChain b r c caps p.finalRow p.finalCol fb ∧
            jumpsAt fb p.finalRow p.finalCol = [] ∧ p.captured = cp ++ caps) ∨
          (cp ≠ [] ∧ jumpsAt b r c = [] ∧
            p = { finalRow := r, finalCol := c, captured := cp })) ∧
        (paths = [] ↔ jumpsAt b r c = [] ∧ cp = []) := by
  intro fuel
  induction fuel with
  | zero => intro b r c cp piece _ _ h; omega
  | succ k ih =>
    intro b r c cp piece hw hp hfuel
    have hja := jumpsAt_of_piece hp
    -- every accepted jump has its results, described by the induction hypothesis
    have hres : ∀ j ∈ singleJumps b r c piece, ∃ nb cont,
        simulateMove b r c j.row j.col (some [j.over]) = some nb ∧
        jumpResults (fun nb r c p => findJumpPathsAux k nb r c cur p) b r c cp j = some cont ∧
        (∀ p, p ∈ cont ↔
          (∃ caps fb, ScanChain nb j.row j.col caps p.finalRow p.finalCol fb ∧
            jumpsAt fb p.finalRow p.finalCol = [] ∧ p.captured = (cp ++ [j.over]) ++ caps) ∨
          (jumpsAt nb j.row j.col = [] ∧
            p = { finalRow := j.row, finalCol := j.col, captured := cp ++ [j.over] })) := by
      intro j hj
      obtain ⟨nb, hs, hwn, hsafe, hcount⟩ := simulateMove_singleJump hw hp hj
      have hland : safeAt nb j.row j.col = some (crown piece j.row) := by
        rw [hsafe]; simp
      obtain ⟨cont, hc, hm, hnil⟩ := ih nb j.row j.col (cp ++ [j.over]) _ hwn hland
        (by omega)
      have hne : cont ≠ [] := by
        intro e
        have := (hnil.1 e).2
        simp at this
      refine ⟨nb, cont, hs, ?_, ?_⟩
      · simp only [jumpResults, hs, Option.bind_eq_bind, Option.some_bind, hc]
        have : cont.length > 0 := List.length_pos.2 hne
        simp [this]
      · intro p
        rw [hm]
        simp
    obtain ⟨st, hst, hflag, hmem⟩ := pushJumps_spec
      (fun nb r c p => findJumpPathsAux k nb r c cur p) b r c cp
      (singleJumps b r c piece) ([], false)
      (fun j hj => by obtain ⟨_, cont, _, hc, _⟩ := hres j hj; exact ⟨cont, hc⟩)
    rw [findJumpPathsAux_succ hw hp, hst, Option.some_bind, hja]
    by_cases hjs : singleJumps b r c piece = []
    · -- no jump: the start square, if captures were made
      have hst1 : st.1 = [] := by
        apply List.eq_nil_iff_forall_not_mem.2
        intro p hp'
        rw [hmem, hjs] at hp'
        simp at hp'
      have hst2 : st.2 = false := by rw [hflag, hjs]; rfl
      have hnochain : ∀ caps fr fc fb, ¬ ScanChain b r c caps fr fc fb := by
        intro caps fr fc fb hch
        cases hch with
        | one hj _ => rw [hja, hjs] at hj; cases hj
        | cons hj _ _ => rw [hja, hjs] at hj; cases hj
      by_cases hcp : cp = []
      · refine ⟨[], by simp [hst1, hst2, hcp], ?_, by simp [hjs, hcp]⟩
        intro p
        simp [hnochain, hcp]
      · have hlen : cp.length > 0 := List.length_pos.2 hcp
        refine ⟨[{ finalRow := r, finalCol := c, captured := cp }],
          by simp [hst2, hlen], ?_, by simp [hcp]⟩
        intro p
        simp [hnochain, hcp, hjs]
    · -- some jump: the entries pushed for the jumps
      have hst2 : st.2 = true := by
        rw [hflag]
        cases hx : singleJumps b r c piece with
        | nil => exact absurd hx hjs
        | cons _ _ => rfl
      refine ⟨st.1, by simp [hst2], ?_, ?_⟩
      · intro p
        rw [hmem]
        simp only [List.not_mem_nil, false_or, hjs, false_and, and_false, or_false]
        constructor
        · rintro ⟨j, hj, res, hr, hpr⟩
          obtain ⟨nb, cont, hs, hc, hm⟩ := hres j hj
          rw [hc] at hr
          cases hr
          rcases (hm p).1 hpr with ⟨caps, fb, hch, hend, hcap⟩ | ⟨hend, rfl⟩
          · refine ⟨j.over :: caps, fb, ScanChain.cons (hja ▸ hj) hs hch, hend, ?_⟩
            rw [hcap]; simp
          · exact ⟨[j.over], nb, ScanChain.one (hja ▸ hj) hs, hend, rfl⟩
        · rintro ⟨caps, fb, hch, hend, hcap⟩
          obtain ⟨pr, pc, pcap⟩ := p
          simp only at hch hend hcap
          cases hch with
          | @one _ nb _ _ j hj hs =>
            rw [hja] at hj
            obtain ⟨nb', cont, hs', hc, hm⟩ := hres j hj
            rw [hs] at hs'
            cases hs'
            refine ⟨j, hj, cont, hc, (hm _).2 (Or.inr ⟨hend, ?_⟩)⟩
            rw [hcap]
          | @cons _ nb _ _ _ _ _ j caps' hj hs hrest =>
            rw [hja] at hj
            obtain ⟨nb', cont, hs', hc, hm⟩ := hres j hj
            rw [hs] at hs'
            cases hs'
            refine ⟨j, hj, cont, hc, (hm _).2 (Or.inl ⟨caps', fb, hrest, hend, ?_⟩)⟩
            rw [hcap]; simp
      · constructor
        · intro e
          exfalso
          cases hx : singleJumps b r c piece with
          | nil => exact hjs hx
          | cons j t =>
            have hj : j ∈ singleJumps b r c piece := by rw [hx]; exact List.mem_cons_self _ _
            obtain ⟨nb, cont, hs, hc, hm⟩ := hres j hj
            have hne := jumpResults_ne_nil hc
            obtain ⟨p, hp'⟩ := List.exists_mem_of_ne_nil _ hne
            have : p ∈ st.1 := (hmem p).2 (Or.inr ⟨j, hj, cont, hc, hp'⟩)
            rw [e] at this
            cases this
        · rintro ⟨e, -⟩
          exact absurd e hjs

/-! ## The loops of `findSimpleMoves` and `getAllPossibleMoves` -/

theorem mem_allSquares {r c : Int} : (r, c) ∈ allSquares ↔ inGrid r c = true := by
  rw [inGrid_iff]
  simp only [allSquares, List.mem_flatMap, List.mem_map, List.mem_range, Prod.mk.injEq]
  constructor
  · rintro ⟨i, hi, j, hj, e1, e2⟩
    omega
  · rintro ⟨⟨h0, h8⟩, hc0, hc8⟩
    refine ⟨r.toNat, by omega, c.toNat, by omega, ?_, ?_⟩
    · exact Int.toNat_of_nonneg h0
    · exact Int.toNat_of_nonneg hc0

theorem allSquares_nodup : allSquares.Nodup := by
  unfold allSquares
  rw [List.nodup_flatMap]
  constructor
  · intro r _
    refine List.Nodup.map ?_ (List.nodup_range 8)
    intro x y hxy
    simpa using hxy
  · refine List.Nodup.pairwise_of_forall_ne (List.nodup_range 8) ?_
    intro x _ y _ hne
    simp only [Function.onFun, List.disjoint_left, List.mem_map, not_exists, not_and]
    rintro sq ⟨i, _, rfl⟩ j _ hj
    simp at hj
    exact hne hj.1.symm

theorem simpleScan_succ (b : Board) (isKing : Bool) (dir : Int × Int) (n : Nat)
    (r c : Int) (moves : List MoveOption) :
    simpleScan b isKing dir (n + 1) r c moves =
      if inGrid r c && (safeAt b r c).isNone then
        if !isKing then some (moves ++ [{ row := r, col := c, captured := none }])
        else simpleScan b isKing dir n (r + dir.1) (c + dir.2)
          (moves ++ [{ row := r, col := c, captured := none }])
      else some moves := rfl

theorem simpleScan_total (b : Board) (isKing : Bool) (dir : Int × Int)
    (hd : dir.1 = 1 ∨ dir.1 = -1) :
    ∀ (n : Nat) (r c : Int) (moves : List MoveOption),
      0 < n → (dir.1 = 1 → 8 - r < n) → (dir.1 = -1 → r + 1 < n) →
      ∃ ext, simpleScan b isKing dir n r c moves = some (moves ++ ext) ∧
        ∀ m ∈ ext, m.captured = none := by
  intro n
  induction n with
  | zero => intro r c moves h; omega
  | succ k ih =>
    intro r c moves _ h1 h2
    rw [simpleScan_succ]
    by_cases hc : (inGrid r c && (safeAt b r c).isNone) = true
    · rw [if_pos hc]
      cases isKing with
      | false =>
        exact ⟨[{ row := r, col := c, captured := none }], by simp, by simp⟩
      | true =>
        simp only [Bool.and_eq_true] at hc
        have hg := inGrid_iff.1 hc.1
        obtain ⟨ext, he, hm⟩ := ih (r + dir.1) (c + dir.2)
          (moves ++ [{ row := r, col := c, captured := none }])
          (by rcases hd with e | e <;> [have := h1 e; have := h2 e] <;> omega)
          (by intro e; have := h1 e; omega) (by intro e; have := h2 e; omega)
        refine ⟨{ row := r, col := c, captured := none } :: ext, ?_, ?_⟩
        · simp only [Bool.not_true, Bool.false_eq_true, if_false]
          rw [he]; simp
        · intro m hmem
          rcases List.mem_cons.1 hmem with rfl | hmem
          · rfl
          · exact hm m hmem
    · rw [if_neg hc]
      exact ⟨[], by simp, by simp⟩

theorem foldlM_append_ext {α β : Type} (step : List β → α → Option (List β))
    (P : β → Prop) :
    ∀ (l : List α) (init : List β),
      (∀ x ∈ l, ∀ acc, ∃ ext, step acc x = some (acc ++ ext) ∧ ∀ m ∈ ext, P m) →
      ∃ ext, l.foldlM step init = some (init ++ ext) ∧ ∀ m ∈ ext, P m := by
  intro l
  induction l with
  | nil => intro init _; exact ⟨[], by simp, by simp⟩
  | cons x t ih =>
    intro init hstep
    obtain ⟨e1, h1, p1⟩ := hstep x (List.mem_cons_self _ _) init
    obtain ⟨e2, h2, p2⟩ := ih (init ++ e1) fun y hy => hstep y (List.mem_cons_of_mem _ hy)
    refine ⟨e1 ++ e2, ?_, ?_⟩
    · rw [List.foldlM_cons, h1]
      simp only [Option.bind_eq_bind, Option.some_bind, h2, List.append_assoc]
    · intro m hm
      rcases List.mem_append.1 hm with hm | hm
      · exact p1 m hm
      · exact p2 m hm

theorem findSimpleMoves_total {b : Board} (h : WellFormed b) {r c : Int} {piece : Piece}
    (hp : safeAt b r c = some piece) (cur : Player) :
    ∃ ms, findSimpleMoves b r c cur = some ms ∧ ∀ m ∈ ms, m.captured = none := by
  have hg := inGrid_iff.1 (safeAt_inGrid h hp)
  unfold findSimpleMoves
  simp only [cellAt_wf h hg.1.1 hg.1.2, hp, Option.bind_eq_bind, Option.some_bind]
  have := foldlM_append_ext (simpleStep b r c piece) (fun m => m.captured = none)
    directions [] ?_
  · simpa using this
  · intro d hd acc
    unfold simpleStep
    split
    · exact ⟨[], by simp, by simp⟩
    · apply simpleScan_total b piece.isKing d (directions_fst hd) 9
      · omega
      · intro e; rw [e]; push_cast; omega
      · intro e; rw [e]; push_cast; omega

theorem findJumpPaths_spec {b : Board} (h : WellFormed b) {r c : Int} {piece : Piece}
    (hp : safeAt b r c = some piece) (cur : Player) :
    ∃ paths, findJumpPaths b r c cur [] = some paths ∧
      ∀ p, p ∈ paths ↔
        ∃ fb, ScanChain b r c p.captured p.finalRow p.finalCol fb ∧
          jumpsAt fb p.finalRow p.finalCol = [] := by
  obtain ⟨paths, e, m, -⟩ := findJumpPathsAux_spec cur (pieceCount b + 1) b r c [] piece h hp
    (by omega)
  refine ⟨paths, e, ?_⟩
  intro p
  rw [m]
  simp only [List.nil_append, ne_eq, not_true_eq_false, false_and, or_false]
  constructor
  · rintro ⟨caps, fb, hch, hend, hcap⟩
    exact ⟨fb, hcap ▸ hch, hend⟩
  · rintro ⟨fb, hch, hend⟩
    exact ⟨p.captured, fb, hch, hend, rfl⟩

theorem ScanChain.captured_ne_nil {b fb : Board} {r c fr fc : Int} {caps : List Pos}
    (h : ScanChain b r c caps fr fc fb) : caps ≠ [] := by
  cases h <;> simp

theorem foldlM_append_flatMap {α β : Type} (step : List β → α → Option (List β))
    (f : α → List β) :
    ∀ (l : List α) (init : List β),
      (∀ x ∈ l, ∀ acc, step acc x = some (acc ++ f x)) →
      l.foldlM step init = some (init ++ l.flatMap f) := by
  intro l
  induction l with
  | nil => intro init _; simp
  | cons x t ih =>
    intro init hstep
    rw [List.foldlM_cons, hstep x (List.mem_cons_self _ _) init]
    simp only [Option.bind_eq_bind, Option.some_bind]
    rw [ih (init ++ f x) fun y hy => hstep y (List.mem_cons_of_mem _ hy)]
    simp

theorem captureStep_eq {b : Board} (h : WellFormed b) (cur : Player) (acc : List Move)
    (sq : Int × Int) : captureStep b cur acc sq = some (acc ++ capturesOf b cur sq) := by
  unfold captureStep capturesOf
  cases hp : safeAt b sq.1 sq.2 with
  | none => simp
  | some piece =>
    by_cases hc : piece.player = cur
    · obtain ⟨paths, e, -⟩ := findJumpPaths_spec h hp cur
      simp only [hc, if_true, e, Option.bind_eq_bind, Option.some_bind, Option.getD_some]
      split
      · rfl
      · rename_i hl
        have : paths = [] := by
          cases paths with
          | nil => rfl
          | cons _ _ => simp at hl
        simp [this]
    · simp [hc]

theorem simpleMoveStep_eq {b : Board} (h : WellFormed b) (cur : Player) (acc : List Move)
    (sq : Int × Int) : simpleMoveStep b cur acc sq = some (acc ++ simplesOf b cur sq) := by
  unfold simpleMoveStep simplesOf
  cases hp : safeAt b sq.1 sq.2 with
  | none => simp
  | some piece =>
    by_cases hc : piece.player = cur
    · obtain ⟨ms, e, -⟩ := findSimpleMoves_total h hp cur
      simp only [hc, if_true, e, Option.bind_eq_bind, Option.some_bind, Option.getD_some]
      rfl
    · simp [hc]

theorem getAllPossibleMoves_eq {b : Board} (h : WellFormed b) (cur : Player) :
    getAllPossibleMoves b cur =
      some (if (allSquares.flatMap (capturesOf b cur)).length > 0 then
          allSquares.flatMap (capturesOf b cur)
        else allSquares.flatMap (simplesOf b cur)) := by
  have e1 : allSquares.foldlM (captureStep b cur) [] =
      some (allSquares.flatMap (capturesOf b cur)) := by
    have := foldlM_append_flatMap (captureStep b cur) (capturesOf b cur) allSquares []
      fun x _ acc => captureStep_eq h cur acc x
    rw [this, List.nil_append]
  have e2 : allSquares.foldlM (simpleMoveStep b cur) [] =
      some (allSquares.flatMap (simplesOf b cur)) := by
    have := foldlM_append_flatMap (simpleMoveStep b cur) (simplesOf b cur) allSquares []
      fun x _ acc => simpleMoveStep_eq h cur acc x
    rw [this, List.nil_append]
  generalize allSquares.flatMap (capturesOf b cur) = caps at e1 ⊢
  generalize allSquares.flatMap (simplesOf b cur) = simples at e2 ⊢
  unfold getAllPossibleMoves
  rw [e1, e2]
  simp only [Option.bind_eq_bind, Option.some_bind]
  split <;> rfl

theorem capturesOf_isCapture {b : Board} (h : WellFormed b) {cur : Player}
    {sq : Int × Int} {m : Move} (hm : m ∈ capturesOf b cur sq) :
    isCapture m = true ∧ m.startRow = sq.1 ∧ m.startCol = sq.2 := by
  unfold capturesOf at hm
  cases hp : safeAt b sq.1 sq.2 with
  | none => simp [hp] at hm
  | some piece =>
    simp only [hp] at hm
    split at hm
    · obtain ⟨paths, e, spec⟩ := findJumpPaths_spec h hp cur
      rw [e, Option.getD_some, List.mem_map] at hm
      obtain ⟨p, hpm, rfl⟩ := hm
      obtain ⟨fb, hch, -⟩ := (spec p).1 hpm
      have := hch.captured_ne_nil
      refine ⟨?_, rfl, rfl⟩
      simp only [isCapture, moveOfPath, gt_iff_lt, decide_eq_true_eq]
      exact List.length_pos.2 this
    · simp at hm

theorem simplesOf_not_capture {b : Board} (h : WellFormed b) {cur : Player}
    {sq : Int × Int} {m : Move} (hm : m ∈ simplesOf b cur sq) :
    m.captured = none ∧ m.startRow = sq.1 ∧ m.startCol = sq.2 := by
  unfold simplesOf at hm
  cases hp : safeAt b sq.1 sq.2 with
  | none => simp [hp] at hm
  | some piece =>
    simp only [hp] at hm
    split at hm
    · obtain ⟨ms, e, hnone⟩ := findSimpleMoves_total h hp cur
      rw [e, Option.getD_some, List.mem_map] at hm
      obtain ⟨mo, hmo, rfl⟩ := hm
      exact ⟨hnone mo hmo, rfl, rfl⟩
    · simp at hm

theorem filter_flatMap_key {α β : Type} [DecidableEq α] (f : α → List β) (key : β → α)
    (hkey : ∀ x, ∀ m ∈ f x, key m = x) (x : α) :
    ∀ l : List α, l.Nodup → x ∈ l →
      (l.flatMap f).filter (fun m => decide (key m = x)) = f x := by
  have hout : ∀ l : List α, x ∉ l → (l.flatMap f).filter (fun m => decide (key m = x)) = [] := by
    intro l hx
    rw [List.filter_eq_nil_iff]
    intro m hm
    obtain ⟨y, hy, hmy⟩ := List.mem_flatMap.1 hm
    have := hkey y m hmy
    simp only [decide_eq_true_eq]
    rintro rfl
    exact hx (this ▸ hy)
  intro l
  induction l with
  | nil => intro _ hx; cases hx
  | cons y t ih =>
    intro hnd hx
    rw [List.nodup_cons] at hnd
    rw [List.flatMap_cons, List.filter_append]
    by_cases hxy : x = y
    · subst hxy
      rw [hout t hnd.1, List.append_nil, List.filter_eq_self]
      intro m hm
      simp [hkey x m hm]
    · have hxt : x ∈ t := by
        rcases List.mem_cons.1 hx with e | e
        · exact absurd e hxy
        · exact e
      rw [ih hnd.2 hxt]
      have : (f y).filter (fun m => decide (key m = x)) = [] := by
        rw [List.filter_eq_nil_iff]
        intro m hm
        simp only [decide_eq_true_eq]
        rw [hkey y m hm]
        exact fun e => hxy e.symm
      rw [this, List.nil_append]

/-! ## Alpha-beta pruning -/

theorem Bracket.refl {L : Type} [LinearOrder L] (α β v : L) : Bracket α β v v :=
  ⟨fun _ => le_rfl, fun _ => le_rfl, fun _ _ => rfl⟩

theorem Bracket.dual {L : Type} [LinearOrder L] {α β v r : L} (h : Bracket α β v r) :
    Bracket (L := Lᵒᵈ) (OrderDual.toDual β) (OrderDual.toDual α) (OrderDual.toDual v)
      (OrderDual.toDual r) :=
  ⟨h.2.1, h.1, fun h1 h2 => h.2.2 h2 h1⟩

theorem Bracket.ofDual {L : Type} [LinearOrder L] {α β v r : L}
    (h : Bracket (L := Lᵒᵈ) (OrderDual.toDual β) (OrderDual.toDual α) (OrderDual.toDual v)
      (OrderDual.toDual r)) : Bracket α β v r :=
  ⟨h.2.1, h.1, fun h1 h2 => h.2.2 h2 h1⟩

theorem max_break {L : Type} [LinearOrder L] {α0 β M v r Vf : L} (hαβ : α0 < β)
    (hM : M < β) (hbr : Bracket (max α0 M) β v r)
    (hbreak : β ≤ max (max α0 M) (max M r)) (hVf : v ≤ Vf) :
    Bracket α0 β Vf (max M r) := by
  have hr : β ≤ r := by
    rcases le_max_iff.1 hbreak with h | h
    · exact absurd (max_lt hαβ hM) (not_lt.2 h)
    · rcases le_max_iff.1 h with h | h
      · exact absurd hM (not_lt.2 h)
      · exact h
  have hMr : max M r = r := max_eq_right (le_of_lt (lt_of_lt_of_le hM hr))
  rw [hMr]
  refine ⟨fun h => absurd (lt_of_lt_of_le hαβ hr) (not_lt.2 h),
    fun _ => le_trans (hbr.2.1 hr) hVf, fun _ h => absurd h (not_lt.2 hr)⟩

theorem max_continue {L : Type} [LinearOrder L] {α0 β M V v r : L}
    (hbr : Bracket (max α0 M) β v r)
    (hcont : ¬ β ≤ max (max α0 M) (max M r))
    (inv1 : M ≤ α0 → V ≤ M) (inv2 : α0 < M → M = V) :
    max M r < β ∧ (max M r ≤ α0 → max V v ≤ max M r) ∧
      (α0 < max M r → max M r = max V v) ∧
      max (max α0 M) (max M r) = max α0 (max M r) := by
  have hlt := not_le.1 hcont
  have h1 : max α0 M < β := lt_of_le_of_lt (le_max_left _ _) hlt
  have h2 : max M r < β := lt_of_le_of_lt (le_max_right _ _) hlt
  have hrβ : r < β := lt_of_le_of_lt (le_max_right _ _) h2
  refine ⟨h2, ?_, ?_, ?_⟩
  · intro h
    have hM : M ≤ α0 := le_trans (le_max_left _ _) h
    have hr : r ≤ α0 := le_trans (le_max_right _ _) h
    have hv : v ≤ r := hbr.1 (le_trans hr (le_max_left _ _))
    exact max_le_max (inv1 hM) hv
  · intro h
    rcases le_or_lt r (max α0 M) with hle | hgt
    · have hv : v ≤ r := hbr.1 hle
      rcases le_or_lt M α0 with hM | hM
      · exfalso
        rw [max_eq_left hM] at hle
        exact absurd h (not_lt.2 (max_le hM hle))
      · rw [max_eq_right (le_of_lt hM)] at hle
        rw [max_eq_left hle, ← inv2 hM, max_eq_left (le_trans hv hle)]
    · have hv : r = v := hbr.2.2 hgt hrβ
      have hMr : M < r := lt_of_le_of_lt (le_max_right _ _) hgt
      have hα : α0 < r := lt_of_le_of_lt (le_max_left _ _) hgt
      have hV : V ≤ r := by
        rcases le_or_lt M α0 with hM | hM
        · exact le_trans (inv1 hM) (le_of_lt hMr)
        · rw [← inv2 hM]; exact le_of_lt hMr
      rw [max_eq_right (le_of_lt hMr), ← hv, max_eq_right hV]
  · rw [max_assoc, ← max_assoc M M r, max_self]

theorem min_break {L : Type} [LinearOrder L] {α β0 m v r Vf : L} (hαβ : α < β0)
    (hm : α < m) (hbr : Bracket α (min β0 m) v r)
    (hbreak : min (min β0 m) (min m r) ≤ α) (hVf : Vf ≤ v) :
    Bracket α β0 Vf (min m r) :=
  Bracket.ofDual (max_break (L := Lᵒᵈ) hαβ hm hbr.dual hbreak hVf)

theorem min_continue {L : Type} [LinearOrder L] {α β0 m V v r : L}
    (hbr : Bracket α (min β0 m) v r)
    (hcont : ¬ min (min β0 m) (min m r) ≤ α)
    (inv1 : β0 ≤ m → m ≤ V) (inv2 : m < β0 → m = V) :
    α < min m r ∧ (β0 ≤ min m r → min m r ≤ min V v) ∧
      (min m r < β0 → min m r = min V v) ∧
      min (min β0 m) (min m r) = min β0 (min m r) :=
  max_continue (L := Lᵒᵈ) hbr.dual hcont inv1 inv2

theorem maxLoopAll_ge (child : Board → Option JSNum) (b : Board) :
    ∀ (moves : List Move) (V Vf : JSNum), maxLoopAll child b moves V = some Vf → V ≤ Vf := by
  intro moves
  induction moves with
  | nil => intro V Vf h; simp only [maxLoopAll, Option.some.injEq] at h; exact h ▸ le_rfl
  | cons m t ih =>
    intro V Vf h
    simp only [maxLoopAll, Option.bind_eq_bind] at h
    cases hs : simulateMove b m.startRow m.startCol m.row m.col m.captured with
    | none => simp [hs] at h
    | some sb =>
      cases hc : child sb with
      | none => simp [hs, hc] at h
      | some v =>
        simp only [hs, hc, Option.some_bind] at h
        exact le_trans (le_max_left _ _) (ih _ _ h)

theorem minLoopAll_le (child : Board → Option JSNum) (b : Board) :
    ∀ (moves : List Move) (V Vf : JSNum), minLoopAll child b moves V = some Vf → Vf ≤ V := by
  intro moves
  induction moves with
  | nil => intro V Vf h; simp only [minLoopAll, Option.some.injEq] at h; exact h ▸ le_rfl
  | cons m t ih =>
    intro V Vf h
    simp only [minLoopAll, Option.bind_eq_bind] at h
    cases hs : simulateMove b m.startRow m.startCol m.row m.col m.captured with
    | none => simp [hs] at h
    | some sb =>
      cases hc : child sb with
      | none => simp [hs, hc] at h
      | some v =>
        simp only [hs, hc, Option.some_bind] at h
        exact le_trans (ih _ _ h) (min_le_left _ _)

theorem maxLoop_bracket (childAB : Board → JSNum → JSNum → Option JSNum)
    (childAll : Board → Option JSNum)
    (hchild : ∀ sb v, childAll sb = some v → ∀ α β, α < β →
      ∃ r, childAB sb α β = some r ∧ Bracket α β v r)
    (b : Board) (α0 β : JSNum) (hαβ : α0 < β) :
    ∀ (moves : List Move) (a M V Vf : JSNum),
      a = max α0 M → M < β → (M ≤ α0 → V ≤ M) → (α0 < M → M = V) →
      maxLoopAll childAll b moves V = some Vf →
      ∃ r, maxLoop childAB b moves a β M = some r ∧ Bracket α0 β Vf r := by
  intro moves
  induction moves with
  | nil =>
    intro a M V Vf _ hM inv1 inv2 h
    simp only [maxLoopAll, Option.some.injEq] at h
    subst h
    exact ⟨M, rfl, inv1, fun hb => absurd hM (not_lt.2 hb), fun h1 _ => inv2 h1⟩
  | cons m t ih =>
    intro a M V Vf ha hM inv1 inv2 h
    simp only [maxLoopAll, Option.bind_eq_bind] at h
    cases hs : simulateMove b m.startRow m.startCol m.row m.col m.captured with
    | none => simp [hs] at h
    | some sb =>
      cases hc : childAll sb with
      | none => simp [hs, hc] at h
      | some v =>
        simp only [hs, hc, Option.some_bind] at h
        have haβ : a < β := by rw [ha]; exact max_lt hαβ hM
        obtain ⟨r, hr, hbr⟩ := hchild sb v hc a β haβ
        simp only [maxLoop, hs, Option.bind_eq_bind, Option.some_bind, hr]
        rw [ha] at hbr ⊢
        by_cases hbreak : β ≤ max (max α0 M) (max M r)
        · rw [if_pos hbreak]
          refine ⟨_, rfl, max_break hαβ hM hbr hbreak ?_⟩
          exact le_trans (le_max_right _ _) (maxLoopAll_ge _ _ _ _ _ h)
        · rw [if_neg hbreak]
          obtain ⟨k1, k2, k3, k4⟩ := max_continue hbr hbreak inv1 inv2
          exact ih _ _ _ _ k4 k1 k2 k3 h

theorem minLoop_bracket (childAB : Board → JSNum → JSNum → Option JSNum)
    (childAll : Board → Option JSNum)
    (hchild : ∀ sb v, childAll sb = some v → ∀ α β, α < β →
      ∃ r, childAB sb α β = some r ∧ Bracket α β v r)
    (b : Board) (α β0 : JSNum) (hαβ : α < β0) :
    ∀ (moves : List Move) (bt m V Vf : JSNum),
      bt = min β0 m → α < m → (β0 ≤ m → m ≤ V) → (m < β0 → m = V) →
      minLoopAll childAll b moves V = some Vf →
      ∃ r, minLoop childAB b moves α bt m = some r ∧ Bracket α β0 Vf r := by
  intro moves
  induction moves with
  | nil =>
    intro bt m V Vf _ hm inv1 inv2 h
    simp only [minLoopAll, Option.some.injEq] at h
    subst h
    exact ⟨m, rfl, fun hb => absurd hm (not_lt.2 hb), inv1, fun _ h2 => inv2 h2⟩
  | cons mv t ih =>
    intro bt m V Vf hb hm inv1 inv2 h
    simp only [minLoopAll, Option.bind_eq_bind] at h
    cases hs : simulateMove b mv.startRow mv.startCol mv.row mv.col mv.captured with
    | none => simp [hs] at h
    | some sb =>
      cases hc : childAll sb with
      | none => simp [hs, hc] at h
      | some v =>
        simp only [hs, hc, Option.some_bind] at h
        have hαb : α < bt := by rw [hb]; exact lt_min hαβ hm
        obtain ⟨r, hr, hbr⟩ := hchild sb v hc α bt hαb
        simp only [minLoop, hs, Option.bind_eq_bind, Option.some_bind, hr]
        rw [hb] at hbr ⊢
        by_cases hbreak : min (min β0 m) (min m r) ≤ α
        · rw [if_pos hbreak]
          refine ⟨_, rfl, min_break hαβ hm hbr hbreak ?_⟩
          exact le_trans (minLoopAll_le _ _ _ _ _ h) (min_le_right _ _)
        · rw [if_neg hbreak]
          obtain ⟨k1, k2, k3, k4⟩ := min_continue hbr hbreak inv1 inv2
          exact ih _ _ _ _ k4 k1 k2 k3 h

/-- Alpha-beta search brackets the unpruned value: inside the window it is the
unpruned value, outside it is a bound on the right side. -/
theorem minimax_bracket :
    ∀ (depth : Nat) (b : Board) (mx : Bool) (p : Player) (v : JSNum),
      minimaxUnpruned depth b mx p = some v →
      ∀ α β, α < β → ∃ r, minimax depth b α β mx p = some r ∧ Bracket α β v r := by
  intro depth
  induction depth with
  | zero =>
    intro b mx p v h α β _
    simp only [minimaxUnpruned] at h
    exact ⟨v, by simp only [minimax]; exact h, Bracket.refl _ _ _⟩
  | succ d ih =>
    intro b mx p v h α β hαβ
    simp only [minimaxUnpruned, Option.bind_eq_bind] at h
    simp only [minimax, Option.bind_eq_bind]
    cases hg : isGameOver b p with
    | none => simp [hg] at h
    | some over =>
      simp only [hg, Option.some_bind] at h ⊢
      cases over with
      | true =>
        simp only [if_true] at h ⊢
        exact ⟨v, h, Bracket.refl _ _ _⟩
      | false =>
        simp only [Bool.false_eq_true, if_false] at h ⊢
        cases hm : getAllPossibleMoves b p with
        | none => simp [hm] at h
        | some moves =>
          simp only [hm, Option.some_bind] at h ⊢
          cases mx with
          | true =>
            simp only [if_true] at h ⊢
            exact maxLoop_bracket _ _ (fun sb v hv α β hab => ih sb false _ v hv α β hab)
              b α β hαβ moves α ⊥ ⊥ v (by simp) (lt_of_le_of_lt bot_le hαβ)
              (fun _ => le_rfl) (fun hlt => absurd hlt (not_lt_bot)) h
          | false =>
            simp only [Bool.false_eq_true, if_false] at h ⊢
            exact minLoop_bracket _ _ (fun sb v hv α β hab => ih sb true _ v hv α β hab)
              b α β hαβ moves β ⊤ ⊤ v (by simp) (lt_of_lt_of_le hαβ le_top)
              (fun _ => le_rfl) (fun hlt => absurd hlt (not_top_lt)) h

theorem Bracket.full {v r : JSNum} (h : Bracket ⊥ ⊤ v r) : r = v := by
  rcases eq_or_ne r ⊥ with e | e
  · have := h.1 (e ▸ le_rfl)
    rw [e] at this ⊢
    exact (le_bot_iff.1 this).symm
  · rcases eq_or_ne r ⊤ with e' | e'
    · have := h.2.1 (e' ▸ le_rfl)
      rw [e'] at this ⊢
      exact (top_le_iff.1 this).symm
    · exact h.2.2 (bot_lt_iff_ne_bot.2 e) (lt_top_iff_ne_top.2 e')


/-! ## Single jumps, stated without the scan -/

theorem inGrid_between {r c : Int} {d : Int × Int} (hd1 : d.1 = 1 ∨ d.1 = -1)
    (hd2 : d.2 = 1 ∨ d.2 = -1) (hs : inGrid r c = true) {i m : Nat} (him : i ≤ m)
    (hm : inGrid (r + m * d.1) (c + m * d.2) = true) :
    inGrid (r + i * d.1) (c + i * d.2) = true := by
  rw [inGrid_iff] at hs hm ⊢
  have hi : (i : Int) ≤ m := by exact_mod_cast him
  have h0 : (0 : Int) ≤ i := Int.ofNat_nonneg i
  rcases hd1 with e1 | e1 <;> rcases hd2 with e2 | e2 <;> rw [e1, e2] at hm ⊢ <;>
    refine ⟨⟨?_, ?_⟩, ?_, ?_⟩ <;> omega

theorem kingJumpsDir_some_iff {b : Board} (opp : Player) {r c : Int} {d : Int × Int}
    (hd1 : d.1 = 1 ∨ d.1 = -1) (hd2 : d.2 = 1 ∨ d.2 = -1) (hs : inGrid r c = true)
    (over : Pos) (j : Jump) :
    ∀ (n i : Nat), 0 < n → (d.1 = 1 → 8 - (r + i * d.1) < n) →
      (d.1 = -1 → (r + i * d.1) + 1 < n) →
      (j ∈ kingJumpsDir b opp d n (r + i * d.1) (c + i * d.2) (some over) ↔
        j.over = over ∧ ∃ m : Nat, i ≤ m ∧ j.row = r + m * d.1 ∧ j.col = c + m * d.2 ∧
          inGrid j.row j.col = true ∧
          ∀ t : Nat, i ≤ t → t ≤ m → safeAt b (r + t * d.1) (c + t * d.2) = none) := by
  intro n
  induction n with
  | zero => intro i h; omega
  | succ k ih =>
    intro i _ h1 h2
    rw [kingJumpsDir_succ]
    by_cases hg : inGrid (r + i * d.1) (c + i * d.2) = true
    · have hg' := inGrid_iff.1 hg
      have hk : 0 < k := by rcases hd1 with e | e <;> [have := h1 e; have := h2 e] <;> omega
      have hnext := ih (i + 1) hk
        (by intro e; have := h1 e; push_cast; rw [e] at this ⊢; omega)
        (by intro e; have := h2 e; push_cast; rw [e] at this ⊢; omega)
      have e1 : r + (i : Int) * d.1 + d.1 = r + ((i + 1 : Nat) : Int) * d.1 := by
        push_cast; ring
      have e2 : c + (i : Int) * d.2 + d.2 = c + ((i + 1 : Nat) : Int) * d.2 := by
        push_cast; ring
      simp only [hg, if_true]
      cases hsq : safeAt b (r + i * d.1) (c + i * d.2) with
      | some q =>
        have hfalse : ¬ (j.over = over ∧ ∃ m : Nat, i ≤ m ∧ j.row = r + m * d.1 ∧
            j.col = c + m * d.2 ∧ inGrid j.row j.col = true ∧
            ∀ t : Nat, i ≤ t → t ≤ m → safeAt b (r + t * d.1) (c + t * d.2) = none) := by
          rintro ⟨-, m, him, -, -, -, hall⟩
          have := hall i le_rfl him
          rw [hsq] at this
          cases this
        by_cases hq : q.player = opp
        · simp only [hq, if_true, List.not_mem_nil, false_iff]; exact hfalse
        · simp only [hq, if_false, List.not_mem_nil, false_iff]; exact hfalse
      | none =>
        simp only [List.mem_cons]
        rw [e1, e2, hnext]
        constructor
        · rintro (rfl | ⟨ho, m, him, hr, hc, hgm, hall⟩)
          · refine ⟨rfl, i, le_rfl, rfl, rfl, hg, ?_⟩
            intro t h1t h2t
            have : t = i := le_antisymm h2t h1t
            rw [this]; exact hsq
          · refine ⟨ho, m, by omega, hr, hc, hgm, ?_⟩
            intro t h1t h2t
            rcases Nat.eq_or_lt_of_le h1t with e | e
            · rw [← e]; exact hsq
            · exact hall t e h2t
        · rintro ⟨ho, m, him, hr, hc, hgm, hall⟩
          rcases Nat.eq_or_lt_of_le him with e | e
          · left
            subst e
            cases j
            simp only at ho hr hc
            simp [ho, hr, hc]
          · right
            exact ⟨ho, m, e, hr, hc, hgm, fun t h1t h2t => hall t (by omega) h2t⟩
    · simp only [hg, Bool.false_eq_true, if_false, List.not_mem_nil, false_iff]
      rintro ⟨-, m, him, hr, hc, hgm, -⟩
      rw [hr, hc] at hgm
      exact hg (inGrid_between hd1 hd2 hs him hgm)

theorem kingJumpsDir_none_iff {b : Board} (opp : Player) {r c : Int} {d : Int × Int}
    (hd1 : d.1 = 1 ∨ d.1 = -1) (hd2 : d.2 = 1 ∨ d.2 = -1) (hs : inGrid r c = true)
    (j : Jump) :
    ∀ (n i : Nat), 0 < n → (d.1 = 1 → 8 - (r + i * d.1) < n) →
      (d.1 = -1 → (r + i * d.1) + 1 < n) →
      (j ∈ kingJumpsDir b opp d n (r + i * d.1) (c + i * d.2) none ↔
        ∃ k m : Nat, i ≤ k ∧ k < m ∧
          j.over = { row := r + k * d.1, col := c + k * d.2 } ∧
          j.row = r + m * d.1 ∧ j.col = c + m * d.2 ∧
          inGrid j.row j.col = true ∧
          (∀ t : Nat, i ≤ t → t < k → safeAt b (r + t * d.1) (c + t * d.2) = none) ∧
          isOpponentPiece (safeAt b (r + k * d.1) (c + k * d.2)) opp = true ∧
          (∀ t : Nat, k < t → t ≤ m → safeAt b (r + t * d.1) (c + t * d.2) = none)) := by
  intro n
  induction n with
  | zero => intro i h; omega
  | succ k ih =>
    intro i _ h1 h2
    rw [kingJumpsDir_succ]
    by_cases hg : inGrid (r + i * d.1) (c + i * d.2) = true
    · have hg' := inGrid_iff.1 hg
      have hk : 0 < k := by rcases hd1 with e | e <;> [have := h1 e; have := h2 e] <;> omega
      have f1 : d.1 = 1 → 8 - (r + ((i + 1 : Nat) : Int) * d.1) < k := by
        intro e; have := h1 e; push_cast; rw [e] at this ⊢; omega
      have f2 : d.1 = -1 → (r + ((i + 1 : Nat) : Int) * d.1) + 1 < k := by
        intro e; have := h2 e; push_cast; rw [e] at this ⊢; omega
      have e1 : r + (i : Int) * d.1 + d.1 = r + ((i + 1 : Nat) : Int) * d.1 := by
        push_cast; ring
      have e2 : c + (i : Int) * d.2 + d.2 = c + ((i + 1 : Nat) : Int) * d.2 := by
        push_cast; ring
      simp only [hg, if_true]
      cases hsq : safeAt b (r + i * d.1) (c + i * d.2) with
      | some q =>
        by_cases hq : q.player = opp
        · simp only [hq, if_true]
          rw [e1, e2, kingJumpsDir_some_iff opp hd1 hd2 hs _ j k (i + 1) hk f1 f2]
          constructor
          · rintro ⟨ho, m, him, hr, hc, hgm, hall⟩
            refine ⟨i, m, le_rfl, by omega, ho, hr, hc, hgm, ?_, ?_, ?_⟩
            · intro t h1t h2t; omega
            · simp [hsq, isOpponentPiece, hq]
            · intro t h1t h2t; exact hall t (by omega) h2t
          · rintro ⟨k', m, hik, hkm, ho, hr, hc, hgm, hbefore, -, hafter⟩
            have hki : k' = i := by
              rcases Nat.eq_or_lt_of_le hik with e | e
              · exact e.symm
              · have := hbefore i le_rfl e
                rw [hsq] at this
                cases this
            subst hki
            exact ⟨ho, m, by omega, hr, hc, hgm, fun t h1t h2t => hafter t (by omega) h2t⟩
        · simp only [hq, if_false, List.not_mem_nil, false_iff]
          rintro ⟨k', m, hik, hkm, ho, hr, hc, hgm, hbefore, hopp, hafter⟩
          rcases Nat.eq_or_lt_of_le hik with e | e
          · subst e
            simp [hsq, isOpponentPiece, hq] at hopp
          · have := hbefore i le_rfl e
            rw [hsq] at this
            cases this
      | none =>
        simp only
        rw [e1, e2, ih (i + 1) hk f1 f2]
        constructor
        · rintro ⟨k', m, hik, hkm, ho, hr, hc, hgm, hbefore, hopp, hafter⟩
          refine ⟨k', m, by omega, hkm, ho, hr, hc, hgm, ?_, hopp, hafter⟩
          intro t h1t h2t
          rcases Nat.eq_or_lt_of_le h1t with e | e
          · rw [← e]; exact hsq
          · exact hbefore t e h2t
        · rintro ⟨k', m, hik, hkm, ho, hr, hc, hgm, hbefore, hopp, hafter⟩
          have hne : k' ≠ i := by
            rintro rfl
            simp [hsq, isOpponentPiece] at hopp
          exact ⟨k', m, by omega, hkm, ho, hr, hc, hgm,
            fun t h1t h2t => hbefore t (by omega) h2t, hopp, hafter⟩
    · simp only [hg, Bool.false_eq_true, if_false, List.not_mem_nil, false_iff]
      rintro ⟨k', m, hik, hkm, -, hr, hc, hgm, -⟩
      rw [hr, hc] at hgm
      exact hg (inGrid_between hd1 hd2 hs (by omega) hgm)

theorem mem_manJumpsDir_iff (b : Board) (r c : Int) (opp : Player) (d : Int × Int)
    (j : Jump) :
    j ∈ manJumpsDir b r c opp d ↔
      j.over = { row := r + d.1, col := c + d.2 } ∧
      j.row = r + 2 * d.1 ∧ j.col = c + 2 * d.2 ∧
      inGrid j.row j.col = true ∧
      isOpponentPiece (safeAt b (r + d.1) (c + d.2)) opp = true ∧
      safeAt b j.row j.col = none := by
  unfold manJumpsDir
  constructor
  · intro h
    split at h
    · rename_i hc
      simp only [List.mem_singleton] at h
      subst h
      simp only [Bool.and_eq_true, Option.isNone_iff_eq_none] at hc
      exact ⟨rfl, rfl, rfl, hc.1, hc.2.1, hc.2.2⟩
    · cases h
  · rintro ⟨ho, hr, hc, hg, hopp, he⟩
    rw [hr, hc] at hg he
    have : (inGrid (r + 2 * d.1) (c + 2 * d.2) &&
        (isOpponentPiece (safeAt b (r + d.1) (c + d.2)) opp &&
          (safeAt b (r + 2 * d.1) (c + 2 * d.2)).isNone)) = true := by
      simp [hg, hopp, he]
    rw [if_pos this, List.mem_singleton]
    cases j
    simp only at ho hr hc
    simp [ho, hr, hc]

theorem mem_jumpsAt_iff {b : Board} (h : WellFormed b) {r c : Int} {j : Jump} :
    j ∈ jumpsAt b r c ↔ JumpAvailable b r c j := by
  unfold jumpsAt JumpAvailable
  cases hp : safeAt b r c with
  | none => simp
  | some piece =>
    have hs := safeAt_inGrid h hp
    have hs' := inGrid_iff.1 hs
    simp only [Option.some.injEq, exists_eq_left']
    unfold singleJumps
    rw [List.mem_flatMap]
    cases hk : piece.isKing with
    | false =>
      simp only [Bool.not_false, if_true, mem_manJumpsDir_iff, true_and, Bool.false_eq_true,
        false_and, or_false]
      rfl
    | true =>
      simp only [Bool.not_true, Bool.false_eq_true, if_false, false_and, true_and, false_or,
        Bool.true_eq_false]
      unfold KingJumpAvailable
      constructor
      · rintro ⟨d, hd, hj⟩
        have hd1 := directions_fst hd
        have hd2 := directions_snd hd
        have := (kingJumpsDir_none_iff (b := b) (opponentOf piece.player) hd1 hd2 hs j 9 1
          (by omega) (by intro e; rw [e]; push_cast; omega)
          (by intro e; rw [e]; push_cast; omega)).1
          (by simpa using hj)
        obtain ⟨k, m, h1, h2, rest⟩ := this
        exact ⟨d, hd, k, m, h1, h2, rest.1, rest.2.1, rest.2.2.1, rest.2.2.2.1,
          fun i hi1 hi2 => rest.2.2.2.2.1 i hi1 hi2, rest.2.2.2.2.2⟩
      · rintro ⟨d, hd, k, m, h1, h2, ho, hr, hc, hg, hb, hopp, ha⟩
        have hd1 := directions_fst hd
        have hd2 := directions_snd hd
        refine ⟨d, hd, ?_⟩
        have := (kingJumpsDir_none_iff (b := b) (opponentOf piece.player) hd1 hd2 hs j 9 1
          (by omega) (by intro e; rw [e]; push_cast; omega)
          (by intro e; rw [e]; push_cast; omega)).2
          ⟨k, m, h1, h2, ho, hr, hc, hg, hb, hopp, ha⟩
        simpa using this


theorem jumpChain_to_scanChain {b fb : Board} {r c fr fc : Int} {caps : List Pos}
    (hch : JumpChain b r c caps fr fc fb) :
    WellFormed b → ScanChain b r c caps fr fc fb := by
  induction hch with
  | @one b nb r c j hj hs =>
    intro hw
    exact ScanChain.one ((mem_jumpsAt_iff hw).2 hj) hs
  | @cons b nb fb r c fr fc j caps hj hs _ ih =>
    intro hw
    have hmem := (mem_jumpsAt_iff hw).2 hj
    obtain ⟨piece, hp, -⟩ := hj
    rw [jumpsAt_of_piece hp] at hmem
    obtain ⟨nb', hs', hwn, -, -⟩ := simulateMove_singleJump hw hp hmem
    rw [hs] at hs'
    cases hs'
    exact ScanChain.cons (by rw [jumpsAt_of_piece hp]; exact hmem) hs (ih hwn)

theorem scanChain_to_jumpChain {b fb : Board} {r c fr fc : Int} {caps : List Pos}
    (hch : ScanChain b r c caps fr fc fb) :
    WellFormed b → JumpChain b r c caps fr fc fb := by
  induction hch with
  | @one b nb r c j hj hs =>
    intro hw
    exact JumpChain.one ((mem_jumpsAt_iff hw).1 hj) hs
  | @cons b nb fb r c fr fc j caps hj hs _ ih =>
    intro hw
    have hav := (mem_jumpsAt_iff hw).1 hj
    obtain ⟨piece, hp, -⟩ := hav
    have hmem := hj
    rw [jumpsAt_of_piece hp] at hmem
    obtain ⟨nb', hs', hwn, -, -⟩ := simulateMove_singleJump hw hp hmem
    rw [hs] at hs'
    cases hs'
    exact JumpChain.cons ((mem_jumpsAt_iff hw).1 hj) hs (ih hwn)

theorem jumpsAt_eq_nil_iff {b : Board} (h : WellFormed b) {r c : Int} :
    jumpsAt b r c = [] ↔ ∀ j, ¬ JumpAvailable b r c j := by
  rw [List.eq_nil_iff_forall_not_mem]
  exact forall_congr' fun j => not_congr (mem_jumpsAt_iff h)

/-! ## Properties of the move generator -/

theorem crown_player (p : Piece) (row : Int) : (crown p row).player = p.player := by
  unfold crown
  split
  · rfl
  · split <;> rfl

theorem ScanChain.final_piece {b fb : Board} {r c fr fc : Int} {caps : List Pos}
    (hch : ScanChain b r c caps fr fc fb) :
    ∀ {piece : Piece}, WellFormed b → safeAt b r c = some piece →
      WellFormed fb ∧ ∃ q, safeAt fb fr fc = some q ∧ q.player = piece.player := by
  induction hch with
  | @one b nb r c j hj hs =>
    intro piece hw hp
    rw [jumpsAt_of_piece hp] at hj
    obtain ⟨nb', hs', hwn, hsafe, -⟩ := simulateMove_singleJump hw hp hj
    rw [hs] at hs'
    cases hs'
    exact ⟨hwn, crown piece j.row, by rw [hsafe]; simp, crown_player _ _⟩
  | @cons b nb fb r c fr fc j caps hj hs _ ih =>
    intro piece hw hp
    rw [jumpsAt_of_piece hp] at hj
    obtain ⟨nb', hs', hwn, hsafe, -⟩ := simulateMove_singleJump hw hp hj
    rw [hs] at hs'
    cases hs'
    have hland : safeAt nb j.row j.col = some (crown piece j.row) := by rw [hsafe]; simp
    obtain ⟨hwf, q, hq, hpl⟩ := ih hwn hland
    exact ⟨hwf, q, hq, by rw [hpl, crown_player]⟩

/-- C1. On a well-formed board, when some piece of the side has a jump chain
(`findJumpPaths` returns a non-empty list for it), `getAllPossibleMoves`
returns a list in which every move is a capture: its `captured` is a
non-empty list, so no simple move is returned. -/
theorem getAllPossibleMoves_mandatory_capture (b : Board) (side : Player)
    (hw : WellFormed b)
    (hcap : ∃ r c piece paths, safeAt b r c = some piece ∧ piece.player = side ∧
      findJumpPaths b r c side [] = some paths ∧ paths ≠ []) :
    ∃ moves, getAllPossibleMoves b side = some moves ∧
      ∀ m ∈ moves, ∃ caps, m.captured = some caps ∧ caps ≠ [] := by
  obtain ⟨r, c, piece, paths, hp, hside, hpaths, hne⟩ := hcap
  have hmem : (r, c) ∈ allSquares := mem_allSquares.2 (safeAt_inGrid hw hp)
  have hcaps : capturesOf b side (r, c) ≠ [] := by
    simp only [capturesOf, hp, hside, if_true, hpaths, Option.getD_some]
    simpa using hne
  have hpos : (allSquares.flatMap (capturesOf b side)).length > 0 := by
    obtain ⟨m, hm⟩ := List.exists_mem_of_ne_nil _ hcaps
    exact List.length_pos_of_mem (List.mem_flatMap.2 ⟨(r, c), hmem, hm⟩)
  refine ⟨allSquares.flatMap (capturesOf b side), ?_, ?_⟩
  · rw [getAllPossibleMoves_eq hw, if_pos hpos]
  · intro m hm
    obtain ⟨sq, -, hmsq⟩ := List.mem_flatMap.1 hm
    have := (capturesOf_isCapture hw hmsq).1
    unfold isCapture at this
    cases hc : m.captured with
    | none => simp [hc] at this
    | some caps =>
      refine ⟨caps, rfl, ?_⟩
      simp only [hc, gt_iff_lt, decide_eq_true_eq] at this
      exact List.length_pos.1 this

/-- C5. On a well-formed board, for a piece standing on `(r, c)`,
`findJumpPaths(board, r, c, side, [])` returns a list that contains an entry
for every maximal capture sequence: for every chain of single jumps, each one
available on the snapshot left by the previous one, after whose last jump no
jump is available, there is an entry whose final square is the last landing
square and whose `captured` is the list of jumped squares in order. -/
theorem findJumpPaths_complete (b : Board) (r c : Int) (side : Player) (piece : Piece)
    (hw : WellFormed b) (hp : safeAt b r c = some piece)
    (caps : List Pos) (fr fc : Int) (fb : Board)
    (hch : JumpChain b r c caps fr fc fb) (hend : ∀ j, ¬ JumpAvailable fb fr fc j) :
    ∃ paths, findJumpPaths b r c side [] = some paths ∧
      { finalRow := fr, finalCol := fc, captured := caps } ∈ paths := by
  obtain ⟨paths, e, spec⟩ := findJumpPaths_spec hw hp side
  have hsc := jumpChain_to_scanChain hch hw
  have hwf := (hsc.final_piece hw hp).1
  exact ⟨paths, e, (spec _).2 ⟨fb, hsc, (jumpsAt_eq_nil_iff hwf).2 hend⟩⟩

/-- C6. On a well-formed board, for a piece standing on `(r, c)`,
`findJumpPaths(board, r, c, side, [])` returns a list, and no entry of it
stops early: the entry's captures can be performed one by one as single jumps
ending on `(finalRow, finalCol)`, and on the snapshot so reached the piece
standing on that square has no single jump available. -/
theorem findJumpPaths_no_early_stop (b : Board) (r c : Int) (side : Player)
    (piece : Piece) (hw : WellFormed b) (hp : safeAt b r c = some piece) :
    ∃ paths, findJumpPaths b r c side [] = some paths ∧
      ∀ p ∈ paths, ∃ fb, JumpChain b r c p.captured p.finalRow p.finalCol fb ∧
        (∃ q, safeAt fb p.finalRow p.finalCol = some q ∧ q.player = piece.player) ∧
        ∀ j, ¬ JumpAvailable fb p.finalRow p.finalCol j := by
  obtain ⟨paths, e, spec⟩ := findJumpPaths_spec hw hp side
  refine ⟨paths, e, ?_⟩
  intro p hpm
  obtain ⟨fb, hch, hend⟩ := (spec p).1 hpm
  have hfin := hch.final_piece hw hp
  exact ⟨fb, scanChain_to_jumpChain hch hw, hfin.2, (jumpsAt_eq_nil_iff hfin.1).1 hend⟩

/-- C10. On a well-formed board, for a square holding a piece of the side, the
handler of `/api/getPossibleMoves` returns exactly the moves of
`getAllPossibleMoves` that start on that square, in the same order; in
particular it returns the empty list when the piece has no capture while the
side has one. -/
theorem apiGetPossibleMoves_eq_filter (b : Board) (side : Player) (r c : Int)
    (piece : Piece) (hw : WellFormed b) (hp : safeAt b r c = some piece)
    (hside : piece.player = side) :
    ∃ moves, getAllPossibleMoves b side = some moves ∧
      apiGetPossibleMoves b r c side =
        some (moves.filter fun m => decide (m.startRow = r) && decide (m.startCol = c)) ∧
      (findJumpPaths b r c side [] = some [] → (∃ m ∈ moves, isCapture m = true) →
        apiGetPossibleMoves b r c side = some []) := by
  have hmem : (r, c) ∈ allSquares := mem_allSquares.2 (safeAt_inGrid hw hp)
  have hfilter : ∀ (f : Int × Int → List Move),
      (∀ sq, ∀ m ∈ f sq, m.startRow = sq.1 ∧ m.startCol = sq.2) →
      (allSquares.flatMap f).filter
        (fun m => decide (m.startRow = r) && decide (m.startCol = c)) = f (r, c) := by
    intro f hf
    have := filter_flatMap_key f (fun m : Move => (m.startRow, m.startCol))
      (fun sq m hm => by obtain ⟨e1, e2⟩ := hf sq m hm; simp [e1, e2]) (r, c)
      allSquares allSquares_nodup hmem
    rw [← this]
    congr 1
    funext m
    simp [Prod.ext_iff]
  have hcapf := hfilter (capturesOf b side) fun sq m hm => (capturesOf_isCapture hw hm).2
  have hsimf := hfilter (simplesOf b side) fun sq m hm => (simplesOf_not_capture hw hm).2
  rw [getAllPossibleMoves_eq hw]
  generalize hcs : allSquares.flatMap (capturesOf b side) = caps at hcapf ⊢
  generalize hss : allSquares.flatMap (simplesOf b side) = simples at hsimf ⊢
  have hallcap : ∀ m ∈ caps, isCapture m = true := by
    intro m hm
    rw [← hcs] at hm
    obtain ⟨sq, -, hmsq⟩ := List.mem_flatMap.1 hm
    exact (capturesOf_isCapture hw hmsq).1
  have hnocap : ∀ m ∈ simples, isCapture m = false := by
    intro m hm
    rw [← hss] at hm
    obtain ⟨sq, -, hmsq⟩ := List.mem_flatMap.1 hm
    simp [isCapture, (simplesOf_not_capture hw hmsq).1]
  have hget := getAllPossibleMoves_eq hw side
  rw [hcs, hss] at hget
  by_cases hpos : caps.length > 0
  · rw [if_pos hpos] at hget ⊢
    have hfa : caps.filter isCapture = caps := List.filter_eq_self.2 hallcap
    have hapi : apiGetPossibleMoves b r c side =
        some (caps.filter fun m => decide (m.startRow = r) && decide (m.startCol = c)) := by
      unfold apiGetPossibleMoves
      rw [hget]
      simp only [Option.bind_eq_bind, Option.some_bind, hfa, hpos, if_true]
      split
      · rfl
      · rename_i hl
        cases hx : caps.filter fun m => decide (m.startRow = r) && decide (m.startCol = c) with
        | nil => rfl
        | cons _ _ => rw [hx] at hl; simp at hl
    refine ⟨caps, rfl, hapi, ?_⟩
    intro hnone _
    rw [hapi, hcapf]
    simp [capturesOf, hp, hside, hnone]
  · rw [if_neg hpos] at hget ⊢
    have hfa : simples.filter isCapture = [] := by
      rw [List.filter_eq_nil_iff]
      intro m hm
      simp [hnocap m hm]
    obtain ⟨ms, hms, hnone⟩ := findSimpleMoves_total hw hp side
    have hapi : apiGetPossibleMoves b r c side =
        some (simples.filter fun m => decide (m.startRow = r) && decide (m.startCol = c)) := by
      unfold apiGetPossibleMoves
      rw [hget]
      simp only [Option.bind_eq_bind, Option.some_bind, hfa, List.length_nil, gt_iff_lt,
        Nat.lt_irrefl, if_false, hms]
      rw [hsimf]
      simp only [simplesOf, hp, hside, if_true, hms, Option.getD_some]
      congr 1
      apply List.map_congr_left
      intro m hm
      simp [moveOfOption, hnone m hm]
    refine ⟨simples, rfl, hapi, ?_⟩
    rintro - ⟨m, hm, hcm⟩
    rw [hnocap m hm] at hcm
    cases hcm

/-! ## Pruning, examples and failing inputs -/

theorem exists_mem_of_decide {o : Option (List Move)} {m : Move}
    (h : (o.map fun ms => decide (m ∈ ms)) = some true) : ∃ ms, o = some ms ∧ m ∈ ms := by
  cases o with
  | none => cases h
  | some ms => exact ⟨ms, rfl, by simpa using h⟩

set_option maxRecDepth 1000000 in
/-- C1, example: on `chainBoard` the white man has a jump chain, and
`getAllPossibleMoves` returns captures only. -/
theorem getAllPossibleMoves_mandatory_capture_witness :
    WellFormed chainBoard ∧
    (∃ r c piece paths, safeAt chainBoard r c = some piece ∧ piece.player = Player.white ∧
      findJumpPaths chainBoard r c Player.white [] = some paths ∧ paths ≠ []) ∧
    ∃ moves, getAllPossibleMoves chainBoard Player.white = some moves ∧
      ∀ m ∈ moves, ∃ caps, m.captured = some caps ∧ caps ≠ [] :=
  have hw : WellFormed chainBoard := by decide
  have hc : ∃ r c piece paths, safeAt chainBoard r c = some piece ∧
      piece.player = Player.white ∧
      findJumpPaths chainBoard r c Player.white [] = some paths ∧ paths ≠ [] :=
    ⟨4, 1, { player := Player.white, isKing := false },
      [{ finalRow := 0, finalCol := 5, captured := [⟨3, 2⟩, ⟨1, 4⟩] }],
      by decide!, rfl, by decide!, by decide⟩
  ⟨hw, hc, getAllPossibleMoves_mandatory_capture chainBoard Player.white hw hc⟩

set_option maxRecDepth 1000000 in
/-- The two jumps of the white man of `chainBoard`, performed one by one. -/
theorem chainBoard_chain :
    ScanChain chainBoard 4 1 [⟨3, 2⟩, ⟨1, 4⟩] 0 5 chainBoard2 :=
  @ScanChain.cons chainBoard chainBoard1 chainBoard2 4 1 0 5 ⟨⟨3, 2⟩, 2, 3⟩ [⟨1, 4⟩]
    (by decide!) (by decide!)
    (@ScanChain.one chainBoard1 chainBoard2 2 3 ⟨⟨1, 4⟩, 0, 5⟩ (by decide!) (by decide!))

set_option maxRecDepth 1000000 in
/-- C5, example: the two-jump chain of the white man of `chainBoard` is
reported. -/
theorem findJumpPaths_complete_witness :
    WellFormed chainBoard ∧
    JumpChain chainBoard 4 1 [⟨3, 2⟩, ⟨1, 4⟩] 0 5 chainBoard2 ∧
    (∀ j, ¬ JumpAvailable chainBoard2 0 5 j) ∧
    ∃ paths, findJumpPaths chainBoard 4 1 Player.white [] = some paths ∧
      { finalRow := 0, finalCol := 5, captured := [⟨3, 2⟩, ⟨1, 4⟩] } ∈ paths :=
  have hw : WellFormed chainBoard := by decide
  have hch := scanChain_to_jumpChain chainBoard_chain hw
  have hend : ∀ j, ¬ JumpAvailable chainBoard2 0 5 j :=
    (jumpsAt_eq_nil_iff (by decide)).1 (by decide!)
  ⟨hw, hch, hend,
    findJumpPaths_complete chainBoard 4 1 Player.white
      { player := Player.white, isKing := false } hw (by decide!)
      [⟨3, 2⟩, ⟨1, 4⟩] 0 5 chainBoard2 hch hend⟩

set_option maxRecDepth 1000000 in
/-- C6, example: the chains of the white man of `promoBoard` do not stop
early. -/
theorem findJumpPaths_no_early_stop_witness :
    WellFormed promoBoard ∧
    safeAt promoBoard 2 3 = some { player := Player.white, isKing := false } ∧
    ∃ paths, findJumpPaths promoBoard 2 3 Player.white [] = some paths ∧
      ∀ p ∈ paths, ∃ fb, JumpChain promoBoard 2 3 p.captured p.finalRow p.finalCol fb ∧
        (∃ q, safeAt fb p.finalRow p.finalCol = some q ∧ q.player = Player.white) ∧
        ∀ j, ¬ JumpAvailable fb p.finalRow p.finalCol j :=
  ⟨by decide, by decide!,
    findJumpPaths_no_early_stop promoBoard 2 3 Player.white
      { player := Player.white, isKing := false } (by decide) (by decide!)⟩

set_option maxRecDepth 1000000 in
/-- C10, example: the per-piece list of the white man of `chainBoard`. -/
theorem apiGetPossibleMoves_eq_filter_witness :
    WellFormed chainBoard ∧
    safeAt chainBoard 4 1 = some { player := Player.white, isKing := false } ∧
    ∃ moves, getAllPossibleMoves chainBoard Player.white = some moves ∧
      apiGetPossibleMoves chainBoard 4 1 Player.white =
        some (moves.filter fun m => decide (m.startRow = 4) && decide (m.startCol = 1)) ∧
      (findJumpPaths chainBoard 4 1 Player.white [] = some [] →
        (∃ m ∈ moves, isCapture m = true) →
        apiGetPossibleMoves chainBoard 4 1 Player.white = some []) :=
  ⟨by decide, by decide!,
    apiGetPossibleMoves_eq_filter chainBoard Player.white 4 1
      { player := Player.white, isKing := false } (by decide) (by decide!) rfl⟩

/-- Soundness of the pruning. Whenever the minimax without pruning over the
same tree returns a value, `minimax(board, depth, -Infinity, +Infinity, flag,
side)` returns that same value, for every board, depth, flag and side (no
well-formedness is needed for this). -/
theorem minimax_eq_minimaxUnpruned (depth : Nat) (b : Board) (flag : Bool) (side : Player)
    (v : JSNum) (h : minimaxUnpruned depth b flag side = some v) :
    minimax depth b ⊥ ⊤ flag side = some v := by
  obtain ⟨r, hr, hbr⟩ := minimax_bracket depth b flag side v h ⊥ ⊤ bot_lt_top
  rw [hr, hbr.full]

set_option maxRecDepth 1000000 in
/-- Example of the soundness of the pruning: a search of depth 2 from the
opening layout. -/
theorem minimax_eq_minimaxUnpruned_witness :
    minimaxUnpruned 2 openingBoard true Player.white = some (JSNum.ofRat 0) ∧
    minimax 2 openingBoard ⊥ ⊤ true Player.white = some (JSNum.ofRat 0) :=
  have h : minimaxUnpruned 2 openingBoard true Player.white = some (JSNum.ofRat 0) := by
    decide!
  ⟨h, minimax_eq_minimaxUnpruned 2 openingBoard true Player.white _ h⟩

set_option maxRecDepth 1000000 in
/-- C2, failing input: on `pruneBoard`, at depth 2, maximising, white to
move, the pruned search returns `-9` while the search without pruning over
the same tree returns no value. The cause is the defect of `simulateMove`
met under C3 and C4: `(4, 3) → (3, 4)` is a legal move of white, on the board
it gives black has the legal capture chain from `(7, 2)` back to `(7, 2)`, and
`simulateMove` applied to that chain returns no value (the start square is
cleared after the piece was placed on the coinciding end square, and the
promotion then writes `isKing` on the emptied square). The search without
pruning simulates this chain; the pruned search breaks out of the loop over
the replies of black before it. -/
theorem minimax_ne_minimaxUnpruned_pruneBoard :
    WellFormed pruneBoard ∧
    minimax 2 pruneBoard ⊥ ⊤ true Player.white = some (JSNum.ofRat (-9)) ∧
    minimaxUnpruned 2 pruneBoard true Player.white = none ∧
    (∃ moves, getAllPossibleMoves pruneBoard Player.white = some moves ∧
      { startRow := 4, startCol := 3, row := 3, col := 4, captured := none } ∈ moves) ∧
    ∃ child, simulateMove pruneBoard 4 3 3 4 none = some child ∧
      (∃ replies, getAllPossibleMoves child Player.black = some replies ∧
        { startRow := 7, startCol := 2, row := 7, col := 2,
          captured := some [⟨6, 1⟩, ⟨4, 1⟩, ⟨3, 4⟩, ⟨6, 3⟩] } ∈ replies) ∧
      simulateMove child 7 2 7 2 (some [⟨6, 1⟩, ⟨4, 1⟩, ⟨3, 4⟩, ⟨6, 3⟩]) = none :=
  ⟨by decide, by decide!, by decide!, exists_mem_of_decide (by decide!),
    [[o, o, o, o, o, o, o, o],
     [o, o, o, o, o, o, o, o],
     [o, o, o, o, o, o, o, o],
     [o, o, o, o, wM, o, o, o],
     [o, wM, o, o, o, o, o, o],
     [o, o, o, o, o, o, o, o],
     [o, wM, o, wM, o, o, o, o],
     [o, o, bK, o, o, o, o, o]],
    by decide!, exists_mem_of_decide (by decide!), by decide!⟩

set_option maxRecDepth 1000000 in
/-- C3, failing input: on `vanishBoard` the white king has a capture chain
that ends on its start square `(1, 4)`; `getAllPossibleMoves` returns it, and
`simulateMove` applied to it returns the board without any piece: the
destination square does not hold the moving piece. -/
theorem simulateMove_loses_returning_piece :
    WellFormed vanishBoard ∧
    (∃ moves, getAllPossibleMoves vanishBoard Player.white = some moves ∧
      { startRow := 1, startCol := 4, row := 1, col := 4,
        captured := some [⟨2, 3⟩, ⟨4, 3⟩, ⟨4, 5⟩, ⟨2, 5⟩] } ∈ moves) ∧
    simulateMove vanishBoard 1 4 1 4 (some [⟨2, 3⟩, ⟨4, 3⟩, ⟨4, 5⟩, ⟨2, 5⟩]) =
      some emptyBoard ∧
    safeAt emptyBoard 1 4 = none :=
  ⟨by decide, exists_mem_of_decide (by decide!), by decide!, by decide!⟩

set_option maxRecDepth 1000000 in
/-- C4, failing input: on `ringBoard` the white king has a capture chain that
ends on its start square `(0, 3)` of row 0; `getAllPossibleMoves` returns it,
`simulateMove` applied to it returns no value (the promotion writes `isKing`
on the emptied square), and so does `minimax` at depth 1. -/
theorem simulateMove_throws_on_ringBoard :
    WellFormed ringBoard ∧
    (∃ moves, getAllPossibleMoves ringBoard Player.white = some moves ∧
      { startRow := 0, startCol := 3, row := 0, col := 3,
        captured := some [⟨1, 2⟩, ⟨3, 2⟩, ⟨3, 4⟩, ⟨1, 4⟩] } ∈ moves) ∧
    simulateMove ringBoard 0 3 0 3 (some [⟨1, 2⟩, ⟨3, 2⟩, ⟨3, 4⟩, ⟨1, 4⟩]) = none ∧
    minimax 1 ringBoard ⊥ ⊤ true Player.white = none :=
  ⟨by decide, exists_mem_of_decide (by decide!), by decide!, by decide!⟩

set_option maxRecDepth 1000000 in
/-- C7, failing input: on `promoBoard` the white man jumps to `(0, 5)`, where
`findJumpPaths` crowns it, and goes on as a king to `(4, 1)`;
`getAllPossibleMoves` returns this chain, and `simulateMove` applied to it
leaves a man, not a king, on `(4, 1)`. -/
theorem simulateMove_drops_midchain_crown :
    WellFormed promoBoard ∧
    (∃ moves, getAllPossibleMoves promoBoard Player.white = some moves ∧
      { startRow := 2, startCol := 3, row := 4, col := 1,
        captured := some [⟨1, 4⟩, ⟨3, 2⟩] } ∈ moves) ∧
    simulateMove promoBoard 2 3 0 5 (some [⟨1, 4⟩]) = some promoBoard1 ∧
    safeAt promoBoard1 0 5 = some { player := Player.white, isKing := true } ∧
    simulateMove promoBoard1 0 5 4 1 (some [⟨3, 2⟩]) = some promoBoard2 ∧
    safeAt promoBoard2 4 1 = some { player := Player.white, isKing := true } ∧
    (simulateMove promoBoard 2 3 4 1 (some [⟨1, 4⟩, ⟨3, 2⟩])).map (fun nb => safeAt nb 4 1) =
      some (some { player := Player.white, isKing := false }) :=
  ⟨by decide, exists_mem_of_decide (by decide!), by decide!, by decide!, by decide!,
    by decide!, by decide!⟩

set_option maxRecDepth 1000000 in
/-- C8. On the board whose only pieces are a white man on `(4, 1)` and black
men on `(3, 2)` and `(1, 4)`, the handler of `/api/getPossibleMoves` for the
piece on `(4, 1)` and side white returns the move landing on `(0, 5)` with
`captured = [(3, 2), (1, 4)]`, and `simulateMove` applied to it leaves a white
king on `(0, 5)`. -/
theorem apiGetPossibleMoves_chain_example :
    apiGetPossibleMoves chainBoard 4 1 Player.white =
      some [{ startRow := 4, startCol := 1, row := 0, col := 5,
              captured := some [⟨3, 2⟩, ⟨1, 4⟩] }] ∧
    (simulateMove chainBoard 4 1 0 5 (some [⟨3, 2⟩, ⟨1, 4⟩])).map (fun nb => safeAt nb 0 5) =
      some (some { player := Player.white, isKing := true }) :=
  ⟨by decide!, by decide!⟩

set_option maxRecDepth 1000000 in
/-- C9. The opening layout built by `createBoard` has black men on the squares
with `row + col` odd of rows 0 to 2, white men on those of rows 5 to 7, and
nothing else; on it `getAllPossibleMoves` returns for white exactly the seven
simple moves of the men of row 5 to row 4, and for black exactly the seven
simple moves of the men of row 2 to row 3, none with a capture. -/
theorem getAllPossibleMoves_opening :
    (∀ sq ∈ allSquares, safeAt openingBoard sq.1 sq.2 =
      if (sq.1 + sq.2) % 2 = 1 ∧ sq.1 ≤ 2 then
        some { player := Player.black, isKing := false }
      else if (sq.1 + sq.2) % 2 = 1 ∧ 5 ≤ sq.1 then
        some { player := Player.white, isKing := false }
      else none) ∧
    getAllPossibleMoves openingBoard Player.white =
      some [{ startRow := 5, startCol := 0, row := 4, col := 1, captured := none },
            { startRow := 5, startCol := 2, row := 4, col := 1, captured := none },
            { startRow := 5, startCol := 2, row := 4, col := 3, captured := none },
            { startRow := 5, startCol := 4, row := 4, col := 3, captured := none },
            { startRow := 5, startCol := 4, row := 4, col := 5, captured := none },
            { startRow := 5, startCol := 6, row := 4, col := 5, captured := none },
            { startRow := 5, startCol := 6, row := 4, col := 7, captured := none }] ∧
    getAllPossibleMoves openingBoard Player.black =
      some [{ startRow := 2, startCol := 1, row := 3, col := 0, captured := none },
            { startRow := 2, startCol := 1, row := 3, col := 2, captured := none },
            { startRow := 2, startCol := 3, row := 3, col := 2, captured := none },
            { startRow := 2, startCol := 3, row := 3, col := 4, captured := none },
            { startRow := 2, startCol := 5, row := 3, col := 4, captured := none },
            { startRow := 2, startCol := 5, row := 3, col := 6, captured := none },
            { startRow := 2, startCol := 7, row := 3, col := 6, captured := none }] :=
  ⟨by decide!, by decide!, by decide!⟩

/-! ## The best-move driver -/

theorem randomIndex_lt {random : ℚ} (h0 : 0 ≤ random) (h1 : random < 1) {n : Nat}
    (hn : 0 < n) : randomIndex random n < n := by
  unfold randomIndex
  have hn' : (0 : ℚ) < n := by exact_mod_cast hn
  have hlt : random * n < n := by
    calc random * n < 1 * n := by exact mul_lt_mul_of_pos_right h1 hn'
      _ = n := one_mul _
  have hfl : ⌊random * n⌋ < (n : Int) := by
    rw [Int.floor_lt]
    exact_mod_cast hlt
  have hnn : 0 ≤ ⌊random * n⌋ := Int.floor_nonneg.2 (mul_nonneg h0 (le_of_lt hn'))
  omega

theorem bestLoop_spec (b : Board) (opp : Player) :
    ∀ (moves : List Move) (bs : JSNum) (bm : Option Move),
      (∀ m ∈ moves, ∃ s, moveScore b opp m = some s) →
      ∃ bs' bm', bestLoop b opp moves bs bm = some (bs', bm') ∧ bs ≤ bs' ∧
        (∀ m ∈ moves, ∀ s, moveScore b opp m = some s → s ≤ bs') ∧
        (bs' = bs ∨ ∃ m ∈ moves, moveScore b opp m = some bs') := by
  intro moves
  induction moves with
  | nil => intro bs bm _; exact ⟨bs, bm, rfl, le_rfl, by simp, Or.inl rfl⟩
  | cons m t ih =>
    intro bs bm hs
    obtain ⟨s, hsm⟩ := hs m (List.mem_cons_self _ _)
    have ht : ∀ m' ∈ t, ∃ s, moveScore b opp m' = some s :=
      fun m' hm' => hs m' (List.mem_cons_of_mem _ hm')
    simp only [bestLoop, hsm, Option.bind_eq_bind, Option.some_bind]
    by_cases hgt : s > bs
    · rw [if_pos hgt]
      obtain ⟨bs', bm', e, hle, hmax, hatt⟩ := ih s (some m) ht
      refine ⟨bs', bm', e, le_trans (le_of_lt hgt) hle, ?_, ?_⟩
      · intro m' hm' s' hs'
        rcases List.mem_cons.1 hm' with rfl | hm'
        · rw [hsm] at hs'; cases hs'; exact hle
        · exact hmax m' hm' s' hs'
      · right
        rcases hatt with e' | ⟨m', hm', hs'⟩
        · exact ⟨m, List.mem_cons_self _ _, by rw [e']; exact hsm⟩
        · exact ⟨m', List.mem_cons_of_mem _ hm', hs'⟩
    · rw [if_neg hgt]
      obtain ⟨bs', bm', e, hle, hmax, hatt⟩ := ih bs bm ht
      refine ⟨bs', bm', e, hle, ?_, ?_⟩
      · intro m' hm' s' hs'
        rcases List.mem_cons.1 hm' with rfl | hm'
        · rw [hsm] at hs'; cases hs'; exact le_trans (not_lt.1 hgt) hle
        · exact hmax m' hm' s' hs'
      · rcases hatt with e' | ⟨m', hm', hs'⟩
        · exact Or.inl e'
        · exact Or.inr ⟨m', List.mem_cons_of_mem _ hm', hs'⟩

theorem bestLoop_some (b : Board) (opp : Player) :
    ∀ (moves : List Move) (bs : JSNum) (bm : Option Move) (st : JSNum × Option Move),
      bestLoop b opp moves bs bm = some st →
      ∀ m ∈ moves, ∃ s, moveScore b opp m = some s := by
  intro moves
  induction moves with
  | nil => intro _ _ _ _ m hm; cases hm
  | cons m t ih =>
    intro bs bm st h m' hm'
    simp only [bestLoop, Option.bind_eq_bind] at h
    cases hsm : moveScore b opp m with
    | none => simp [hsm] at h
    | some s =>
      simp only [hsm, Option.some_bind] at h
      rcases List.mem_cons.1 hm' with rfl | hm'
      · exact ⟨s, hsm⟩
      · split at h
        · exact ih _ _ _ h m' hm'
        · exact ih _ _ _ h m' hm'

theorem equallyGoodMoves_spec (b : Board) (opp : Player) (bs : JSNum) :
    ∀ (moves : List Move), (∀ m ∈ moves, ∃ s, moveScore b opp m = some s) →
      ∃ eg, equallyGoodMoves b opp bs moves = some eg ∧
        ∀ m, m ∈ eg ↔ m ∈ moves ∧ moveScore b opp m = some bs := by
  intro moves
  induction moves with
  | nil => intro _; exact ⟨[], rfl, by simp⟩
  | cons m t ih =>
    intro hs
    obtain ⟨s, hsm⟩ := hs m (List.mem_cons_self _ _)
    obtain ⟨eg, e, hmem⟩ := ih fun m' hm' => hs m' (List.mem_cons_of_mem _ hm')
    simp only [equallyGoodMoves, hsm, e, Option.bind_eq_bind, Option.some_bind]
    by_cases heq : s = bs
    · rw [if_pos heq]
      refine ⟨m :: eg, rfl, ?_⟩
      intro m'
      simp only [List.mem_cons, hmem]
      constructor
      · rintro (rfl | ⟨h1, h2⟩)
        · exact ⟨Or.inl rfl, heq ▸ hsm⟩
        · exact ⟨Or.inr h1, h2⟩
      · rintro ⟨rfl | h1, h2⟩
        · exact Or.inl rfl
        · exact Or.inr ⟨h1, h2⟩
    · rw [if_neg heq]
      refine ⟨eg, rfl, ?_⟩
      intro m'
      simp only [List.mem_cons, hmem]
      constructor
      · rintro ⟨h1, h2⟩; exact ⟨Or.inr h1, h2⟩
      · rintro ⟨rfl | h1, h2⟩
        · rw [hsm] at h2; cases h2; exact absurd rfl heq
        · exact ⟨h1, h2⟩

/-- The driver on a non-empty move list whose scores are all computed. -/
theorem apiGetAIMove_spec {b : Board} {side : Player} {moves : List Move}
    (hm : getAllPossibleMoves b side = some moves) (hne : moves ≠ [])
    (hs : ∀ m ∈ moves, ∃ s, moveScore b (opponentOf side) m = some s) :
    ∃ s, (∀ m ∈ moves, ∀ s', moveScore b (opponentOf side) m = some s' → s' ≤ s) ∧
      ∀ random : ℚ, 0 ≤ random → random < 1 →
        ∃ m, apiGetAIMove b side random = some (some m) ∧ m ∈ moves ∧
          moveScore b (opponentOf side) m = some s := by
  obtain ⟨bs, bm, hbest, -, hmax, hatt⟩ := bestLoop_spec b (opponentOf side) moves ⊥ none hs
  obtain ⟨eg, heg, hmem⟩ := equallyGoodMoves_spec b (opponentOf side) bs moves hs
  -- some move reaches the best score
  have hex : ∃ m ∈ moves, moveScore b (opponentOf side) m = some bs := by
    rcases hatt with e | h
    · obtain ⟨m, hmm⟩ := List.exists_mem_of_ne_nil _ hne
      obtain ⟨s, hsm⟩ := hs m hmm
      have := hmax m hmm s hsm
      rw [e] at this
      exact ⟨m, hmm, by rw [hsm, e, le_bot_iff.1 this]⟩
    · exact h
  have hegne : 0 < eg.length := by
    obtain ⟨m, hmm, hsm⟩ := hex
    exact List.length_pos_of_mem ((hmem m).2 ⟨hmm, hsm⟩)
  refine ⟨bs, hmax, ?_⟩
  intro random h0 h1
  have hidx := randomIndex_lt h0 h1 hegne
  have hlen : ¬ moves.length = 0 := fun h => hne (List.length_eq_zero.1 h)
  refine ⟨eg[randomIndex random eg.length], ?_, ?_⟩
  · simp only [apiGetAIMove, hm, Option.bind_eq_bind, Option.some_bind, hlen, if_false,
      hbest, heg, hegne, if_true]
    rw [List.getElem?_eq_getElem hidx]
  · exact (hmem _).1 (List.getElem_mem hidx)

theorem apiGetAIMove_some_scores {b : Board} {side : Player} {moves : List Move}
    (hm : getAllPossibleMoves b side = some moves) (hne : moves ≠ []) {random : ℚ}
    {res : Option Move} (h : apiGetAIMove b side random = some res) :
    ∀ m ∈ moves, ∃ s, moveScore b (opponentOf side) m = some s := by
  have hlen : ¬ moves.length = 0 := fun h => hne (List.length_eq_zero.1 h)
  simp only [apiGetAIMove, hm, Option.bind_eq_bind, Option.some_bind, hlen, if_false] at h
  cases hb : bestLoop b (opponentOf side) moves ⊥ none with
  | none => simp [hb] at h
  | some st => exact bestLoop_some b (opponentOf side) moves ⊥ none st hb

/-- The selection of the best-move driver. For every board and side with at
least one legal move for which the search of every legal move returns a
value, and for every value in `[0, 1)` of the random source, the handler of
`/api/getAIMove` returns a move of `getAllPossibleMoves(board, side)` whose
score (`minimax` of its simulated board at depth `SEARCH_DEPTH - 1`,
minimising, opponent to move) is the maximum of that score over all legal
moves; this score does not depend on the random value. -/
theorem apiGetAIMove_best (b : Board) (side : Player) (moves : List Move)
    (hm : getAllPossibleMoves b side = some moves) (hne : moves ≠ [])
    (hs : ∀ m ∈ moves, ∃ s, moveScore b (opponentOf side) m = some s) :
    ∃ s, (∀ m ∈ moves, ∀ s', moveScore b (opponentOf side) m = some s' → s' ≤ s) ∧
      ∀ random : ℚ, 0 ≤ random → random < 1 →
        ∃ m, apiGetAIMove b side random = some (some m) ∧ m ∈ moves ∧
          moveScore b (opponentOf side) m = some s :=
  apiGetAIMove_spec hm hne hs

/-- C12. On a well-formed board, for every value in `[0, 1)` of the random
source, the handler of `/api/getAIMove` returns `{ move: null }` if and only
if `getAllPossibleMoves(board, side)` is empty. -/
theorem apiGetAIMove_null_iff (b : Board) (side : Player) (random : ℚ)
    (hw : WellFormed b) (h0 : 0 ≤ random) (h1 : random < 1) :
    apiGetAIMove b side random = some none ↔ getAllPossibleMoves b side = some [] := by
  constructor
  · intro h
    have hm := getAllPossibleMoves_eq hw side
    generalize (if (allSquares.flatMap (capturesOf b side)).length > 0 then
      allSquares.flatMap (capturesOf b side)
      else allSquares.flatMap (simplesOf b side)) = moves at hm
    by_cases hne : moves = []
    · rw [hm, hne]
    · exfalso
      have hs := apiGetAIMove_some_scores hm hne h
      obtain ⟨s, -, hpick⟩ := apiGetAIMove_spec hm hne hs
      obtain ⟨m, hres, -⟩ := hpick random h0 h1
      rw [h] at hres
      cases hres
  · intro h
    simp [apiGetAIMove, h]


/-! ## The evaluation of a board -/

theorem evalStep_eq {b : Board} (h : WellFormed b) (player : Player) (score : ℚ)
    {sq : Int × Int} (hsq : sq ∈ allSquares) :
    evalStep b player (opponentOf player) score sq =
      some (score + cellScore player sq.1 (safeAt b sq.1 sq.2)) := by
  have hg := inGrid_iff.1 (mem_allSquares.1 (by simpa using hsq))
  unfold evalStep
  simp only [cellAt_wf h hg.1.1 hg.1.2, Option.bind_eq_bind, Option.some_bind]
  cases hp : safeAt b sq.1 sq.2 with
  | none => simp [cellScore]
  | some piece =>
    obtain ⟨pl, k⟩ := piece
    cases pl <;> cases player <;> cases k <;>
      simp [cellScore, pieceScore, advancement, opponentOf] <;> ring

theorem foldlM_add {α : Type} (step : ℚ → α → Option ℚ) (f : α → ℚ) :
    ∀ (l : List α) (init : ℚ), (∀ x ∈ l, ∀ s, step s x = some (s + f x)) →
      l.foldlM step init = some (init + (l.map f).sum) := by
  intro l
  induction l with
  | nil => intro init _; simp
  | cons x t ih =>
    intro init hstep
    rw [List.foldlM_cons, hstep x (List.mem_cons_self _ _) init]
    simp only [Option.bind_eq_bind, Option.some_bind]
    rw [ih _ fun y hy => hstep y (List.mem_cons_of_mem _ hy)]
    simp [add_assoc]

theorem evaluateBoard_eq {b : Board} (h : WellFormed b) (side : Player) :
    evaluateBoard b side = some (boardScore b side) := by
  unfold evaluateBoard boardScore
  rw [foldlM_add (evalStep b side (opponentOf side))
    (fun sq => cellScore side sq.1 (safeAt b sq.1 sq.2)) allSquares 0
    fun x hx s => evalStep_eq h side s hx]
  simp

theorem cellScore_white_black (row : Int) (cell : Cell) :
    cellScore Player.white row cell = -cellScore Player.black row cell := by
  cases cell with
  | none => simp [cellScore]
  | some p =>
    obtain ⟨pl, k⟩ := p
    cases pl <;> simp [cellScore, pieceScore]

theorem boardScore_white_black (b : Board) :
    boardScore b Player.white = -boardScore b Player.black := by
  unfold boardScore
  induction allSquares with
  | nil => simp
  | cons sq t ih =>
    simp only [List.map_cons, List.sum_cons, ih, cellScore_white_black sq.1]
    ring

/-- C13. On a well-formed board both evaluations return a value, and
`evaluateBoard(board, 'white') = -evaluateBoard(board, 'black')`. -/
theorem evaluateBoard_antisymmetric (b : Board) (hw : WellFormed b) :
    ∃ w k, evaluateBoard b Player.white = some w ∧ evaluateBoard b Player.black = some k ∧
      w = -k :=
  ⟨_, _, evaluateBoard_eq hw _, evaluateBoard_eq hw _, boardScore_white_black b⟩

/-- C14. On a well-formed board `evaluateBoard(board, side)` returns the sum,
over all pieces, of `s * (10 + (20 for a King) + 0.5 * adv)`, where `s` is `1`
for a piece of `side` and `-1` for a piece of the opponent, and `adv` is
`7 - row` for a white piece and `row` for a black piece. -/
theorem evaluateBoard_sum (b : Board) (side : Player) (hw : WellFormed b) :
    evaluateBoard b side =
      some ((allSquares.map fun sq =>
        match safeAt b sq.1 sq.2 with
        | some p =>
          (if p.player = side then 1 else -1) *
            (10 + (if p.isKing then 20 else 0) +
              (1 / 2) * (if p.player = Player.white then 7 - (sq.1 : ℚ) else (sq.1 : ℚ)))
        | none => 0).sum) := by
  rw [evaluateBoard_eq hw side]
  rfl


/-! ## Captured squares, empty results and crowned men -/

theorem ScanChain.captured_spec {b fb : Board} {r c fr fc : Int} {caps : List Pos}
    (hch : ScanChain b r c caps fr fc fb) :
    ∀ {piece : Piece}, WellFormed b → safeAt b r c = some piece →
      (∀ p ∈ caps, ∃ q, safeAt b p.row p.col = some q ∧
        q.player = opponentOf piece.player) ∧ caps.Nodup := by
  induction hch with
  | @one b nb r c j hj hs =>
    intro piece hw hp
    rw [jumpsAt_of_piece hp] at hj
    obtain ⟨-, -, ho⟩ := singleJumps_mem hj
    refine ⟨?_, List.nodup_singleton _⟩
    intro p hpm
    rw [List.mem_singleton] at hpm
    subst hpm
    cases hq : safeAt b j.over.row j.over.col with
    | none => simp [hq, isOpponentPiece] at ho
    | some q =>
      simp only [hq, isOpponentPiece, decide_eq_true_eq] at ho
      exact ⟨q, rfl, ho⟩
  | @cons b nb fb r c fr fc j caps hj hs _ ih =>
    intro piece hw hp
    rw [jumpsAt_of_piece hp] at hj
    obtain ⟨-, hle, ho⟩ := singleJumps_mem hj
    obtain ⟨nb', hs', hwn, hsafe, -⟩ := simulateMove_singleJump hw hp hj
    rw [hs] at hs'
    cases hs'
    have hland : safeAt nb j.row j.col = some (crown piece j.row) := by rw [hsafe]; simp
    obtain ⟨hopp, hnd⟩ := ih hwn hland
    rw [crown_player] at hopp
    have hover : ∃ q, safeAt b j.over.row j.over.col = some q ∧
        q.player = opponentOf piece.player := by
      cases hq : safeAt b j.over.row j.over.col with
      | none => simp [hq, isOpponentPiece] at ho
      | some q =>
        simp only [hq, isOpponentPiece, decide_eq_true_eq] at ho
        exact ⟨q, rfl, ho⟩
    have hovernb : safeAt nb j.over.row j.over.col = none := by
      rw [hsafe]
      have : ¬ (j.over.row = j.row ∧ j.over.col = j.col) := by
        rintro ⟨e1, e2⟩
        obtain ⟨q, hq, -⟩ := hover
        rw [e1, e2, hle] at hq
        cases hq
      simp [this]
    refine ⟨?_, ?_⟩
    · intro p hpm
      rcases List.mem_cons.1 hpm with rfl | hpm
      · exact hover
      · obtain ⟨q, hq, hpl⟩ := hopp p hpm
        refine ⟨q, ?_, hpl⟩
        rw [hsafe] at hq
        split at hq
        · cases hq
          rw [crown_player] at hpl
          exact absurd hpl.symm (opponentOf_ne _)
        · split at hq
          · cases hq
          · exact hq
    · rw [List.nodup_cons]
      refine ⟨?_, hnd⟩
      intro hmem
      obtain ⟨q, hq, -⟩ := hopp j.over hmem
      rw [hovernb] at hq
      cases hq

/-- C16. On a well-formed board, for a piece standing on `(r, c)`,
`findJumpPaths(board, r, c, side, [])` returns a list, and the `captured` list
of every entry contains no square twice. -/
theorem findJumpPaths_captured_nodup (b : Board) (r c : Int) (side : Player)
    (piece : Piece) (hw : WellFormed b) (hp : safeAt b r c = some piece) :
    ∃ paths, findJumpPaths b r c side [] = some paths ∧
      ∀ p ∈ paths, p.captured.Nodup := by
  obtain ⟨paths, e, spec⟩ := findJumpPaths_spec hw hp side
  refine ⟨paths, e, ?_⟩
  intro p hpm
  obtain ⟨fb, hch, -⟩ := (spec p).1 hpm
  exact (hch.captured_spec hw hp).2

/-- C17. On a well-formed board `getAllPossibleMoves(board, side)` returns a
list, and every square in the `captured` list of every move of it holds a
piece of the opposing side on the input board. -/
theorem getAllPossibleMoves_captured_opponent (b : Board) (side : Player)
    (hw : WellFormed b) :
    ∃ moves, getAllPossibleMoves b side = some moves ∧
      ∀ m ∈ moves, ∀ caps, m.captured = some caps → ∀ p ∈ caps,
        ∃ q, safeAt b p.row p.col = some q ∧ q.player = opponentOf side := by
  refine ⟨_, getAllPossibleMoves_eq hw side, ?_⟩
  intro m hm caps hcaps p hp
  split at hm
  · obtain ⟨sq, -, hmsq⟩ := List.mem_flatMap.1 hm
    unfold capturesOf at hmsq
    cases hpc : safeAt b sq.1 sq.2 with
    | none => simp [hpc] at hmsq
    | some piece =>
      simp only [hpc] at hmsq
      split at hmsq
      · rename_i hside
        obtain ⟨paths, e, spec⟩ := findJumpPaths_spec hw hpc side
        rw [e, Option.getD_some, List.mem_map] at hmsq
        obtain ⟨path, hpath, rfl⟩ := hmsq
        obtain ⟨fb, hch, -⟩ := (spec path).1 hpath
        simp only [moveOfPath, Option.some.injEq] at hcaps
        subst hcaps
        have := (hch.captured_spec hw hpc).1 p hp
        rwa [hside] at this
      · simp at hmsq
  · obtain ⟨sq, -, hmsq⟩ := List.mem_flatMap.1 hm
    rw [(simplesOf_not_capture hw hmsq).1] at hcaps
    cases hcaps

/-- C19. On a well-formed board, for a piece standing on `(r, c)`,
`findJumpPaths(board, r, c, side, [])` returns the empty list if and only if
no single jump is available to the piece from `(r, c)`, and it never returns
an entry with an empty `captured` list. -/
theorem findJumpPaths_nil_iff (b : Board) (r c : Int) (side : Player) (piece : Piece)
    (hw : WellFormed b) (hp : safeAt b r c = some piece) :
    ∃ paths, findJumpPaths b r c side [] = some paths ∧
      (paths = [] ↔ ∀ j, ¬ JumpAvailable b r c j) ∧
      ∀ p ∈ paths, p.captured ≠ [] := by
  obtain ⟨paths, e, m, hnil⟩ := findJumpPathsAux_spec side (pieceCount b + 1) b r c []
    piece hw hp (by omega)
  refine ⟨paths, e, ?_, ?_⟩
  · rw [hnil, ← jumpsAt_eq_nil_iff hw]
    simp
  · intro p hpm
    rcases (m p).1 hpm with ⟨caps, fb, hch, -, hcap⟩ | ⟨h, -⟩
    · rw [hcap, List.nil_append]
      exact hch.captured_ne_nil
    · exact absurd rfl h

theorem crown_backRank {piece : Piece} {row : Int} (h : isBackRank piece.player row) :
    crown piece row = { player := piece.player, isKing := true } := by
  unfold crown
  rcases h with ⟨h1, h2⟩ | ⟨h1, h2⟩
  · rw [if_pos ⟨h1, h2⟩]
  · have : ¬ (piece.player = Player.white ∧ row = 0) := by
      rintro ⟨e, -⟩; rw [e] at h1; cases h1
    rw [if_neg this, if_pos ⟨h1, h2⟩]

/-- C18. On a well-formed board, when a jump available to a man lands on the
back rank of its colour, the snapshot on which `findJumpPaths` continues holds
a King on the landing square, the entries pushed for the jump are the results
of the recursive call on that snapshot from the landing square, and the jumps
available there are those of the long-range scan of a king in the four
directions. -/
theorem findJumpPaths_crowned_continues_as_king (b : Board) (r c : Int) (piece : Piece)
    (j : Jump) (hw : WellFormed b) (hp : safeAt b r c = some piece)
    (_hman : piece.isKing = false) (hj : JumpAvailable b r c j)
    (hback : isBackRank piece.player j.row) :
    ∃ nb, simulateMove b r c j.row j.col (some [j.over]) = some nb ∧
      safeAt nb j.row j.col = some { player := piece.player, isKing := true } ∧
      (∀ fuel side cp, pieceCount nb < fuel →
        jumpResults (fun nb1 r1 c1 p => findJumpPathsAux fuel nb1 r1 c1 side p) b r c cp j =
          findJumpPathsAux fuel nb j.row j.col side (cp ++ [j.over])) ∧
      ∀ j1, JumpAvailable nb j.row j.col j1 ↔
        KingJumpAvailable nb (opponentOf piece.player) j.row j.col j1 := by
  have hmem := (mem_jumpsAt_iff hw).2 hj
  rw [jumpsAt_of_piece hp] at hmem
  obtain ⟨nb, hs, hwn, hsafe, -⟩ := simulateMove_singleJump hw hp hmem
  have hland : safeAt nb j.row j.col = some { player := piece.player, isKing := true } := by
    rw [hsafe, ← crown_backRank hback]; simp
  refine ⟨nb, hs, hland, ?_, ?_⟩
  · intro fuel side cp hfuel
    obtain ⟨cont, hc, -, hnil⟩ := findJumpPathsAux_spec side fuel nb j.row j.col
      (cp ++ [j.over]) _ hwn hland hfuel
    have hne : cont ≠ [] := by
      intro e
      have := (hnil.1 e).2
      simp at this
    have hpos : cont.length > 0 := List.length_pos.2 hne
    simp [jumpResults, hs, hc, hpos]
  · intro j1
    unfold JumpAvailable
    simp [hland]


/-! ## Examples and failing inputs for the driver, the evaluation and the chains -/

set_option maxRecDepth 1000000 in
/-- Example of the selection of the best-move driver: on `promoBoard` the
three legal moves of white are scored and the driver returns one of greatest
score. -/
theorem apiGetAIMove_best_witness :
    getAllPossibleMoves promoBoard Player.white =
      some promoMoves ∧
    ∃ s, (∀ m ∈ promoMoves, ∀ s1,
          moveScore promoBoard (opponentOf Player.white) m = some s1 → s1 ≤ s) ∧
      ∀ random : ℚ, 0 ≤ random → random < 1 →
        ∃ m, apiGetAIMove promoBoard Player.white random = some (some m) ∧
          m ∈ promoMoves ∧
          moveScore promoBoard (opponentOf Player.white) m = some s :=
  have hm : getAllPossibleMoves promoBoard Player.white =
      some promoMoves := by decide!
  ⟨hm, apiGetAIMove_best promoBoard Player.white _ hm (by decide) (by
    intro m hmem
    simp only [promoMoves, List.mem_cons, List.mem_singleton, List.not_mem_nil,
      or_false] at hmem
    rcases hmem with rfl | rfl | rfl
    · exact Option.isSome_iff_exists.1 (by decide!)
    · exact Option.isSome_iff_exists.1 (by decide!)
    · exact Option.isSome_iff_exists.1 (by decide!))⟩

set_option maxRecDepth 1000000 in
/-- C11, failing input: on `ringBoard` white has legal moves, and the handler
of `/api/getAIMove` returns no move whatever the random value, where the
claim says that it chooses a legal move of greatest score. The cause is the
defect of `simulateMove` met under C3 and C4: the legal moves contain the
capture chain of the king from `(0, 3)` back to `(0, 3)`, on which
`simulateMove` returns no value (the start square is cleared after the piece
was placed on the coinciding end square, and the promotion then writes
`isKing` on the emptied square), and the handler simulates every legal
move. -/
theorem apiGetAIMove_throws_on_ringBoard :
    WellFormed ringBoard ∧
    (∃ moves, getAllPossibleMoves ringBoard Player.white = some moves ∧ moves ≠ [] ∧
      { startRow := 0, startCol := 3, row := 0, col := 3,
        captured := some [⟨1, 2⟩, ⟨3, 2⟩, ⟨3, 4⟩, ⟨1, 4⟩] } ∈ moves) ∧
    simulateMove ringBoard 0 3 0 3 (some [⟨1, 2⟩, ⟨3, 2⟩, ⟨3, 4⟩, ⟨1, 4⟩]) = none ∧
    ∀ random : ℚ, apiGetAIMove ringBoard Player.white random = none := by
  have hmem : ∃ moves, getAllPossibleMoves ringBoard Player.white = some moves ∧
      ({ startRow := 0, startCol := 3, row := 0, col := 3,
         captured := some [⟨1, 2⟩, ⟨3, 2⟩, ⟨3, 4⟩, ⟨1, 4⟩] } : Move) ∈ moves :=
    exists_mem_of_decide (by decide!)
  obtain ⟨moves, hm, hin⟩ := hmem
  have hne : moves ≠ [] := List.ne_nil_of_mem hin
  refine ⟨by decide, ⟨moves, hm, hne, hin⟩, by decide!, ?_⟩
  intro random
  cases h : apiGetAIMove ringBoard Player.white random with
  | none => rfl
  | some res =>
    exfalso
    obtain ⟨s, hs⟩ := apiGetAIMove_some_scores hm hne h _ hin
    have hnone : moveScore ringBoard (opponentOf Player.white)
        { startRow := 0, startCol := 3, row := 0, col := 3,
          captured := some [⟨1, 2⟩, ⟨3, 2⟩, ⟨3, 4⟩, ⟨1, 4⟩] } = none := by decide!
    rw [hnone] at hs
    cases hs

set_option maxRecDepth 1000000 in
/-- C12, example: on the board without pieces the driver returns
`{ move: null }`. -/
theorem apiGetAIMove_null_iff_witness :
    WellFormed emptyBoard ∧ getAllPossibleMoves emptyBoard Player.white = some [] ∧
    apiGetAIMove emptyBoard Player.white (1 / 2) = some none :=
  have hw : WellFormed emptyBoard := by decide
  have hm : getAllPossibleMoves emptyBoard Player.white = some [] := by decide!
  ⟨hw, hm,
    (apiGetAIMove_null_iff emptyBoard Player.white (1 / 2) hw (by norm_num) (by norm_num)).2 hm⟩

/-- C13, example: the two evaluations of `promoBoard`. -/
theorem evaluateBoard_antisymmetric_witness :
    WellFormed promoBoard ∧
    ∃ w k, evaluateBoard promoBoard Player.white = some w ∧
      evaluateBoard promoBoard Player.black = some k ∧ w = -k :=
  ⟨by decide, evaluateBoard_antisymmetric promoBoard (by decide)⟩

set_option maxRecDepth 1000000 in
/-- C14, example: the evaluation of `promoBoard` for white is
`12.5 - 10.5 - 11.5 = -9.5`. -/
theorem evaluateBoard_sum_witness :
    WellFormed promoBoard ∧
    evaluateBoard promoBoard Player.white = some (-19 / 2) ∧
    evaluateBoard promoBoard Player.white =
      some ((allSquares.map fun sq =>
        match safeAt promoBoard sq.1 sq.2 with
        | some p =>
          (if p.player = Player.white then 1 else -1) *
            (10 + (if p.isKing then 20 else 0) +
              (1 / 2) * (if p.player = Player.white then 7 - (sq.1 : ℚ) else (sq.1 : ℚ)))
        | none => 0).sum) :=
  ⟨by decide, by decide!, evaluateBoard_sum promoBoard Player.white (by decide)⟩

set_option maxRecDepth 1000000 in
/-- C15, failing input: on `backBoard` the white man of `(2, 3)` has the black
man of `(3, 2)` behind it; `findSimpleMoves` only offers the two forward
squares of row 1, but `findJumpPaths` returns the jump to `(4, 1)`, away from
row 0, and `getAllPossibleMoves` returns it as the only legal move. -/
theorem findJumpPaths_man_jumps_backward :
    WellFormed backBoard ∧
    safeAt backBoard 2 3 = some { player := Player.white, isKing := false } ∧
    findSimpleMoves backBoard 2 3 Player.white =
      some [{ row := 1, col := 2, captured := none },
            { row := 1, col := 4, captured := none }] ∧
    findJumpPaths backBoard 2 3 Player.white [] =
      some [{ finalRow := 4, finalCol := 1, captured := [⟨3, 2⟩] }] ∧
    getAllPossibleMoves backBoard Player.white =
      some [{ startRow := 2, startCol := 3, row := 4, col := 1,
              captured := some [⟨3, 2⟩] }] :=
  ⟨by decide, by decide!, by decide!, by decide!, by decide!⟩

set_option maxRecDepth 1000000 in
/-- C16, example: the chains of the white king of `vanishBoard`. -/
theorem findJumpPaths_captured_nodup_witness :
    WellFormed vanishBoard ∧
    safeAt vanishBoard 1 4 = some { player := Player.white, isKing := true } ∧
    ∃ paths, findJumpPaths vanishBoard 1 4 Player.white [] = some paths ∧
      ∀ p ∈ paths, p.captured.Nodup :=
  ⟨by decide, by decide!,
    findJumpPaths_captured_nodup vanishBoard 1 4 Player.white
      { player := Player.white, isKing := true } (by decide) (by decide!)⟩

/-- C17, example: the captures of white on `promoBoard`. -/
theorem getAllPossibleMoves_captured_opponent_witness :
    WellFormed promoBoard ∧
    ∃ moves, getAllPossibleMoves promoBoard Player.white = some moves ∧
      ∀ m ∈ moves, ∀ caps, m.captured = some caps → ∀ p ∈ caps,
        ∃ q, safeAt promoBoard p.row p.col = some q ∧
          q.player = opponentOf Player.white :=
  ⟨by decide, getAllPossibleMoves_captured_opponent promoBoard Player.white (by decide)⟩

set_option maxRecDepth 1000000 in
/-- C18, example: on `promoBoard` the white man of `(2, 3)` jumps over `(1, 4)`
to `(0, 5)`, is crowned there, and the chains of `findJumpPaths` from `(2, 3)`
include `captured = [(1, 4), (3, 2)]` landing on `(4, 1)`. -/
theorem findJumpPaths_crowned_continues_as_king_witness :
    WellFormed promoBoard ∧
    JumpAvailable promoBoard 2 3 { over := ⟨1, 4⟩, row := 0, col := 5 } ∧
    (∃ paths, findJumpPaths promoBoard 2 3 Player.white [] = some paths ∧
      ({ finalRow := 4, finalCol := 1, captured := [⟨1, 4⟩, ⟨3, 2⟩] } : JumpPath) ∈ paths) ∧
    ∃ nb, simulateMove promoBoard 2 3 0 5 (some [⟨1, 4⟩]) = some nb ∧
      safeAt nb 0 5 = some { player := Player.white, isKing := true } ∧
      (∀ fuel side cp, pieceCount nb < fuel →
        jumpResults (fun nb1 r1 c1 p => findJumpPathsAux fuel nb1 r1 c1 side p)
          promoBoard 2 3 cp { over := ⟨1, 4⟩, row := 0, col := 5 } =
          findJumpPathsAux fuel nb 0 5 side (cp ++ [⟨1, 4⟩])) ∧
      ∀ j1, JumpAvailable nb 0 5 j1 ↔
        KingJumpAvailable nb (opponentOf Player.white) 0 5 j1 :=
  have hw : WellFormed promoBoard := by decide
  have hj : JumpAvailable promoBoard 2 3 { over := ⟨1, 4⟩, row := 0, col := 5 } :=
    (mem_jumpsAt_iff hw).1 (by decide!)
  ⟨hw, hj,
    ⟨[{ finalRow := 4, finalCol := 1, captured := [⟨1, 4⟩, ⟨3, 2⟩] },
      { finalRow := 5, finalCol := 0, captured := [⟨1, 4⟩, ⟨3, 2⟩] },
      { finalRow := 4, finalCol := 1, captured := [⟨3, 2⟩] }], by decide!, by decide⟩,
    findJumpPaths_crowned_continues_as_king promoBoard 2 3
      { player := Player.white, isKing := false } { over := ⟨1, 4⟩, row := 0, col := 5 }
      hw (by decide!) rfl hj (Or.inl ⟨rfl, rfl⟩)⟩

set_option maxRecDepth 1000000 in
/-- C19, example: the white man of `chainBoard`. -/
theorem findJumpPaths_nil_iff_witness :
    WellFormed chainBoard ∧
    safeAt chainBoard 4 1 = some { player := Player.white, isKing := false } ∧
    ∃ paths, findJumpPaths chainBoard 4 1 Player.white [] = some paths ∧
      (paths = [] ↔ ∀ j, ¬ JumpAvailable chainBoard 4 1 j) ∧
      ∀ p ∈ paths, p.captured ≠ [] :=
  ⟨by decide, by decide!,
    findJumpPaths_nil_iff chainBoard 4 1 Player.white
      { player := Player.white, isKing := false } (by decide) (by decide!)⟩

set_option maxRecDepth 1000000 in
/-- C20. The enumerator does not keep only the longest chain: on `branchBoard`
(white man on `(4, 3)`, black men on `(3, 2)`, `(3, 4)` and `(1, 4)`)
`findJumpPaths` returns the one-capture chain `[(3, 2)]` landing on `(2, 1)`
and the two-capture chain `[(3, 4), (1, 4)]` landing on `(0, 3)`. -/
theorem findJumpPaths_keeps_shorter_chain :
    WellFormed branchBoard ∧
    findJumpPaths branchBoard 4 3 Player.white [] =
      some [{ finalRow := 2, finalCol := 1, captured := [⟨3, 2⟩] },
            { finalRow := 0, finalCol := 3, captured := [⟨3, 4⟩, ⟨1, 4⟩] }] ∧
    ∃ (b : Board) (r c : Int) (side : Player) (paths : List JumpPath) (p q : JumpPath),
      findJumpPaths b r c side [] = some paths ∧ p ∈ paths ∧ q ∈ paths ∧
        p.captured.length ≠ q.captured.length :=
  have h : findJumpPaths branchBoard 4 3 Player.white [] =
      some [{ finalRow := 2, finalCol := 1, captured := [⟨3, 2⟩] },
            { finalRow := 0, finalCol := 3, captured := [⟨3, 4⟩, ⟨1, 4⟩] }] := by decide!
  ⟨by decide, h, branchBoard, 4, 3, Player.white, _,
    { finalRow := 2, finalCol := 1, captured := [⟨3, 2⟩] },
    { finalRow := 0, finalCol := 3, captured := [⟨3, 4⟩, ⟨1, 4⟩] },
    h, by decide, by decide, by decide⟩

/-! ## Simple moves, stated without the scan -/

theorem simpleRay_succ (b : Board) (isKing : Bool) (dir : Int × Int) (n : Nat)
    (r c : Int) :
    simpleRay b isKing dir (n + 1) r c =
      if inGrid r c && (safeAt b r c).isNone then
        { row := r, col := c, captured := none } ::
          (if !isKing then [] else simpleRay b isKing dir n (r + dir.1) (c + dir.2))
      else [] := rfl

theorem simpleScan_eq_ray (b : Board) (isKing : Bool) (dir : Int × Int)
    (hd : dir.1 = 1 ∨ dir.1 = -1) :
    ∀ (n : Nat) (r c : Int) (moves : List MoveOption),
      0 < n → (dir.1 = 1 → 8 - r < n) → (dir.1 = -1 → r + 1 < n) →
      simpleScan b isKing dir n r c moves = some (moves ++ simpleRay b isKing dir n r c) := by
  intro n
  induction n with
  | zero => intro r c moves h; omega
  | succ k ih =>
    intro r c moves _ h1 h2
    rw [simpleScan_succ, simpleRay_succ]
    by_cases hc : (inGrid r c && (safeAt b r c).isNone) = true
    · rw [if_pos hc, if_pos hc]
      cases isKing with
      | false => simp
      | true =>
        simp only [Bool.and_eq_true] at hc
        have hg := inGrid_iff.1 hc.1
        have he := ih (r + dir.1) (c + dir.2)
          (moves ++ [{ row := r, col := c, captured := none }])
          (by rcases hd with e | e <;> [have := h1 e; have := h2 e] <;> omega)
          (by intro e; have := h1 e; omega) (by intro e; have := h2 e; omega)
        simp only [Bool.not_true, Bool.false_eq_true, if_false]
        rw [he]; simp
    · rw [if_neg hc, if_neg hc]; simp

theorem findSimpleMoves_eq {b : Board} (h : WellFormed b) {r c : Int} {piece : Piece}
    (hp : safeAt b r c = some piece) (cur : Player) :
    findSimpleMoves b r c cur = some (simpleMovesOf b r c piece) := by
  have hg := inGrid_iff.1 (safeAt_inGrid h hp)
  unfold findSimpleMoves
  simp only [cellAt_wf h hg.1.1 hg.1.2, hp, Option.bind_eq_bind, Option.some_bind]
  have := foldlM_append_flatMap (simpleStep b r c piece)
    (fun dir => if !piece.isKing && ((piece.player = Player.white && decide (dir.1 > 0)) ||
        (piece.player = Player.black && decide (dir.1 < 0))) then []
      else simpleRay b piece.isKing dir 9 (r + dir.1) (c + dir.2)) directions [] ?_
  · rw [this, List.nil_append]; rfl
  · intro d hd acc
    unfold simpleStep
    by_cases hskip : (!piece.isKing && ((piece.player = Player.white && decide (d.1 > 0)) ||
        (piece.player = Player.black && decide (d.1 < 0)))) = true
    · simp only [hskip, if_true, List.append_nil]
    · simp only [hskip, if_false]
      apply simpleScan_eq_ray b piece.isKing d (directions_fst hd) 9
      · omega
      · intro e; rw [e]; push_cast; omega
      · intro e; rw [e]; push_cast; omega

theorem mem_simpleRay_iff (b : Board) (isKing : Bool) {r c : Int} {d : Int × Int}
    (hd1 : d.1 = 1 ∨ d.1 = -1) (hd2 : d.2 = 1 ∨ d.2 = -1) (hs : inGrid r c = true)
    (m : MoveOption) :
    ∀ (n i : Nat), 0 < n → (d.1 = 1 → 8 - (r + i * d.1) < n) →
      (d.1 = -1 → (r + i * d.1) + 1 < n) →
      (m ∈ simpleRay b isKing d n (r + i * d.1) (c + i * d.2) ↔
        ∃ k : Nat, i ≤ k ∧ (isKing = false → k = i) ∧
          m = { row := r + k * d.1, col := c + k * d.2, captured := none } ∧
          inGrid (r + k * d.1) (c + k * d.2) = true ∧
          ∀ t : Nat, i ≤ t → t ≤ k → safeAt b (r + t * d.1) (c + t * d.2) = none) := by
  intro n
  induction n with
  | zero => intro i h; omega
  | succ k ih =>
    intro i _ h1 h2
    rw [simpleRay_succ]
    by_cases hg : inGrid (r + i * d.1) (c + i * d.2) = true
    · have hg' := inGrid_iff.1 hg
      have hk : 0 < k := by rcases hd1 with e | e <;> [have := h1 e; have := h2 e] <;> omega
      have hnext := ih (i + 1) hk
        (by intro e; have := h1 e; push_cast; rw [e] at this ⊢; omega)
        (by intro e; have := h2 e; push_cast; rw [e] at this ⊢; omega)
      have e1 : r + (i : Int) * d.1 + d.1 = r + ((i + 1 : Nat) : Int) * d.1 := by
        push_cast; ring
      have e2 : c + (i : Int) * d.2 + d.2 = c + ((i + 1 : Nat) : Int) * d.2 := by
        push_cast; ring
      cases hsq : safeAt b (r + i * d.1) (c + i * d.2) with
      | some q =>
        simp only [hg, Option.isNone_some, Bool.and_false, Bool.false_eq_true, if_false,
          List.not_mem_nil, false_iff]
        rintro ⟨k', hik, -, -, -, hall⟩
        have := hall i le_rfl hik
        rw [hsq] at this
        cases this
      | none =>
        simp only [hg, Option.isNone_none, Bool.and_self, if_true, List.mem_cons]
        cases isKing with
        | false =>
          simp only [Bool.not_false, if_true, List.not_mem_nil, or_false, true_implies]
          constructor
          · rintro rfl
            refine ⟨i, le_rfl, rfl, rfl, hg, ?_⟩
            intro t h1t h2t
            have : t = i := le_antisymm h2t h1t
            rw [this]; exact hsq
          · rintro ⟨k', -, rfl, hm, -, -⟩
            exact hm
        | true =>
          simp only [Bool.not_true, Bool.false_eq_true, if_false]
          rw [e1, e2, hnext]
          constructor
          · rintro (rfl | ⟨k', hik, -, hm, hgm, hall⟩)
            · refine ⟨i, le_rfl, by simp, rfl, hg, ?_⟩
              intro t h1t h2t
              have : t = i := le_antisymm h2t h1t
              rw [this]; exact hsq
            · refine ⟨k', by omega, by simp, hm, hgm, ?_⟩
              intro t h1t h2t
              rcases Nat.eq_or_lt_of_le h1t with e | e
              · rw [← e]; exact hsq
              · exact hall t e h2t
          · rintro ⟨k', hik, -, hm, hgm, hall⟩
            rcases Nat.eq_or_lt_of_le hik with e | e
            · left
              subst e
              exact hm
            · right
              exact ⟨k', e, by simp, hm, hgm, fun t h1t h2t => hall t (by omega) h2t⟩
    · simp only [hg, Bool.false_and, Bool.false_eq_true, if_false, List.not_mem_nil, false_iff]
      rintro ⟨k', hik, -, -, hgm, -⟩
      exact hg (inGrid_between hd1 hd2 hs hik hgm)

theorem mem_simpleMovesOf_iff {b : Board} {r c : Int} (hs : inGrid r c = true)
    (piece : Piece) (m : MoveOption) :
    m ∈ simpleMovesOf b r c piece ↔
      ∃ d, AllowedDirection piece d ∧ ∃ k : Nat, 1 ≤ k ∧ (piece.isKing = false → k = 1) ∧
        m = { row := r + k * d.1, col := c + k * d.2, captured := none } ∧
        inGrid (r + k * d.1) (c + k * d.2) = true ∧
        ∀ j : Nat, 1 ≤ j → j ≤ k → safeAt b (r + j * d.1) (c + j * d.2) = none := by
  have hg := inGrid_iff.1 hs
  unfold simpleMovesOf AllowedDirection
  simp only [List.mem_flatMap]
  constructor
  · rintro ⟨d, hd, hm⟩
    have hd1 := directions_fst hd
    have hd2 := directions_snd hd
    split at hm
    · simp at hm
    · rename_i hskip
      have key := (mem_simpleRay_iff b piece.isKing hd1 hd2 hs m 9 1 (by omega)
        (by intro e; rw [e]; push_cast; omega) (by intro e; rw [e]; push_cast; omega))
      simp only [Nat.cast_one, one_mul] at key
      have hk := key.1 hm
      refine ⟨d, ⟨hd, ?_⟩, hk⟩
      cases hking : piece.isKing with
      | true => left; rfl
      | false =>
        right
        simp only [hking, Bool.not_false, Bool.true_and, Bool.or_eq_true, Bool.and_eq_true,
          decide_eq_true_eq, not_or, not_and] at hskip
        cases hpl : piece.player with
        | white =>
          left
          refine ⟨rfl, ?_⟩
          have := hskip.1 hpl
          rcases hd1 with e | e <;> omega
        | black =>
          right
          refine ⟨rfl, ?_⟩
          have := hskip.2 hpl
          rcases hd1 with e | e <;> omega
  · rintro ⟨d, ⟨hd, hallow⟩, hk⟩
    have hd1 := directions_fst hd
    have hd2 := directions_snd hd
    refine ⟨d, hd, ?_⟩
    have key := (mem_simpleRay_iff b piece.isKing hd1 hd2 hs m 9 1 (by omega)
      (by intro e; rw [e]; push_cast; omega) (by intro e; rw [e]; push_cast; omega))
    simp only [Nat.cast_one, one_mul] at key
    have hnot : ¬ ((!piece.isKing && ((piece.player = Player.white && decide (d.1 > 0)) ||
        (piece.player = Player.black && decide (d.1 < 0)))) = true) := by
      rcases hallow with hking | ⟨hpl, e⟩ | ⟨hpl, e⟩
      · simp [hking]
      · simp [hpl, e]
      · simp [hpl, e]
    rw [if_neg hnot]
    exact key.2 hk

theorem simpleRay_nodup (b : Board) (isKing : Bool) {r c : Int} {d : Int × Int}
    (hd1 : d.1 = 1 ∨ d.1 = -1) (hd2 : d.2 = 1 ∨ d.2 = -1) (hs : inGrid r c = true) :
    ∀ (n i : Nat), 0 < n → (d.1 = 1 → 8 - (r + i * d.1) < n) →
      (d.1 = -1 → (r + i * d.1) + 1 < n) →
      (simpleRay b isKing d n (r + i * d.1) (c + i * d.2)).Nodup := by
  intro n
  induction n with
  | zero => intro i h; omega
  | succ k ih =>
    intro i _ h1 h2
    rw [simpleRay_succ]
    split
    · rename_i hc
      simp only [Bool.and_eq_true] at hc
      have hg' := inGrid_iff.1 hc.1
      have hk : 0 < k := by rcases hd1 with e | e <;> [have := h1 e; have := h2 e] <;> omega
      have hk1 : d.1 = 1 → 8 - (r + ((i + 1 : Nat) : Int) * d.1) < k := by
        intro e; have := h1 e; push_cast; rw [e] at this ⊢; omega
      have hk2 : d.1 = -1 → (r + ((i + 1 : Nat) : Int) * d.1) + 1 < k := by
        intro e; have := h2 e; push_cast; rw [e] at this ⊢; omega
      have e1 : r + (i : Int) * d.1 + d.1 = r + ((i + 1 : Nat) : Int) * d.1 := by
        push_cast; ring
      have e2 : c + (i : Int) * d.2 + d.2 = c + ((i + 1 : Nat) : Int) * d.2 := by
        push_cast; ring
      cases isKing with
      | false => simp
      | true =>
        simp only [Bool.not_true, Bool.false_eq_true, if_false]
        rw [e1, e2, List.nodup_cons]
        refine ⟨?_, ih (i + 1) hk hk1 hk2⟩
        rw [mem_simpleRay_iff b true hd1 hd2 hs _ k (i + 1) hk hk1 hk2]
        rintro ⟨k', hik, -, hm, -, -⟩
        simp only [MoveOption.mk.injEq, and_true] at hm
        have := hm.1
        rcases hd1 with e | e <;> rw [e] at this <;> omega
    · exact List.nodup_nil

theorem simpleMovesOf_nodup (b : Board) {r c : Int} (hs : inGrid r c = true)
    (piece : Piece) : (simpleMovesOf b r c piece).Nodup := by
  have hg := inGrid_iff.1 hs
  have hmem : ∀ d ∈ directions, ∀ m,
      m ∈ (if (!piece.isKing && ((piece.player = Player.white && decide (d.1 > 0)) ||
          (piece.player = Player.black && decide (d.1 < 0)))) = true then []
        else simpleRay b piece.isKing d 9 (r + d.1) (c + d.2)) →
      ∃ k : Nat, 1 ≤ k ∧ m.row = r + k * d.1 ∧ m.col = c + k * d.2 := by
    intro d hd m hm
    split at hm
    · simp at hm
    · have key := (mem_simpleRay_iff b piece.isKing (directions_fst hd) (directions_snd hd)
        hs m 9 1 (by omega)
        (by intro e; rw [e]; push_cast; omega) (by intro e; rw [e]; push_cast; omega))
      simp only [Nat.cast_one, one_mul] at key
      obtain ⟨k, hk, -, rfl, -, -⟩ := key.1 hm
      exact ⟨k, hk, rfl, rfl⟩
  unfold simpleMovesOf
  rw [List.nodup_flatMap]
  constructor
  · intro d hd
    split
    · exact List.nodup_nil
    · have := simpleRay_nodup b piece.isKing (directions_fst hd) (directions_snd hd) hs 9 1
        (by omega) (by intro e; rw [e]; push_cast; omega)
        (by intro e; rw [e]; push_cast; omega)
      simpa using this
  · refine List.Nodup.pairwise_of_forall_ne (by decide) ?_
    intro d hd d' hd' hne
    simp only [Function.onFun, List.disjoint_left]
    intro m hm hm'
    obtain ⟨k, hk, hr, hc⟩ := hmem d hd m hm
    obtain ⟨k', hk', hr', hc'⟩ := hmem d' hd' m hm'
    apply hne
    rw [hr'] at hr
    rw [hc'] at hc
    have a1 := directions_fst hd
    have a2 := directions_snd hd
    have b1 := directions_fst hd'
    have b2 := directions_snd hd'
    apply Prod.ext
    · rcases a1 with e | e <;> rcases b1 with e' | e' <;> rw [e, e'] at hr <;>
        first | (rw [e, e']; done) | (exfalso; omega)
    · rcases a2 with e | e <;> rcases b2 with e' | e' <;> rw [e, e'] at hc <;>
        first | (rw [e, e']; done) | (exfalso; omega)

theorem simplesOf_nodup {b : Board} (h : WellFormed b) (cur : Player) (sq : Int × Int) :
    (simplesOf b cur sq).Nodup := by
  unfold simplesOf
  cases hp : safeAt b sq.1 sq.2 with
  | none => exact List.nodup_nil
  | some piece =>
    simp only
    split
    · rw [findSimpleMoves_eq h hp cur, Option.getD_some]
      refine List.Nodup.map ?_ (simpleMovesOf_nodup b (safeAt_inGrid h hp) piece)
      intro x y hxy
      cases x; cases y
      simp only [moveOfOption, Move.mk.injEq, true_and] at hxy
      simp [hxy]
    · exact List.nodup_nil

theorem simples_nodup {b : Board} (h : WellFormed b) (cur : Player) :
    (allSquares.flatMap (simplesOf b cur)).Nodup := by
  rw [List.nodup_flatMap]
  constructor
  · intro sq _
    exact simplesOf_nodup h cur sq
  · refine List.Nodup.pairwise_of_forall_ne allSquares_nodup ?_
    intro x _ y _ hne
    simp only [Function.onFun, List.disjoint_left]
    intro m hm hm'
    have h1 := (simplesOf_not_capture h hm).2
    have h2 := (simplesOf_not_capture h hm').2
    exact hne (Prod.ext (h1.1.symm.trans h2.1) (h1.2.symm.trans h2.2))

theorem getAllPossibleMoves_of_no_piece {b : Board} {side : Player}
    (hnone : ∀ sq ∈ allSquares, isOpponentPiece (safeAt b sq.1 sq.2) side = false) :
    getAllPossibleMoves b side = some [] := by
  have hcap : ∀ sq ∈ allSquares, ∀ acc, captureStep b side acc sq = some (acc ++ []) := by
    intro sq hsq acc
    have := hnone sq hsq
    unfold captureStep
    cases hp : safeAt b sq.1 sq.2 with
    | none => simp
    | some piece =>
      rw [hp] at this
      simp only [isOpponentPiece, decide_eq_false_iff_not] at this
      simp [this]
  have hsim : ∀ sq ∈ allSquares, ∀ acc, simpleMoveStep b side acc sq = some (acc ++ []) := by
    intro sq hsq acc
    have := hnone sq hsq
    unfold simpleMoveStep
    cases hp : safeAt b sq.1 sq.2 with
    | none => simp
    | some piece =>
      rw [hp] at this
      simp only [isOpponentPiece, decide_eq_false_iff_not] at this
      simp [this]
  have e1 := foldlM_append_flatMap (captureStep b side) (fun _ => []) allSquares [] hcap
  have e2 := foldlM_append_flatMap (simpleMoveStep b side) (fun _ => []) allSquares [] hsim
  have e0 : (allSquares.flatMap fun _ => ([] : List Move)) = [] := by simp
  rw [e0] at e1 e2
  unfold getAllPossibleMoves
  rw [e1, e2]
  rfl

theorem piecesOf_eq_zero {b : Board} {side : Player} (h : piecesOf b side = 0) :
    ∀ sq ∈ allSquares, isOpponentPiece (safeAt b sq.1 sq.2) side = false := by
  intro sq hsq
  unfold piecesOf at h
  rw [List.countP_eq_zero] at h
  simpa using h sq hsq

/-- C30: on a well-formed board, for the piece standing on `(r, c)`,
`findSimpleMoves` returns a list whose entries are exactly the squares
`(r + k * dr, c + k * dc)` inside the board with `(dr, dc)` an allowed
diagonal direction (any of the four for a King, the two forward ones for a
man), `k ≥ 1` (`k = 1` for a man) and every square at distance `1 ≤ j ≤ k`
along that diagonal empty; each entry has `captured = null`. -/
theorem findSimpleMoves_exact (b : Board) (r c : Int) (piece : Piece) (cur : Player)
    (hw : WellFormed b) (hp : safeAt b r c = some piece) :
    ∃ ms, findSimpleMoves b r c cur = some ms ∧
      ∀ m, m ∈ ms ↔
        ∃ d, AllowedDirection piece d ∧ ∃ k : Nat, 1 ≤ k ∧ (piece.isKing = false → k = 1) ∧
          m = { row := r + k * d.1, col := c + k * d.2, captured := none } ∧
          inGrid (r + k * d.1) (c + k * d.2) = true ∧
          ∀ j : Nat, 1 ≤ j → j ≤ k → safeAt b (r + j * d.1) (c + j * d.2) = none :=
  ⟨simpleMovesOf b r c piece, findSimpleMoves_eq hw hp cur,
    fun m => mem_simpleMovesOf_iff (safeAt_inGrid hw hp) piece m⟩

set_option maxRecDepth 1000000 in
/-- C30, example: the white king of `rayBoard`, blocked by its own man toward
`(2, 1)` and by a black man toward `(6, 5)`. -/
theorem findSimpleMoves_exact_witness :
    WellFormed rayBoard ∧
    safeAt rayBoard 4 3 = some { player := Player.white, isKing := true } ∧
    findSimpleMoves rayBoard 4 3 Player.white =
      some [⟨3, 2, none⟩, ⟨3, 4, none⟩, ⟨2, 5, none⟩, ⟨1, 6, none⟩, ⟨0, 7, none⟩,
        ⟨5, 2, none⟩, ⟨6, 1, none⟩, ⟨7, 0, none⟩, ⟨5, 4, none⟩] ∧
    ∃ ms, findSimpleMoves rayBoard 4 3 Player.white = some ms ∧
      ∀ m, m ∈ ms ↔
        ∃ d, AllowedDirection { player := Player.white, isKing := true } d ∧
          ∃ k : Nat, 1 ≤ k ∧
            (({ player := Player.white, isKing := true } : Piece).isKing = false → k = 1) ∧
            m = { row := 4 + k * d.1, col := 3 + k * d.2, captured := none } ∧
            inGrid (4 + k * d.1) (3 + k * d.2) = true ∧
            ∀ j : Nat, 1 ≤ j → j ≤ k → safeAt rayBoard (4 + j * d.1) (3 + j * d.2) = none :=
  ⟨by decide, by decide!, by decide!,
    findSimpleMoves_exact rayBoard 4 3 { player := Player.white, isKing := true }
      Player.white (by decide) (by decide!)⟩

/-- C28 (amended): on a well-formed board `getAllPossibleMoves` returns a
list, and when the list holds simple moves (no entry passes the capture test
`m.captured && m.captured.length > 0`) no two of its entries are equal. -/
theorem getAllPossibleMoves_simple_nodup (b : Board) (side : Player)
    (hw : WellFormed b) :
    ∃ moves, getAllPossibleMoves b side = some moves ∧
      ((∀ m ∈ moves, isCapture m = false) → moves.Nodup) := by
  refine ⟨_, getAllPossibleMoves_eq hw side, ?_⟩
  intro hsimple
  split
  · rename_i hlen
    exfalso
    rw [if_pos hlen] at hsimple
    obtain ⟨m, hm⟩ := List.exists_mem_of_length_pos hlen
    have h1 := hsimple m hm
    obtain ⟨sq, -, hmsq⟩ := List.mem_flatMap.1 hm
    have h2 := (capturesOf_isCapture hw hmsq).1
    rw [h1] at h2
    cases h2
  · exact simples_nodup hw side

set_option maxRecDepth 1000000 in
/-- C28, example: black on `rayBoard`. -/
theorem getAllPossibleMoves_simple_nodup_witness :
    WellFormed rayBoard ∧
    ∃ moves, getAllPossibleMoves rayBoard Player.black = some moves ∧
      ((∀ m ∈ moves, isCapture m = false) → moves.Nodup) :=
  ⟨by decide, getAllPossibleMoves_simple_nodup rayBoard Player.black (by decide)⟩

set_option maxRecDepth 1000000 in
/-- C28 (counterexample): on `dupBoard` the list returned for white holds the
entry `(0, 1) → (5, 6)` capturing `(1, 2)` and `(4, 5)` twice, and likewise the
entry ending on `(6, 7)`. -/
theorem getAllPossibleMoves_repeats_on_dupBoard :
    WellFormed dupBoard ∧ getAllPossibleMoves dupBoard Player.white = some dupMoves ∧
      dupMoves[0]? = dupMoves[2]? ∧ ¬ dupMoves.Nodup :=
  ⟨by decide, by decide!, by decide, by decide⟩

/-- C21: on a well-formed board on which `side` owns no piece,
`getAllPossibleMoves` returns the empty list for `side` and the best-move
driver answers `{ move: null }`, whatever the random source returns. -/
theorem getAllPossibleMoves_no_pieces (b : Board) (side : Player) (random : ℚ)
    (hw : WellFormed b) (hzero : piecesOf b side = 0) :
    (∀ r c p, safeAt b r c = some p → p.player ≠ side) ∧
    getAllPossibleMoves b side = some [] ∧ apiGetAIMove b side random = some none := by
  have hm := getAllPossibleMoves_of_no_piece (piecesOf_eq_zero hzero)
  refine ⟨?_, hm, ?_⟩
  · intro r c p hp hside
    have := piecesOf_eq_zero hzero (r, c) (mem_allSquares.2 (safeAt_inGrid hw hp))
    simp [hp, isOpponentPiece, hside] at this
  · simp [apiGetAIMove, hm]

set_option maxRecDepth 1000000 in
/-- C21, example: black on `promoBoard2`, which holds a single white king. -/
theorem getAllPossibleMoves_no_pieces_witness :
    WellFormed promoBoard2 ∧ piecesOf promoBoard2 Player.black = 0 ∧
    piecesOf promoBoard2 Player.white = 1 ∧
    (∀ r c p, safeAt promoBoard2 r c = some p → p.player ≠ Player.black) ∧
    getAllPossibleMoves promoBoard2 Player.black = some [] ∧
    apiGetAIMove promoBoard2 Player.black (1 / 2) = some none :=
  ⟨by decide, by decide, by decide,
    getAllPossibleMoves_no_pieces promoBoard2 Player.black (1 / 2) (by decide) (by decide)⟩

/-- C22 (amended): the handler of `/api/getAIMove` has no validation step: on
every board, well-formed or not, on which the guarded reads of
`getAllPossibleMoves` find no piece of the side to move, it answers
`{ move: null }`, the result for "no legal moves". -/
theorem apiGetAIMove_no_validation (b : Board) (side : Player) (random : ℚ)
    (hnone : ∀ sq ∈ allSquares, isOpponentPiece (safeAt b sq.1 sq.2) side = false) :
    getAllPossibleMoves b side = some [] ∧ apiGetAIMove b side random = some none := by
  have hm := getAllPossibleMoves_of_no_piece hnone
  exact ⟨hm, by simp [apiGetAIMove, hm]⟩

set_option maxRecDepth 1000000 in
/-- C22, example: a grid of two rows, the first without any element, with
black to move. -/
theorem apiGetAIMove_no_validation_witness :
    ¬ WellFormed [[], [wM]] ∧
    (∀ sq ∈ allSquares, isOpponentPiece (safeAt [[], [wM]] sq.1 sq.2) Player.black = false) ∧
    getAllPossibleMoves [[], [wM]] Player.black = some [] ∧
    apiGetAIMove [[], [wM]] Player.black (1 / 2) = some none :=
  ⟨by decide, by decide,
    apiGetAIMove_no_validation [[], [wM]] Player.black (1 / 2) (by decide)⟩

/-- C22 (counterexample): the empty array is not a well-formed board, and the
handler of `/api/getAIMove` answers it with `{ move: null }`, the same value
as for a side without legal moves. -/
theorem apiGetAIMove_empty_array :
    ¬ WellFormed ([] : Board) ∧
    getAllPossibleMoves ([] : Board) Player.white = some [] ∧
    apiGetAIMove ([] : Board) Player.white (1 / 2) = some none ∧
    apiGetAIMove emptyBoard Player.white (1 / 2) = some none := by
  have hnone : ∀ sq ∈ allSquares,
      isOpponentPiece (safeAt ([] : Board) sq.1 sq.2) Player.white = false := by decide
  have hnone2 : ∀ sq ∈ allSquares,
      isOpponentPiece (safeAt emptyBoard sq.1 sq.2) Player.white = false := by decide
  have hm := getAllPossibleMoves_of_no_piece hnone
  have hm2 := getAllPossibleMoves_of_no_piece hnone2
  exact ⟨by decide, hm, by simp [apiGetAIMove, hm], by simp [apiGetAIMove, hm2]⟩

/-! ## The nodes of the search -/

theorem opponentOf_opponentOf (p : Player) : opponentOf (opponentOf p) = p := by
  cases p <;> rfl

theorem setCell_some_wf {b b' : Board} {r c : Int} {v : Cell}
    (hs : setCell b r c v = some b') (h : WellFormed b) : WellFormed b' := by
  unfold setCell at hs
  cases hr : rowAt b r with
  | none => simp [hr] at hs
  | some row =>
    simp only [hr] at hs
    split at hs
    · cases hs
      have hrow : row ∈ b := by
        unfold rowAt at hr
        split at hr
        · exact List.getElem?_mem hr
        · cases hr
      refine ⟨by simpa using h.1, ?_⟩
      intro x hx
      rcases List.mem_or_eq_of_mem_set hx with hx | rfl
      · exact h.2 x hx
      · simpa using h.2 row hrow
    · cases hs

theorem clearCaptured_some_wf :
    ∀ (caps : List Pos) {b b' : Board}, clearCaptured b caps = some b' →
      WellFormed b → WellFormed b' := by
  intro caps
  induction caps with
  | nil =>
    intro b b' hs h
    simp only [clearCaptured, List.foldlM_nil, Option.pure_def, Option.some.injEq] at hs
    exact hs ▸ h
  | cons cap rest ih =>
    intro b b' hs h
    simp only [clearCaptured, List.foldlM_cons, Option.bind_eq_bind] at hs
    cases h1 : setCell b cap.row cap.col none with
    | none => simp [h1] at hs
    | some b1 =>
      rw [h1, Option.some_bind] at hs
      exact ih hs (setCell_some_wf h1 h)

theorem simulateMove_some_wf {b nb : Board} {sr sc er ec : Int} {caps : Option (List Pos)}
    (hs : simulateMove b sr sc er ec caps = some nb) (h : WellFormed b) : WellFormed nb := by
  have hpromo : ∀ (b3 : Board) (p : Piece), WellFormed b3 →
      (if p.player = Player.white ∧ er = 0 then
        (cellAt b3 er ec).bind fun x => Option.bind x fun q =>
          setCell b3 er ec (some { q with isKing := true })
      else if p.player = Player.black ∧ er = 7 then
        (cellAt b3 er ec).bind fun x => Option.bind x fun q =>
          setCell b3 er ec (some { q with isKing := true })
      else some b3) = some nb → WellFormed nb := by
    intro b3 p w3 hrest
    split at hrest
    · simp only [Option.bind_eq_some] at hrest
      obtain ⟨x, -, q, -, hset⟩ := hrest
      exact setCell_some_wf hset w3
    · split at hrest
      · simp only [Option.bind_eq_some] at hrest
        obtain ⟨x, -, q, -, hset⟩ := hrest
        exact setCell_some_wf hset w3
      · simp only [Option.some.injEq] at hrest
        exact hrest ▸ w3
  unfold simulateMove at hs
  cases caps with
  | none =>
    simp only [Option.bind_eq_bind, Option.bind_eq_some, Option.some.injEq] at hs
    obtain ⟨piece, -, b1, h1, b2, h2, b3, h3, p, -, hrest⟩ := hs
    subst h3
    exact hpromo _ p (setCell_some_wf h2 (setCell_some_wf h1 h)) hrest
  | some l =>
    simp only [Option.bind_eq_bind, Option.bind_eq_some] at hs
    obtain ⟨piece, -, b1, h1, b2, h2, b3, h3, p, -, hrest⟩ := hs
    exact hpromo _ p
      (clearCaptured_some_wf l h3 (setCell_some_wf h2 (setCell_some_wf h1 h))) hrest

theorem SearchNode.wf {P : Player} {root : Board} {depth d : Nat} {b : Board} {flag : Bool}
    {cur : Player} (h : SearchNode P root depth d b flag cur) (hw : WellFormed root) :
    WellFormed b := by
  induction h with
  | root => exact hw
  | child _ _ _ _ hs ih => exact simulateMove_some_wf hs ih

theorem SearchNode.flag_iff {P : Player} {root : Board} {depth d : Nat} {b : Board}
    {flag : Bool} {cur : Player} (h : SearchNode P root depth d b flag cur) :
    (flag = true ↔ cur = P) := by
  induction h with
  | root =>
    simp only [Bool.false_eq_true, false_iff]
    exact opponentOf_ne P
  | @child d b sb flag cur moves m _ _ _ _ _ ih =>
    cases flag with
    | true =>
      simp only [Bool.not_true, Bool.false_eq_true, false_iff]
      rw [ih.1 rfl]
      exact opponentOf_ne P
    | false =>
      simp only [Bool.not_false, true_iff]
      have hne : cur ≠ P := fun e => by simpa using ih.2 e
      cases cur <;> cases P <;> first | rfl | exact absurd rfl hne

theorem minimax_terminal (d : Nat) (b : Board) (α β : JSNum) (flag : Bool) (cur : Player)
    (ht : d = 0 ∨ isGameOver b cur = some true) :
    minimax d b α β flag cur =
      (evaluateBoard b (if flag then cur else opponentOf cur)).map JSNum.ofRat := by
  cases d with
  | zero => rfl
  | succ n =>
    rcases ht with e | e
    · cases e
    · rw [minimax]
      simp [e]

/-! ## The value returned by the search -/

theorem maxLoop_ge_init (child : Board → JSNum → JSNum → Option JSNum) (b : Board) :
    ∀ (moves : List Move) (α β M r : JSNum),
      maxLoop child b moves α β M = some r → M ≤ r := by
  intro moves
  induction moves with
  | nil =>
    intro α β M r h
    simp only [maxLoop, Option.some.injEq] at h
    exact h ▸ le_rfl
  | cons m rest ih =>
    intro α β M r h
    simp only [maxLoop, Option.bind_eq_bind, Option.bind_eq_some] at h
    obtain ⟨sb, -, e, -, h⟩ := h
    split at h
    · simp only [Option.some.injEq] at h
      exact h ▸ le_max_left _ _
    · exact le_trans (le_max_left _ _) (ih _ _ _ _ h)

theorem maxLoop_mem (child : Board → JSNum → JSNum → Option JSNum) (b : Board) :
    ∀ (moves : List Move) (α β M r : JSNum),
      maxLoop child b moves α β M = some r →
      r = M ∨ ∃ m ∈ moves, ∃ sb a be,
        simulateMove b m.startRow m.startCol m.row m.col m.captured = some sb ∧
        child sb a be = some r := by
  intro moves
  induction moves with
  | nil =>
    intro α β M r h
    simp only [maxLoop, Option.some.injEq] at h
    exact Or.inl h.symm
  | cons m rest ih =>
    intro α β M r h
    simp only [maxLoop, Option.bind_eq_bind, Option.bind_eq_some] at h
    obtain ⟨sb, hsb, e, he, h⟩ := h
    have hchoice : max M e = M ∨ max M e = e := max_choice M e
    have hfirst : max M e = M ∨ ∃ m' ∈ m :: rest, ∃ sb a be,
        simulateMove b m'.startRow m'.startCol m'.row m'.col m'.captured = some sb ∧
        child sb a be = some (max M e) := by
      rcases hchoice with hc | hc
      · exact Or.inl hc
      · exact Or.inr ⟨m, List.mem_cons_self _ _, sb, α, β, hsb, by rw [hc]; exact he⟩
    split at h
    · simp only [Option.some.injEq] at h
      rw [← h]; exact hfirst
    · rcases ih _ _ _ _ h with hr | ⟨m', hm', sb', a, be, hs', hc'⟩
      · rw [hr]; exact hfirst
      · exact Or.inr ⟨m', List.mem_cons_of_mem _ hm', sb', a, be, hs', hc'⟩

theorem maxLoop_first (child : Board → JSNum → JSNum → Option JSNum) (b : Board)
    {m : Move} {rest : List Move} {α β M r : JSNum}
    (h : maxLoop child b (m :: rest) α β M = some r) :
    ∃ sb e, simulateMove b m.startRow m.startCol m.row m.col m.captured = some sb ∧
      child sb α β = some e ∧ e ≤ r := by
  simp only [maxLoop, Option.bind_eq_bind, Option.bind_eq_some] at h
  obtain ⟨sb, hsb, e, he, h⟩ := h
  refine ⟨sb, e, hsb, he, ?_⟩
  split at h
  · simp only [Option.some.injEq] at h
    exact h ▸ le_max_right _ _
  · exact le_trans (le_max_right _ _) (maxLoop_ge_init child b _ _ _ _ _ h)

theorem minLoop_le_init (child : Board → JSNum → JSNum → Option JSNum) (b : Board) :
    ∀ (moves : List Move) (α β M r : JSNum),
      minLoop child b moves α β M = some r → r ≤ M := by
  intro moves
  induction moves with
  | nil =>
    intro α β M r h
    simp only [minLoop, Option.some.injEq] at h
    exact h ▸ le_rfl
  | cons m rest ih =>
    intro α β M r h
    simp only [minLoop, Option.bind_eq_bind, Option.bind_eq_some] at h
    obtain ⟨sb, -, e, -, h⟩ := h
    split at h
    · simp only [Option.some.injEq] at h
      exact h ▸ min_le_left _ _
    · exact le_trans (ih _ _ _ _ h) (min_le_left _ _)

theorem minLoop_mem (child : Board → JSNum → JSNum → Option JSNum) (b : Board) :
    ∀ (moves : List Move) (α β M r : JSNum),
      minLoop child b moves α β M = some r →
      r = M ∨ ∃ m ∈ moves, ∃ sb a be,
        simulateMove b m.startRow m.startCol m.row m.col m.captured = some sb ∧
        child sb a be = some r := by
  intro moves
  induction moves with
  | nil =>
    intro α β M r h
    simp only [minLoop, Option.some.injEq] at h
    exact Or.inl h.symm
  | cons m rest ih =>
    intro α β M r h
    simp only [minLoop, Option.bind_eq_bind, Option.bind_eq_some] at h
    obtain ⟨sb, hsb, e, he, h⟩ := h
    have hchoice : min M e = M ∨ min M e = e := min_choice M e
    have hfirst : min M e = M ∨ ∃ m' ∈ m :: rest, ∃ sb a be,
        simulateMove b m'.startRow m'.startCol m'.row m'.col m'.captured = some sb ∧
        child sb a be = some (min M e) := by
      rcases hchoice with hc | hc
      · exact Or.inl hc
      · exact Or.inr ⟨m, List.mem_cons_self _ _, sb, α, β, hsb, by rw [hc]; exact he⟩
    split at h
    · simp only [Option.some.injEq] at h
      rw [← h]; exact hfirst
    · rcases ih _ _ _ _ h with hr | ⟨m', hm', sb', a, be, hs', hc'⟩
      · rw [hr]; exact hfirst
      · exact Or.inr ⟨m', List.mem_cons_of_mem _ hm', sb', a, be, hs', hc'⟩

theorem minLoop_first (child : Board → JSNum → JSNum → Option JSNum) (b : Board)
    {m : Move} {rest : List Move} {α β M r : JSNum}
    (h : minLoop child b (m :: rest) α β M = some r) :
    ∃ sb e, simulateMove b m.startRow m.startCol m.row m.col m.captured = some sb ∧
      child sb α β = some e ∧ r ≤ e := by
  simp only [minLoop, Option.bind_eq_bind, Option.bind_eq_some] at h
  obtain ⟨sb, hsb, e, he, h⟩ := h
  refine ⟨sb, e, hsb, he, ?_⟩
  split at h
  · simp only [Option.some.injEq] at h
    exact h ▸ min_le_right _ _
  · exact le_trans (minLoop_le_init child b _ _ _ _ _ h) (min_le_right _ _)

theorem ofRat_ne_bot (q : ℚ) : JSNum.ofRat q ≠ ⊥ := by
  unfold JSNum.ofRat
  exact WithBot.coe_ne_bot

theorem ofRat_ne_top (q : ℚ) : JSNum.ofRat q ≠ ⊤ := by
  unfold JSNum.ofRat
  intro h
  have : ((q : WithTop ℚ) : WithBot (WithTop ℚ)) = ((⊤ : WithTop ℚ) : WithBot (WithTop ℚ)) := h
  rw [WithBot.coe_inj] at this
  exact WithTop.coe_ne_top this

theorem minimax_value :
    ∀ (d : Nat) (b : Board) (α β : JSNum) (flag : Bool) (side : Player) (r : JSNum),
      minimax d b α β flag side = some r →
      ∃ (k : Nat) (fb : Board) (q : ℚ), k ≤ d ∧ Reachable k b side fb ∧
        evaluateBoard fb (if flag then side else opponentOf side) = some q ∧
        r = JSNum.ofRat q := by
  intro d
  induction d with
  | zero =>
    intro b α β flag side r h
    rw [minimax_terminal 0 b α β flag side (Or.inl rfl)] at h
    obtain ⟨q, hq, rfl⟩ := Option.map_eq_some'.1 h
    exact ⟨0, b, q, le_rfl, Reachable.here, hq, rfl⟩
  | succ n ih =>
    intro b α β flag side r h
    cases hg : isGameOver b side with
    | none => rw [minimax] at h; simp [hg] at h
    | some g =>
      cases g with
      | true =>
        rw [minimax_terminal (n + 1) b α β flag side (Or.inr hg)] at h
        obtain ⟨q, hq, rfl⟩ := Option.map_eq_some'.1 h
        exact ⟨0, b, q, Nat.zero_le _, Reachable.here, hq, rfl⟩
      | false =>
        have hg' := hg
        unfold isGameOver at hg'
        cases hm : getAllPossibleMoves b side with
        | none => simp [hm] at hg'
        | some moves =>
          simp only [hm, Option.bind_eq_bind, Option.some_bind, Option.some.injEq,
            decide_eq_false_iff_not] at hg'
          rw [minimax] at h
          simp only [hg, hm, Option.bind_eq_bind, Option.some_bind, Bool.false_eq_true,
            if_false] at h
          obtain ⟨m0, rest, rfl⟩ : ∃ m0 rest, moves = m0 :: rest := by
            cases moves with
            | nil => simp at hg'
            | cons m0 rest => exact ⟨m0, rest, rfl⟩
          have hstep : ∀ m ∈ m0 :: rest, ∀ sb a be,
              simulateMove b m.startRow m.startCol m.row m.col m.captured = some sb →
              minimax n sb a be (!flag) (opponentOf side) = some r →
              ∃ (k : Nat) (fb : Board) (q : ℚ), k ≤ n + 1 ∧ Reachable k b side fb ∧
                evaluateBoard fb (if flag then side else opponentOf side) = some q ∧
                r = JSNum.ofRat q := by
            intro m hmem sb a be hs hc
            obtain ⟨k, fb, q, hk, hreach, hq, hr⟩ := ih sb a be (!flag) (opponentOf side) r hc
            refine ⟨k + 1, fb, q, by omega, Reachable.move hm hmem hs hreach, ?_, hr⟩
            cases flag with
            | true => simpa [opponentOf_opponentOf] using hq
            | false => simpa using hq
          cases flag with
          | true =>
            simp only [if_true] at h
            obtain ⟨sb, e, hs, he, hle⟩ := maxLoop_first _ b h
            obtain ⟨_, _, q, -, -, -, hq⟩ := ih sb α β false (opponentOf side) e he
            have hne : r ≠ ⊥ := by
              intro hbot
              rw [hbot, hq] at hle
              exact ofRat_ne_bot q (le_bot_iff.1 hle)
            rcases maxLoop_mem _ b _ _ _ _ _ h with hr | ⟨m, hmem, sb', a, be, hs', hc'⟩
            · exact absurd hr hne
            · exact hstep m hmem sb' a be hs' hc'
          | false =>
            simp only [Bool.false_eq_true, if_false] at h
            obtain ⟨sb, e, hs, he, hle⟩ := minLoop_first _ b h
            obtain ⟨_, _, q, -, -, -, hq⟩ := ih sb α β true (opponentOf side) e he
            have hne : r ≠ ⊤ := by
              intro htop
              rw [htop, hq] at hle
              exact ofRat_ne_top q (top_le_iff.1 hle)
            rcases minLoop_mem _ b _ _ _ _ _ h with hr | ⟨m, hmem, sb', a, be, hs', hc'⟩
            · exact absurd hr hne
            · exact hstep m hmem sb' a be hs' hc'

/-! ## Termination of `findJumpPaths` -/

theorem countP_flip {α : Type} (p q : α → Bool) (x : α) (hp : p x = true)
    (hq : q x = false) :
    ∀ l : List α, l.Nodup → x ∈ l → (∀ y ∈ l, y ≠ x → q y = p y) →
      l.countP q + 1 = l.countP p := by
  have hout : ∀ l : List α, x ∉ l → (∀ y ∈ l, y ≠ x → q y = p y) →
      l.countP q = l.countP p := by
    intro l hx hyp
    apply List.countP_congr
    intro y hy
    have hne : y ≠ x := fun e => hx (e ▸ hy)
    rw [hyp y hy hne]
  intro l
  induction l with
  | nil => intro _ hx; cases hx
  | cons a t ih =>
    intro hnd hx hyp
    rw [List.nodup_cons] at hnd
    by_cases hax : a = x
    · subst hax
      rw [List.countP_cons_of_pos _ _ hp, List.countP_cons_of_neg _ _ (by simp [hq]),
        hout t hnd.1 fun y hy => hyp y (List.mem_cons_of_mem _ hy)]
    · have hxt : x ∈ t := by
        rcases List.mem_cons.1 hx with e | e
        · exact absurd e.symm hax
        · exact e
      have := ih hnd.2 hxt fun y hy => hyp y (List.mem_cons_of_mem _ hy)
      have ha := hyp a (List.mem_cons_self _ _) hax
      simp only [List.countP_cons, ha]
      omega

theorem piecesOf_singleJump {b : Board} (h : WellFormed b) {sr sc : Int}
    {piece : Piece} (hp : safeAt b sr sc = some piece) {j : Jump}
    (hj : j ∈ singleJumps b sr sc piece) :
    ∃ nb, simulateMove b sr sc j.row j.col (some [j.over]) = some nb ∧ WellFormed nb ∧
      safeAt nb j.row j.col = some (crown piece j.row) ∧
      piecesOf nb (opponentOf piece.player) + 1 = piecesOf b (opponentOf piece.player) := by
  obtain ⟨nb, hs, hw, hat, -⟩ := simulateMove_singleJump h hp hj
  obtain ⟨hg, hland, hover⟩ := singleJumps_mem hj
  refine ⟨nb, hs, hw, by simp [hat], ?_⟩
  obtain ⟨q, hq⟩ : ∃ q, safeAt b j.over.row j.over.col = some q := by
    cases hc : safeAt b j.over.row j.over.col with
    | none => simp [hc, isOpponentPiece] at hover
    | some q => exact ⟨q, rfl⟩
  have hne : ¬ (j.over.row = j.row ∧ j.over.col = j.col) := by
    rintro ⟨e1, e2⟩
    rw [e1, e2, hland] at hq
    cases hq
  unfold piecesOf
  refine countP_flip _ _ (j.over.row, j.over.col) hover ?_ allSquares allSquares_nodup
    (mem_allSquares.2 (safeAt_inGrid h hq)) ?_
  · simp [hat, hne, isOpponentPiece]
  · intro y _ hy
    have hy' : ¬ (y.1 = j.over.row ∧ y.2 = j.over.col) := fun e => hy (Prod.ext e.1 e.2)
    simp only [hat]
    by_cases h1 : y.1 = j.row ∧ y.2 = j.col
    · simp only [h1, and_self, if_true, hland, isOpponentPiece, crown_player,
        decide_eq_false_iff_not]
      exact (opponentOf_ne piece.player).symm
    · by_cases h2 : y.1 = sr ∧ y.2 = sc
      · have hpl : ¬ piece.player = opponentOf piece.player :=
          (opponentOf_ne piece.player).symm
        rw [if_neg h1, if_pos (Or.inl h2), h2.1, h2.2, hp]
        simp [isOpponentPiece, hpl]
      · simp only [h1, if_false, h2, hy', or_self]

theorem pushJumps_mono (r1 r2 : Board → Int → Int → List Pos → Option (List JumpPath))
    (b : Board) (sr sc : Int) (cp : List Pos) :
    ∀ (js : List Jump) (st st' : ScanState),
      (∀ j ∈ js, ∀ res, jumpResults r1 b sr sc cp j = some res →
        jumpResults r2 b sr sc cp j = some res) →
      pushJumps r1 b sr sc cp st js = some st' →
      pushJumps r2 b sr sc cp st js = some st' := by
  intro js
  induction js with
  | nil => intro st st' _ h; exact h
  | cons j t ih =>
    intro st st' hres h
    rw [pushJumps_cons, pushCapture_eq] at h ⊢
    cases hr : jumpResults r1 b sr sc cp j with
    | none => simp [hr] at h
    | some res =>
      rw [hr] at h
      rw [hres j (List.mem_cons_self _ _) res hr]
      simp only [Option.map_some', Option.some_bind] at h ⊢
      exact ih _ _ (fun j' hj' => hres j' (List.mem_cons_of_mem _ hj')) h

theorem findJumpPathsAux_mono (cur : Player) :
    ∀ (fuel : Nat) (b : Board) (r c : Int) (cp : List Pos) (piece : Piece)
      (paths : List JumpPath),
      WellFormed b → safeAt b r c = some piece →
      findJumpPathsAux fuel b r c cur cp = some paths →
      findJumpPathsAux (fuel + 1) b r c cur cp = some paths := by
  intro fuel
  induction fuel with
  | zero =>
    intro b r c cp piece paths _ _ h
    simp [findJumpPathsAux] at h
  | succ k ih =>
    intro b r c cp piece paths hw hp h
    rw [findJumpPathsAux_succ hw hp] at h ⊢
    cases hst : pushJumps (fun nb r c p => findJumpPathsAux k nb r c cur p) b r c cp
        ([], false) (singleJumps b r c piece) with
    | none => simp [hst] at h
    | some st =>
      rw [hst] at h
      rw [pushJumps_mono _ (fun nb r c p => findJumpPathsAux (k + 1) nb r c cur p) b r c cp
        (singleJumps b r c piece) ([], false) st ?_ hst]
      · exact h
      · intro j hj res hres
        obtain ⟨nb, hs, hwn, hat, -⟩ := piecesOf_singleJump hw hp hj
        unfold jumpResults at hres ⊢
        simp only [hs, Option.bind_eq_bind, Option.some_bind] at hres ⊢
        cases hc : findJumpPathsAux k nb j.row j.col cur (cp ++ [j.over]) with
        | none => simp [hc] at hres
        | some cont =>
          rw [ih nb j.row j.col (cp ++ [j.over]) (crown piece j.row) cont hwn hat hc]
          rw [hc] at hres
          exact hres

theorem findJumpPathsAux_mono_le (cur : Player) {b : Board} {r c : Int} {cp : List Pos}
    {piece : Piece} {paths : List JumpPath} (hw : WellFormed b)
    (hp : safeAt b r c = some piece) {fuel : Nat}
    (h : findJumpPathsAux fuel b r c cur cp = some paths) :
    ∀ fuel', fuel ≤ fuel' → findJumpPathsAux fuel' b r c cur cp = some paths := by
  intro fuel' hle
  induction fuel' with
  | zero =>
    have : fuel = 0 := by omega
    subst this
    exact h
  | succ n ih =>
    rcases Nat.eq_or_lt_of_le hle with e | e
    · subst e; exact h
    · exact findJumpPathsAux_mono cur n b r c cp piece paths hw hp (ih (by omega))

theorem findJumpPathsAux_total (cur : Player) :
    ∀ (fuel : Nat) (b : Board) (r c : Int) (cp : List Pos) (piece : Piece),
      WellFormed b → safeAt b r c = some piece →
      piecesOf b (opponentOf piece.player) < fuel →
      ∃ paths, findJumpPathsAux fuel b r c cur cp = some paths := by
  intro fuel
  induction fuel with
  | zero => intro b r c cp piece _ _ h; omega
  | succ k ih =>
    intro b r c cp piece hw hp hlt
    rw [findJumpPathsAux_succ hw hp]
    obtain ⟨st, hst, -⟩ := pushJumps_spec
      (fun nb r c p => findJumpPathsAux k nb r c cur p) b r c cp
      (singleJumps b r c piece) ([], false) (by
        intro j hj
        obtain ⟨nb, hs, hwn, hat, hcount⟩ := piecesOf_singleJump hw hp hj
        have hlt' : piecesOf nb (opponentOf (crown piece j.row).player) < k := by
          rw [crown_player]; omega
        obtain ⟨cont, hc⟩ := ih nb j.row j.col (cp ++ [j.over]) (crown piece j.row) hwn hat
          hlt'
        unfold jumpResults
        simp only [hs, hc, Option.bind_eq_bind, Option.some_bind]
        split
        · exact ⟨_, rfl⟩
        · exact ⟨_, rfl⟩)
    rw [hst]
    simp only [Option.some_bind]
    split
    · exact ⟨_, rfl⟩
    · exact ⟨_, rfl⟩

theorem findJumpPathsAux_eq_findJumpPaths (cur : Player) {b : Board} {r c : Int}
    {piece : Piece} (hw : WellFormed b) (hp : safeAt b r c = some piece) (cp : List Pos)
    {fuel : Nat} (hlt : piecesOf b (opponentOf piece.player) < fuel) :
    ∃ paths, findJumpPaths b r c cur cp = some paths ∧
      findJumpPathsAux fuel b r c cur cp = some paths := by
  obtain ⟨p1, h1⟩ := findJumpPathsAux_total cur fuel b r c cp piece hw hp hlt
  obtain ⟨p2, h2, -⟩ := findJumpPathsAux_spec cur (pieceCount b + 1) b r c cp piece hw hp
    (by omega)
  rcases Nat.le_total fuel (pieceCount b + 1) with hle | hle
  · have := findJumpPathsAux_mono_le cur hw hp h1 _ hle
    exact ⟨p1, this, h1⟩
  · have := findJumpPathsAux_mono_le cur hw hp h2 _ hle
    exact ⟨p2, h2, this⟩

/-- C26: on a well-formed board `findJumpPaths` returns for the piece on
`(r, c)`.  Every jump it follows leads to a recursive call on a snapshot that
is well formed, holds the moved piece on the landing square and has exactly
one piece of the opponent fewer than the board of the caller; a recursion
bound above the number of opposing pieces is never exhausted, and the result
does not depend on the bound. -/
theorem findJumpPaths_terminates (b : Board) (r c : Int) (piece : Piece) (cur : Player)
    (cp : List Pos) (hw : WellFormed b) (hp : safeAt b r c = some piece) :
    (∃ paths, findJumpPaths b r c cur cp = some paths ∧
      ∀ fuel, piecesOf b (opponentOf piece.player) < fuel →
        findJumpPathsAux fuel b r c cur cp = some paths) ∧
    ∀ j, JumpAvailable b r c j →
      ∃ nb, simulateMove b r c j.row j.col (some [j.over]) = some nb ∧ WellFormed nb ∧
        safeAt nb j.row j.col = some (crown piece j.row) ∧
        (crown piece j.row).player = piece.player ∧
        piecesOf nb (opponentOf piece.player) < piecesOf b (opponentOf piece.player) := by
  constructor
  · obtain ⟨paths, h1, -⟩ := findJumpPathsAux_eq_findJumpPaths cur hw hp cp
      (Nat.lt_succ_self _)
    refine ⟨paths, h1, ?_⟩
    intro fuel hlt
    obtain ⟨p', h1', h2'⟩ := findJumpPathsAux_eq_findJumpPaths cur hw hp cp hlt
    rw [h1] at h1'
    cases h1'
    exact h2'
  · intro j hj
    have hmem : j ∈ singleJumps b r c piece := by
      rw [← jumpsAt_of_piece hp]
      exact (mem_jumpsAt_iff hw).2 hj
    obtain ⟨nb, hs, hwn, hat, hcount⟩ := piecesOf_singleJump hw hp hmem
    exact ⟨nb, hs, hwn, hat, crown_player _ _, by omega⟩

set_option maxRecDepth 1000000 in
/-- C26, example: the white king of `ringBoard` and its four opposing men. -/
theorem findJumpPaths_terminates_witness :
    WellFormed ringBoard ∧
    safeAt ringBoard 0 3 = some { player := Player.white, isKing := true } ∧
    piecesOf ringBoard Player.black = 4 ∧
    (∃ paths, findJumpPaths ringBoard 0 3 Player.white [] = some paths ∧
      ∀ fuel, piecesOf ringBoard
          (opponentOf ({ player := Player.white, isKing := true } : Piece).player) < fuel →
        findJumpPathsAux fuel ringBoard 0 3 Player.white [] = some paths) ∧
    ∀ j, JumpAvailable ringBoard 0 3 j →
      ∃ nb, simulateMove ringBoard 0 3 j.row j.col (some [j.over]) = some nb ∧
        WellFormed nb ∧
        safeAt nb j.row j.col = some (crown { player := Player.white, isKing := true } j.row) ∧
        (crown { player := Player.white, isKing := true } j.row).player =
          ({ player := Player.white, isKing := true } : Piece).player ∧
        piecesOf nb (opponentOf ({ player := Player.white, isKing := true } : Piece).player) <
          piecesOf ringBoard
            (opponentOf ({ player := Player.white, isKing := true } : Piece).player) :=
  ⟨by decide, by decide!, by decide,
    findJumpPaths_terminates ringBoard 0 3 { player := Player.white, isKing := true }
      Player.white [] (by decide) (by decide!)⟩

/-! ## The search returns whenever the unpruned search does -/

theorem maxLoop_returns (child : Board → JSNum → JSNum → Option JSNum)
    (childAll : Board → Option JSNum)
    (hchild : ∀ sb v, childAll sb = some v → ∀ α β, ∃ r, child sb α β = some r)
    (b : Board) :
    ∀ (moves : List Move) (V Vf : JSNum), maxLoopAll childAll b moves V = some Vf →
      ∀ α β M, ∃ r, maxLoop child b moves α β M = some r := by
  intro moves
  induction moves with
  | nil => intro V Vf _ α β M; exact ⟨M, rfl⟩
  | cons m t ih =>
    intro V Vf h α β M
    simp only [maxLoopAll, Option.bind_eq_bind, Option.bind_eq_some] at h
    obtain ⟨sb, hs, v, hv, h⟩ := h
    obtain ⟨r, hr⟩ := hchild sb v hv α β
    simp only [maxLoop, hs, hr, Option.bind_eq_bind, Option.some_bind]
    split
    · exact ⟨_, rfl⟩
    · exact ih _ _ h _ _ _

theorem minLoop_returns (child : Board → JSNum → JSNum → Option JSNum)
    (childAll : Board → Option JSNum)
    (hchild : ∀ sb v, childAll sb = some v → ∀ α β, ∃ r, child sb α β = some r)
    (b : Board) :
    ∀ (moves : List Move) (V Vf : JSNum), minLoopAll childAll b moves V = some Vf →
      ∀ α β M, ∃ r, minLoop child b moves α β M = some r := by
  intro moves
  induction moves with
  | nil => intro V Vf _ α β M; exact ⟨M, rfl⟩
  | cons m t ih =>
    intro V Vf h α β M
    simp only [minLoopAll, Option.bind_eq_bind, Option.bind_eq_some] at h
    obtain ⟨sb, hs, v, hv, h⟩ := h
    obtain ⟨r, hr⟩ := hchild sb v hv α β
    simp only [minLoop, hs, hr, Option.bind_eq_bind, Option.some_bind]
    split
    · exact ⟨_, rfl⟩
    · exact ih _ _ h _ _ _

/-- Whenever the search without pruning returns a value (no simulated move of
the tree throws), `minimax` returns a value for every window. -/
theorem minimax_returns :
    ∀ (depth : Nat) (b : Board) (mx : Bool) (p : Player) (v : JSNum),
      minimaxUnpruned depth b mx p = some v →
      ∀ α β, ∃ r, minimax depth b α β mx p = some r := by
  intro depth
  induction depth with
  | zero =>
    intro b mx p v h α β
    simp only [minimaxUnpruned] at h
    exact ⟨v, by simp only [minimax]; exact h⟩
  | succ d ih =>
    intro b mx p v h α β
    simp only [minimaxUnpruned, Option.bind_eq_bind] at h
    simp only [minimax, Option.bind_eq_bind]
    cases hg : isGameOver b p with
    | none => simp [hg] at h
    | some over =>
      simp only [hg, Option.some_bind] at h ⊢
      cases over with
      | true =>
        simp only [if_true] at h ⊢
        exact ⟨v, h⟩
      | false =>
        simp only [Bool.false_eq_true, if_false] at h ⊢
        cases hm : getAllPossibleMoves b p with
        | none => simp [hm] at h
        | some moves =>
          simp only [hm, Option.some_bind] at h ⊢
          cases mx with
          | true =>
            simp only [if_true] at h ⊢
            exact maxLoop_returns _ _ (fun sb v hv α β => ih sb false _ v hv α β)
              b moves ⊥ v h α β ⊥
          | false =>
            simp only [Bool.false_eq_true, if_false] at h ⊢
            exact minLoop_returns _ _ (fun sb v hv α β => ih sb true _ v hv α β)
              b moves ⊤ v h α β ⊤

/-- C25: in the search that the best-move driver starts for the side `P` on
a well-formed board `root`, every call `minimax(b, d, _, _, flag, cur)` has a
well-formed board and `flag` true exactly when `cur` is `P`; a terminal call
(no depth left, or no legal move for `cur`) returns the score
`evaluateBoard(b, P)`, whatever the window. -/
theorem minimax_flag_perspective (P : Player) (root : Board) (depth d : Nat) (b : Board)
    (flag : Bool) (cur : Player) (hw : WellFormed root)
    (hn : SearchNode P root depth d b flag cur) :
    WellFormed b ∧ (flag = true ↔ cur = P) ∧
    ((d = 0 ∨ isGameOver b cur = some true) →
      ∃ q, evaluateBoard b P = some q ∧
        ∀ α β, minimax d b α β flag cur = some (JSNum.ofRat q)) := by
  have hwb := hn.wf hw
  have hflag := hn.flag_iff
  refine ⟨hwb, hflag, ?_⟩
  intro ht
  refine ⟨boardScore b P, evaluateBoard_eq hwb P, ?_⟩
  intro α β
  have hside : (if flag = true then cur else opponentOf cur) = P := by
    cases flag with
    | true => simpa using hflag.1 rfl
    | false =>
      have hne : cur ≠ P := fun e => by simpa using hflag.2 e
      simp only [Bool.false_eq_true, if_false]
      cases cur <;> cases P <;> first | rfl | exact absurd rfl hne
  rw [minimax_terminal d b α β flag cur ht, hside, evaluateBoard_eq hwb P]
  rfl

set_option maxRecDepth 1000000 in
/-- C25, example: the search started for white on `promoBoard1`; after the
reply of the black man to `(4, 1)` the node has no depth left, white is to move
and the flag is true. -/
theorem minimax_flag_perspective_witness :
    WellFormed promoBoard1 ∧
    SearchNode Player.white promoBoard1 1 0 replyBoard true Player.white ∧
    evaluateBoard replyBoard Player.white = some (43 / 2) ∧
    (WellFormed replyBoard ∧ (true = true ↔ Player.white = Player.white) ∧
      (((0 : Nat) = 0 ∨ isGameOver replyBoard Player.white = some true) →
        ∃ q, evaluateBoard replyBoard Player.white = some q ∧
          ∀ α β, minimax 0 replyBoard α β true Player.white = some (JSNum.ofRat q))) :=
  have hnode : SearchNode Player.white promoBoard1 1 0 replyBoard true Player.white :=
    @SearchNode.child Player.white promoBoard1 1 0 promoBoard1 replyBoard false
      Player.black [⟨3, 2, 4, 1, none⟩, ⟨3, 2, 4, 3, none⟩] ⟨3, 2, 4, 1, none⟩
      SearchNode.root (by decide!) (by decide!) (by decide) (by decide!)
  ⟨by decide, hnode, by decide!,
    minimax_flag_perspective Player.white promoBoard1 1 0 replyBoard true Player.white
      (by decide) hnode⟩

/-- C27: a value returned by `minimax` on the board `b` with `depth` levels
is the score `evaluateBoard` gives to a board reached from `b` by at most
`depth` successive legal moves, seen from the side the search maximises for;
it is a finite number, never the initial `-Infinity` or `Infinity` of the
sibling loops. -/
theorem minimax_returns_leaf_score (depth : Nat) (b : Board) (α β : JSNum) (flag : Bool)
    (side : Player) (r : JSNum) (h : minimax depth b α β flag side = some r) :
    r ≠ ⊥ ∧ r ≠ ⊤ ∧
    ∃ (k : Nat) (fb : Board) (q : ℚ), k ≤ depth ∧ Reachable k b side fb ∧
      evaluateBoard fb (if flag then side else opponentOf side) = some q ∧
      r = JSNum.ofRat q := by
  obtain ⟨k, fb, q, hk, hreach, hq, hr⟩ := minimax_value depth b α β flag side r h
  exact ⟨hr ▸ ofRat_ne_bot q, hr ▸ ofRat_ne_top q, k, fb, q, hk, hreach, hq, hr⟩

set_option maxRecDepth 1000000 in
/-- C27, example: the search of depth 1 on `promoBoard1` with black to move. -/
theorem minimax_returns_leaf_score_witness :
    minimax 1 promoBoard1 ⊥ ⊤ false Player.black = some (JSNum.ofRat (43 / 2)) ∧
    (JSNum.ofRat (43 / 2) ≠ ⊥ ∧ JSNum.ofRat (43 / 2) ≠ ⊤ ∧
      ∃ (k : Nat) (fb : Board) (q : ℚ), k ≤ 1 ∧ Reachable k promoBoard1 Player.black fb ∧
        evaluateBoard fb (if false = true then Player.black else opponentOf Player.black) =
          some q ∧
        JSNum.ofRat (43 / 2) = JSNum.ofRat q) :=
  have h : minimax 1 promoBoard1 ⊥ ⊤ false Player.black = some (JSNum.ofRat (43 / 2)) := by
    decide!
  ⟨h, minimax_returns_leaf_score 1 promoBoard1 ⊥ ⊤ false Player.black _ h⟩

set_option maxRecDepth 1000000 in
/-- C24, failing input: on `promoBoard` the chain `(2, 3) → (4, 1)` capturing
`(1, 4)` and `(3, 2)` is returned by `getAllPossibleMoves`; jump by jump it
leads to the snapshot `promoBoard2` with a white king on `(4, 1)`, while one
call of `simulateMove` with the start square, the final square and the whole
captured list builds `promoBoardOneCall`, with a white man on `(4, 1)`. -/
theorem simulateMove_chain_ne_snapshot :
    WellFormed promoBoard ∧
    (∃ moves, getAllPossibleMoves promoBoard Player.white = some moves ∧
      { startRow := 2, startCol := 3, row := 4, col := 1,
        captured := some [⟨1, 4⟩, ⟨3, 2⟩] } ∈ moves) ∧
    JumpChain promoBoard 2 3 [⟨1, 4⟩, ⟨3, 2⟩] 4 1 promoBoard2 ∧
    simulateMove promoBoard 2 3 4 1 (some [⟨1, 4⟩, ⟨3, 2⟩]) = some promoBoardOneCall ∧
    promoBoardOneCall ≠ promoBoard2 := by
  have hw : WellFormed promoBoard := by decide
  have hw1 : WellFormed promoBoard1 := by decide
  have j1 : (⟨⟨1, 4⟩, 0, 5⟩ : Jump) ∈ jumpsAt promoBoard 2 3 := by decide!
  have j2 : (⟨⟨3, 2⟩, 4, 1⟩ : Jump) ∈ jumpsAt promoBoard1 0 5 := by decide!
  have s1 : simulateMove promoBoard 2 3 0 5 (some [⟨1, 4⟩]) = some promoBoard1 := by decide!
  have s2 : simulateMove promoBoard1 0 5 4 1 (some [⟨3, 2⟩]) = some promoBoard2 := by decide!
  refine ⟨hw, exists_mem_of_decide (by decide!), ?_, by decide!, by decide⟩
  exact JumpChain.cons (j := ⟨⟨1, 4⟩, 0, 5⟩) ((mem_jumpsAt_iff hw).1 j1) s1
    (JumpChain.one (j := ⟨⟨3, 2⟩, 4, 1⟩) ((mem_jumpsAt_iff hw1).1 j2) s2)

/-! ## The King moves of the client -/

theorem codeAt_wf {g : List (List Nat)} (h : ClientWellFormed g) {r c : Int}
    (hg : inGrid r c = true) : ∃ code, codeAt g r c = some (some code) ∧ code ≤ 4 := by
  have hg' := inGrid_iff.1 hg
  have hlt : r.toNat < g.length := by rw [h.1]; omega
  have hrow := h.2 _ (List.getElem_mem hlt)
  have hlc : c.toNat < (g[r.toNat]).length := by rw [hrow.1]; omega
  refine ⟨(g[r.toNat])[c.toNat], ?_, hrow.2 _ (List.getElem_mem hlc)⟩
  simp [codeAt, hg'.1.1, hg'.2.1, List.getElem?_eq_getElem hlt, List.getElem?_eq_getElem hlc]

theorem clientKingScan_succ (g : List (List Nat)) (myColor : Player) (dRow dCol : Int)
    (n : Nat) (r c : Int) (cap : Option Pos) (found : Bool) (moves : List ClientMove) :
    clientKingScan g myColor dRow dCol (n + 1) r c cap found moves =
      if inGrid r c then
        (codeAt g r c).bind fun nextSquare =>
          if nextSquare = some 0 then
            if found then
              clientKingScan g myColor dRow dCol n (r + dRow) (c + dCol) cap found
                (moves ++ [{ row := r, col := c, captured := cap }])
            else
              clientKingScan g myColor dRow dCol n (r + dRow) (c + dCol) cap found
                (moves ++ [{ row := r, col := c, captured := none }])
          else if codeColor nextSquare = myColor then some moves
          else if found then some moves
          else
            clientKingScan g myColor dRow dCol n (r + dRow) (c + dCol)
              (some { row := r, col := c }) true moves
      else some moves := rfl

theorem clientKingRay_succ (g : List (List Nat)) (myColor : Player) (dRow dCol : Int)
    (n : Nat) (r c : Int) (cap : Option Pos) (found : Bool) :
    clientKingRay g myColor dRow dCol (n + 1) r c cap found =
      if inGrid r c then
        match codeAt g r c with
        | none => []
        | some nextSquare =>
          if nextSquare = some 0 then
            { row := r, col := c, captured := if found then cap else none } ::
              clientKingRay g myColor dRow dCol n (r + dRow) (c + dCol) cap found
          else if codeColor nextSquare = myColor then []
          else if found then []
          else clientKingRay g myColor dRow dCol n (r + dRow) (c + dCol)
            (some { row := r, col := c }) true
      else [] := rfl

theorem clientKingScan_eq_ray {g : List (List Nat)} (h : ClientWellFormed g)
    (myColor : Player) (dRow dCol : Int) (hd : dRow = 1 ∨ dRow = -1) :
    ∀ (n : Nat) (r c : Int) (cap : Option Pos) (found : Bool) (moves : List ClientMove),
      0 < n → (dRow = 1 → 8 - r < n) → (dRow = -1 → r + 1 < n) →
      clientKingScan g myColor dRow dCol n r c cap found moves =
        some (moves ++ clientKingRay g myColor dRow dCol n r c cap found) := by
  intro n
  induction n with
  | zero => intro r c cap found moves h0; omega
  | succ k ih =>
    intro r c cap found moves _ h1 h2
    rw [clientKingScan_succ, clientKingRay_succ]
    by_cases hg : inGrid r c = true
    · have hg' := inGrid_iff.1 hg
      have hk : 0 < k := by rcases hd with e | e <;> [have := h1 e; have := h2 e] <;> omega
      have n1 : dRow = 1 → 8 - (r + dRow) < k := by intro e; have := h1 e; omega
      have n2 : dRow = -1 → (r + dRow) + 1 < k := by intro e; have := h2 e; omega
      obtain ⟨code, hcode, -⟩ := codeAt_wf h hg
      simp only [hg, if_true, hcode, Option.some_bind]
      by_cases h0 : (some code : Option Nat) = some 0
      · simp only [h0, if_true]
        cases found with
        | true => simp only [if_true]; rw [ih _ _ _ _ _ hk n1 n2]; simp
        | false =>
          simp only [Bool.false_eq_true, if_false]; rw [ih _ _ _ _ _ hk n1 n2]; simp
      · simp only [h0, if_false]
        by_cases hc : codeColor (some code) = myColor
        · simp [hc]
        · simp only [hc, if_false]
          cases found with
          | true => simp
          | false => simp only [Bool.false_eq_true, if_false]; exact ih _ _ _ _ _ hk n1 n2
    · simp [hg]

theorem mem_clientKingRay_found (g : List (List Nat)) (myColor : Player) {r c : Int}
    {dRow dCol : Int} (hd1 : dRow = 1 ∨ dRow = -1) (hd2 : dCol = 1 ∨ dCol = -1)
    (hs : inGrid r c = true) (over : Pos) (m : ClientMove) :
    ∀ (n i : Nat), 0 < n → (dRow = 1 → 8 - (r + i * dRow) < n) →
      (dRow = -1 → (r + i * dRow) + 1 < n) →
      (m ∈ clientKingRay g myColor dRow dCol n (r + i * dRow) (c + i * dCol) (some over) true ↔
        ∃ k : Nat, i ≤ k ∧
          m = { row := r + k * dRow, col := c + k * dCol, captured := some over } ∧
          inGrid (r + k * dRow) (c + k * dCol) = true ∧
          ∀ t : Nat, i ≤ t → t ≤ k → ClientEmpty g (r + t * dRow) (c + t * dCol)) := by
  intro n
  induction n with
  | zero => intro i h; omega
  | succ k ih =>
    intro i _ h1 h2
    rw [clientKingRay_succ]
    by_cases hg : inGrid (r + i * dRow) (c + i * dCol) = true
    · have hg' := inGrid_iff.1 hg
      have hk : 0 < k := by rcases hd1 with e | e <;> [have := h1 e; have := h2 e] <;> omega
      have hnext := ih (i + 1) hk
        (by intro e; have := h1 e; push_cast; rw [e] at this ⊢; omega)
        (by intro e; have := h2 e; push_cast; rw [e] at this ⊢; omega)
      have e1 : r + (i : Int) * dRow + dRow = r + ((i + 1 : Nat) : Int) * dRow := by
        push_cast; ring
      have e2 : c + (i : Int) * dCol + dCol = c + ((i + 1 : Nat) : Int) * dCol := by
        push_cast; ring
      have hblocked : ∀ x : Option (Option Nat), codeAt g (r + i * dRow) (c + i * dCol) = x →
          x ≠ some (some 0) →
          ¬ ∃ k' : Nat, i ≤ k' ∧
            m = { row := r + k' * dRow, col := c + k' * dCol, captured := some over } ∧
            inGrid (r + k' * dRow) (c + k' * dCol) = true ∧
            ∀ t : Nat, i ≤ t → t ≤ k' → ClientEmpty g (r + t * dRow) (c + t * dCol) := by
        rintro x hx hne ⟨k', hik, -, -, hall⟩
        have := hall i le_rfl hik
        unfold ClientEmpty at this
        rw [hx] at this
        exact hne this
      simp only [hg, if_true]
      cases hsq : codeAt g (r + i * dRow) (c + i * dCol) with
      | none =>
        simp only [List.not_mem_nil, false_iff]
        exact hblocked _ hsq (by simp)
      | some sq =>
        simp only
        by_cases h0 : sq = some 0
        · subst h0
          simp only [if_true, List.mem_cons]
          rw [e1, e2, hnext]
          constructor
          · rintro (rfl | ⟨k', hik, hm, hgm, hall⟩)
            · refine ⟨i, le_rfl, rfl, hg, ?_⟩
              intro t h1t h2t
              have : t = i := le_antisymm h2t h1t
              rw [this]; exact hsq
            · refine ⟨k', by omega, hm, hgm, ?_⟩
              intro t h1t h2t
              rcases Nat.eq_or_lt_of_le h1t with e | e
              · rw [← e]; exact hsq
              · exact hall t e h2t
          · rintro ⟨k', hik, hm, hgm, hall⟩
            rcases Nat.eq_or_lt_of_le hik with e | e
            · left
              subst e
              exact hm
            · right
              exact ⟨k', e, hm, hgm, fun t h1t h2t => hall t (by omega) h2t⟩
        · have hne : (some sq : Option (Option Nat)) ≠ some (some 0) := by
            simpa using h0
          simp only [h0, if_false]
          split
          · simp only [List.not_mem_nil, false_iff]
            exact hblocked _ hsq hne
          · simp only [if_true, List.not_mem_nil, false_iff]
            exact hblocked _ hsq hne
    · simp only [hg, Bool.false_eq_true, if_false, List.not_mem_nil, false_iff]
      rintro ⟨k', hik, -, hgm, -⟩
      exact hg (inGrid_between (d := (dRow, dCol)) hd1 hd2 hs hik hgm)

theorem mem_clientKingRay_free (g : List (List Nat)) (myColor : Player) {r c : Int}
    {dRow dCol : Int} (hd1 : dRow = 1 ∨ dRow = -1) (hd2 : dCol = 1 ∨ dCol = -1)
    (hs : inGrid r c = true) (m : ClientMove) :
    ∀ (n i : Nat), 0 < n → (dRow = 1 → 8 - (r + i * dRow) < n) →
      (dRow = -1 → (r + i * dRow) + 1 < n) →
      (m ∈ clientKingRay g myColor dRow dCol n (r + i * dRow) (c + i * dCol) none false ↔
        (∃ k : Nat, i ≤ k ∧
          m = { row := r + k * dRow, col := c + k * dCol, captured := none } ∧
          inGrid (r + k * dRow) (c + k * dCol) = true ∧
          ∀ t : Nat, i ≤ t → t ≤ k → ClientEmpty g (r + t * dRow) (c + t * dCol)) ∨
        (∃ j k : Nat, i ≤ j ∧ j < k ∧
          m = { row := r + k * dRow, col := c + k * dCol,
                captured := some { row := r + j * dRow, col := c + j * dCol } } ∧
          inGrid (r + k * dRow) (c + k * dCol) = true ∧
          (∀ t : Nat, i ≤ t → t < j → ClientEmpty g (r + t * dRow) (c + t * dCol)) ∧
          (∃ sq, codeAt g (r + j * dRow) (c + j * dCol) = some sq ∧ sq ≠ some 0 ∧
            codeColor sq ≠ myColor) ∧
          ∀ t : Nat, j < t → t ≤ k → ClientEmpty g (r + t * dRow) (c + t * dCol))) := by
  intro n
  induction n with
  | zero => intro i h; omega
  | succ k ih =>
    intro i _ h1 h2
    rw [clientKingRay_succ]
    by_cases hg : inGrid (r + i * dRow) (c + i * dCol) = true
    · have hg' := inGrid_iff.1 hg
      have hk : 0 < k := by rcases hd1 with e | e <;> [have := h1 e; have := h2 e] <;> omega
      have f1 : dRow = 1 → 8 - (r + ((i + 1 : Nat) : Int) * dRow) < k := by
        intro e; have := h1 e; push_cast; rw [e] at this ⊢; omega
      have f2 : dRow = -1 → (r + ((i + 1 : Nat) : Int) * dRow) + 1 < k := by
        intro e; have := h2 e; push_cast; rw [e] at this ⊢; omega
      have e1 : r + (i : Int) * dRow + dRow = r + ((i + 1 : Nat) : Int) * dRow := by
        push_cast; ring
      have e2 : c + (i : Int) * dCol + dCol = c + ((i + 1 : Nat) : Int) * dCol := by
        push_cast; ring
      simp only [hg, if_true]
      cases hsq : codeAt g (r + i * dRow) (c + i * dCol) with
      | none =>
        simp only [List.not_mem_nil, false_iff]
        rintro (⟨k', hik, -, -, hall⟩ | ⟨j, k', hij, hjk, -, -, hbefore, ⟨sq, hsq', -, -⟩, -⟩)
        · have := hall i le_rfl hik
          unfold ClientEmpty at this
          rw [hsq] at this
          cases this
        · rcases Nat.eq_or_lt_of_le hij with e | e
          · subst e
            rw [hsq] at hsq'
            cases hsq'
          · have := hbefore i le_rfl e
            unfold ClientEmpty at this
            rw [hsq] at this
            cases this
      | some sq =>
        simp only
        by_cases h0 : sq = some 0
        · subst h0
          simp only [if_true, Bool.false_eq_true, if_false, List.mem_cons]
          rw [e1, e2, ih (i + 1) hk f1 f2]
          constructor
          · rintro (rfl | ⟨k', hik, hm, hgm, hall⟩ |
              ⟨j, k', hij, hjk, hm, hgm, hbefore, hopp, hafter⟩)
            · left
              refine ⟨i, le_rfl, rfl, hg, ?_⟩
              intro t h1t h2t
              have : t = i := le_antisymm h2t h1t
              rw [this]; exact hsq
            · left
              refine ⟨k', by omega, hm, hgm, ?_⟩
              intro t h1t h2t
              rcases Nat.eq_or_lt_of_le h1t with e | e
              · rw [← e]; exact hsq
              · exact hall t e h2t
            · right
              refine ⟨j, k', by omega, hjk, hm, hgm, ?_, hopp, hafter⟩
              intro t h1t h2t
              rcases Nat.eq_or_lt_of_le h1t with e | e
              · rw [← e]; exact hsq
              · exact hbefore t e h2t
          · rintro (⟨k', hik, hm, hgm, hall⟩ |
              ⟨j, k', hij, hjk, hm, hgm, hbefore, hopp, hafter⟩)
            · rcases Nat.eq_or_lt_of_le hik with e | e
              · left
                subst e
                exact hm
              · right; left
                exact ⟨k', e, hm, hgm, fun t h1t h2t => hall t (by omega) h2t⟩
            · right; right
              have hne : j ≠ i := by
                rintro rfl
                obtain ⟨sq, hsq', hn0, -⟩ := hopp
                rw [hsq] at hsq'
                cases hsq'
                exact hn0 rfl
              exact ⟨j, k', by omega, hjk, hm, hgm,
                fun t h1t h2t => hbefore t (by omega) h2t, hopp, hafter⟩
        · have hne : (some sq : Option (Option Nat)) ≠ some (some 0) := by
            simpa using h0
          have hnosimple : ¬ ∃ k' : Nat, i ≤ k' ∧
              m = { row := r + k' * dRow, col := c + k' * dCol, captured := none } ∧
              inGrid (r + k' * dRow) (c + k' * dCol) = true ∧
              ∀ t : Nat, i ≤ t → t ≤ k' → ClientEmpty g (r + t * dRow) (c + t * dCol) := by
            rintro ⟨k', hik, -, -, hall⟩
            have := hall i le_rfl hik
            unfold ClientEmpty at this
            rw [hsq] at this
            exact hne this
          have hfirst : ∀ {j : Nat}, i ≤ j →
              (∀ t : Nat, i ≤ t → t < j → ClientEmpty g (r + t * dRow) (c + t * dCol)) →
              j = i := by
            intro j hij hbefore
            rcases Nat.eq_or_lt_of_le hij with e | e
            · exact e.symm
            · have := hbefore i le_rfl e
              unfold ClientEmpty at this
              rw [hsq] at this
              exact absurd this hne
          simp only [h0, if_false]
          by_cases hc : codeColor sq = myColor
          · simp only [hc, if_true, List.not_mem_nil, false_iff]
            rintro (hsim | ⟨j, k', hij, hjk, -, -, hbefore, ⟨sq', hsq', -, hcol⟩, -⟩)
            · exact hnosimple hsim
            · have hji := hfirst hij hbefore
              subst hji
              rw [hsq] at hsq'
              cases hsq'
              exact hcol hc
          · simp only [hc, if_false, Bool.false_eq_true]
            rw [e1, e2, mem_clientKingRay_found g myColor hd1 hd2 hs _ m k (i + 1) hk f1 f2]
            constructor
            · rintro ⟨k', hik, hm, hgm, hall⟩
              right
              exact ⟨i, k', le_rfl, by omega, hm, hgm, fun t h1t h2t => by omega,
                ⟨sq, hsq, h0, hc⟩, fun t h1t h2t => hall t (by omega) h2t⟩
            · rintro (hsim | ⟨j, k', hij, hjk, hm, hgm, hbefore, -, hafter⟩)
              · exact absurd hsim hnosimple
              · have hji := hfirst hij hbefore
                subst hji
                exact ⟨k', by omega, hm, hgm, fun t h1t h2t => hafter t (by omega) h2t⟩
    · simp only [hg, Bool.false_eq_true, if_false, List.not_mem_nil, false_iff]
      rintro (⟨k', hik, -, hgm, -⟩ | ⟨j, k', hij, hjk, -, hgm, -⟩)
      · exact hg (inGrid_between (d := (dRow, dCol)) hd1 hd2 hs hik hgm)
      · exact hg (inGrid_between (d := (dRow, dCol)) hd1 hd2 hs (by omega) hgm)

theorem codeAt_some_inGrid {g : List (List Nat)} (h : ClientWellFormed g) {r c : Int}
    {code : Nat} (hc : codeAt g r c = some (some code)) : inGrid r c = true := by
  unfold codeAt at hc
  split at hc
  · rename_i h0
    cases hrow : g[r.toNat]? with
    | none => simp [hrow] at hc
    | some row =>
      simp only [hrow, Option.map_some', Option.some.injEq] at hc
      obtain ⟨hlt, hget⟩ := List.getElem?_eq_some.1 hrow
      have hlen : row.length = 8 := (h.2 row (hget ▸ List.getElem_mem hlt)).1
      split at hc
      · rename_i hc0
        have := (List.getElem?_eq_some.1 hc).1
        rw [inGrid_iff]
        rw [h.1] at hlt
        omega
      · cases hc
  · cases hc

theorem getPossibleMoves_king_eq {g : List (List Nat)} (h : ClientWellFormed g)
    {row col : Int} {code : Nat} (hcode : codeAt g row col = some (some code))
    (hk : 2 < code) :
    getPossibleMoves row col g =
      some (directions.flatMap fun d =>
        clientKingRay g (codeColor (some code)) d.1 d.2 9 (row + d.1) (col + d.2)
          none false) := by
  have hg := inGrid_iff.1 (codeAt_some_inGrid h hcode)
  have scan : ∀ (dRow dCol : Int) (moves : List ClientMove), (dRow = 1 ∨ dRow = -1) →
      clientKingScan g (codeColor (some code)) dRow dCol 9 (row + dRow) (col + dCol) none
        false moves =
      some (moves ++ clientKingRay g (codeColor (some code)) dRow dCol 9 (row + dRow)
        (col + dCol) none false) := by
    intro dRow dCol moves hd
    apply clientKingScan_eq_ray h _ dRow dCol hd 9
    · omega
    · intro e; rw [e]; omega
    · intro e; rw [e]; omega
  unfold getPossibleMoves
  have hking : decide (code > 2) = true := by simpa using hk
  simp only [hcode, Option.bind_eq_bind, Option.some_bind, hking, if_true, Bool.not_true,
    Bool.false_eq_true, if_false, List.foldlM_cons, List.foldlM_nil]
  have hcolor : (if isWhiteCode (some code) = true then Player.white else Player.black) =
      codeColor (some code) := rfl
  rw [hcolor]
  rw [scan (-1) (-1) [] (Or.inr rfl)]
  simp only [Option.some_bind, Option.pure_def, List.nil_append]
  rw [scan (-1) 1 _ (Or.inr rfl)]
  simp only [Option.some_bind]
  rw [scan 1 (-1) _ (Or.inl rfl)]
  simp only [Option.some_bind]
  rw [scan 1 1 _ (Or.inl rfl)]
  simp [directions, List.flatMap]

/-- C29: on a well-formed grid of the client, for a King standing on
`(row, col)`, the client's `getPossibleMoves` returns a list whose entries are
exactly, along each of the four diagonals: as simple moves (no `captured`) the
empty squares before the first occupied square; and, when the first occupied
square holds an opposing piece, as captures tagged with the position of that
piece, the consecutive empty squares directly beyond it up to the next piece
or the edge.  (So nothing lies beyond an own piece, and there is no capture
when the square directly behind the first opposing piece is occupied.) -/
theorem getPossibleMoves_king (g : List (List Nat)) (row col : Int) (code : Nat)
    (hw : ClientWellFormed g) (hcode : codeAt g row col = some (some code))
    (hking : code = 3 ∨ code = 4) :
    ∃ ms, getPossibleMoves row col g = some ms ∧
      ∀ m, m ∈ ms ↔ ∃ d ∈ directions,
        (∃ k : Nat, 1 ≤ k ∧
          m = { row := row + k * d.1, col := col + k * d.2, captured := none } ∧
          inGrid (row + k * d.1) (col + k * d.2) = true ∧
          ∀ t : Nat, 1 ≤ t → t ≤ k → ClientEmpty g (row + t * d.1) (col + t * d.2)) ∨
        (∃ j k : Nat, 1 ≤ j ∧ j < k ∧
          m = { row := row + k * d.1, col := col + k * d.2,
                captured := some { row := row + j * d.1, col := col + j * d.2 } } ∧
          inGrid (row + k * d.1) (col + k * d.2) = true ∧
          (∀ t : Nat, 1 ≤ t → t < j → ClientEmpty g (row + t * d.1) (col + t * d.2)) ∧
          ClientOpposing g (codeColor (some code)) (row + j * d.1) (col + j * d.2) ∧
          ∀ t : Nat, j < t → t ≤ k → ClientEmpty g (row + t * d.1) (col + t * d.2)) := by
  have hs := codeAt_some_inGrid hw hcode
  have hg := inGrid_iff.1 hs
  refine ⟨_, getPossibleMoves_king_eq hw hcode (by omega), ?_⟩
  intro m
  simp only [List.mem_flatMap]
  have key : ∀ d ∈ directions,
      (m ∈ clientKingRay g (codeColor (some code)) d.1 d.2 9 (row + d.1) (col + d.2)
          none false ↔
        (∃ k : Nat, 1 ≤ k ∧
          m = { row := row + k * d.1, col := col + k * d.2, captured := none } ∧
          inGrid (row + k * d.1) (col + k * d.2) = true ∧
          ∀ t : Nat, 1 ≤ t → t ≤ k → ClientEmpty g (row + t * d.1) (col + t * d.2)) ∨
        (∃ j k : Nat, 1 ≤ j ∧ j < k ∧
          m = { row := row + k * d.1, col := col + k * d.2,
                captured := some { row := row + j * d.1, col := col + j * d.2 } } ∧
          inGrid (row + k * d.1) (col + k * d.2) = true ∧
          (∀ t : Nat, 1 ≤ t → t < j → ClientEmpty g (row + t * d.1) (col + t * d.2)) ∧
          ClientOpposing g (codeColor (some code)) (row + j * d.1) (col + j * d.2) ∧
          ∀ t : Nat, j < t → t ≤ k → ClientEmpty g (row + t * d.1) (col + t * d.2))) := by
    intro d hd
    have hd1 := directions_fst hd
    have hd2 := directions_snd hd
    have base := mem_clientKingRay_free g (codeColor (some code)) hd1 hd2 hs m 9 1
      (by omega) (by intro e; rw [e]; push_cast; omega)
      (by intro e; rw [e]; push_cast; omega)
    simp only [Nat.cast_one, one_mul] at base
    rw [base]
    apply or_congr Iff.rfl
    constructor
    · rintro ⟨j, k, hj, hjk, hm, hgk, hbefore, ⟨sq, hsq, hn0, hcol⟩, hafter⟩
      refine ⟨j, k, hj, hjk, hm, hgk, hbefore, ?_, hafter⟩
      have hgj := inGrid_between hd1 hd2 hs (Nat.le_of_lt hjk) hgk
      obtain ⟨n, hn, -⟩ := codeAt_wf hw hgj
      rw [hn] at hsq
      cases hsq
      exact ⟨n, hn, fun e => hn0 (by rw [e]), hcol⟩
    · rintro ⟨j, k, hj, hjk, hm, hgk, hbefore, ⟨n, hn, hn0, hcol⟩, hafter⟩
      exact ⟨j, k, hj, hjk, hm, hgk, hbefore, ⟨some n, hn, by simpa using hn0, hcol⟩, hafter⟩
  constructor
  · rintro ⟨d, hd, hm⟩
    exact ⟨d, hd, (key d hd).1 hm⟩
  · rintro ⟨d, hd, hm⟩
    exact ⟨d, hd, (key d hd).2 hm⟩

set_option maxRecDepth 1000000 in
/-- C29, example: the white king of `clientBoard`. -/
theorem getPossibleMoves_king_witness :
    ClientWellFormed clientBoard ∧ codeAt clientBoard 4 3 = some (some 3) ∧
    getPossibleMoves 4 3 clientBoard =
      some [⟨3, 2, none⟩, ⟨3, 4, none⟩, ⟨5, 2, none⟩, ⟨6, 1, none⟩, ⟨7, 0, none⟩,
        ⟨5, 4, none⟩, ⟨7, 6, some ⟨6, 5⟩⟩] ∧
    ∃ ms, getPossibleMoves 4 3 clientBoard = some ms ∧
      ∀ m, m ∈ ms ↔ ∃ d ∈ directions,
        (∃ k : Nat, 1 ≤ k ∧
          m = { row := 4 + k * d.1, col := 3 + k * d.2, captured := none } ∧
          inGrid (4 + k * d.1) (3 + k * d.2) = true ∧
          ∀ t : Nat, 1 ≤ t → t ≤ k → ClientEmpty clientBoard (4 + t * d.1) (3 + t * d.2)) ∨
        (∃ j k : Nat, 1 ≤ j ∧ j < k ∧
          m = { row := 4 + k * d.1, col := 3 + k * d.2,
                captured := some { row := 4 + j * d.1, col := 3 + j * d.2 } } ∧
          inGrid (4 + k * d.1) (3 + k * d.2) = true ∧
          (∀ t : Nat, 1 ≤ t → t < j →
            ClientEmpty clientBoard (4 + t * d.1) (3 + t * d.2)) ∧
          ClientOpposing clientBoard (codeColor (some 3)) (4 + j * d.1) (3 + j * d.2) ∧
          ∀ t : Nat, j < t → t ≤ k →
            ClientEmpty clientBoard (4 + t * d.1) (3 + t * d.2)) :=
  ⟨by decide, by decide, by decide,
    getPossibleMoves_king clientBoard 4 3 3 (by decide) (by decide) (Or.inl rfl)⟩

/-! ## `simulateMove` on the store: allocation of the copy -/

theorem Store.allocCells_spec :
    ∀ (row : List Cell) (s : Store),
      (s.allocCells row).1.rows = s.rows ∧ (s.allocCells row).1.boards = s.boards ∧
      s.next ≤ (s.allocCells row).1.next ∧
      (∀ a, a < s.next → (s.allocCells row).1.pieces a = s.pieces a) ∧
      (s.allocCells row).2.map (s.allocCells row).1.readCell = row ∧
      (∀ a, some a ∈ (s.allocCells row).2 → s.next ≤ a ∧ a < (s.allocCells row).1.next) ∧
      ∀ a, (s.allocCells row).2.count (some a) ≤ 1 := by
  intro row
  induction row with
  | nil =>
    intro s
    simp [Store.allocCells]
  | cons cell rest ih =>
    intro s
    cases cell with
    | none =>
      obtain ⟨h1, h2, h3, h4, h5, h6, h7⟩ := ih s
      simp only [Store.allocCells]
      refine ⟨h1, h2, h3, h4, ?_, ?_, ?_⟩
      · simp only [List.map_cons, h5]
        rfl
      · intro a ha
        simp only [List.mem_cons, reduceCtorEq, false_or] at ha
        exact h6 a ha
      · intro a
        rw [List.count_cons_of_ne (by simp)]
        exact h7 a
    | some p =>
      simp only [Store.allocCells]
      obtain ⟨h1, h2, h3, h4, h5, h6, h7⟩ := ih (s.pushPiece p)
      have hn : (s.pushPiece p).next = s.next + 1 := rfl
      have hp : ∀ a, (s.pushPiece p).pieces a = if a = s.next then some p else s.pieces a :=
        fun _ => rfl
      rw [hn] at h3 h4 h6
      refine ⟨h1, h2, by omega, ?_, ?_, ?_, ?_⟩
      · intro a ha
        rw [h4 a (by omega), hp]
        simp [Nat.ne_of_lt ha]
      · simp only [List.map_cons, h5]
        congr 1
        simp only [Store.readCell, Option.some_bind]
        rw [h4 s.next (by omega), hp]
        simp
      · intro a ha
        rcases List.mem_cons.1 ha with e | e
        · simp only [Option.some.injEq] at e
          subst e
          exact ⟨le_rfl, by omega⟩
        · have := h6 a e
          omega
      · intro a
        by_cases e : a = s.next
        · subst e
          have : (some s.next : Option Nat) ∉ ((s.pushPiece p).allocCells rest).2 := by
            intro hmem
            have := (h6 _ hmem).1
            omega
          rw [List.count_cons_self, List.count_eq_zero.2 this]
        · rw [List.count_cons_of_ne (by simpa using e)]
          exact h7 a

theorem occurrences_cons (row : List (Option Nat)) (rb : List (List (Option Nat)))
    (x : Option Nat) : occurrences (row :: rb) x = row.count x + occurrences rb x := by
  simp [occurrences]

theorem occurrences_eq_zero {rb : List (List (Option Nat))} {x : Option Nat}
    (h : ∀ row ∈ rb, x ∉ row) : occurrences rb x = 0 := by
  induction rb with
  | nil => rfl
  | cons row t ih =>
    rw [occurrences_cons, List.count_eq_zero.2 (h row (List.mem_cons_self _ _)),
      ih fun r hr => h r (List.mem_cons_of_mem _ hr)]

theorem occurrences_pos {rb : List (List (Option Nat))} {x : Option Nat}
    (h : 0 < occurrences rb x) : ∃ row ∈ rb, x ∈ row := by
  by_contra hne
  simp only [not_exists, not_and] at hne
  rw [occurrences_eq_zero hne] at h
  exact absurd h (lt_irrefl 0)

theorem Store.allocRows_spec :
    ∀ (v : Board) (s : Store),
      (s.allocRows v).1.boards = s.boards ∧
      s.next ≤ (s.allocRows v).1.next ∧
      (∀ a, a < s.next → (s.allocRows v).1.pieces a = s.pieces a ∧
        (s.allocRows v).1.rows a = s.rows a) ∧
      (s.allocRows v).2.map (fun rr =>
        (((s.allocRows v).1.rows rr).getD []).map (s.allocRows v).1.readCell) = v ∧
      (∀ rr ∈ (s.allocRows v).2, s.next ≤ rr ∧ rr < (s.allocRows v).1.next ∧
        ((s.allocRows v).1.rows rr).isSome = true) ∧
      (s.allocRows v).2.Nodup ∧
      (∀ rr ∈ (s.allocRows v).2, ∀ a, some a ∈ ((s.allocRows v).1.rows rr).getD [] →
        s.next ≤ a ∧ a < (s.allocRows v).1.next) ∧
      ∀ a, occurrences ((s.allocRows v).2.map fun rr =>
        ((s.allocRows v).1.rows rr).getD []) (some a) ≤ 1 := by
  intro v
  induction v with
  | nil =>
    intro s
    simp [Store.allocRows, occurrences]
  | cons row rest ih =>
    intro s
    obtain ⟨c1, c2, c3, c4, c5, c6, c7⟩ := Store.allocCells_spec row s
    obtain ⟨h1, h2, h3, h4, h5, h6, h7, h8⟩ :=
      ih ((s.allocCells row).1.pushRow (s.allocCells row).2)
    simp only [Store.allocRows]
    generalize hc : s.allocCells row = c at c1 c2 c3 c4 c5 c6 c7 h1 h2 h3 h4 h5 h6 h7 h8 ⊢
    generalize hr : (c.1.pushRow c.2).allocRows rest = r at h1 h2 h3 h4 h5 h6 h7 h8 ⊢
    have hn : (c.1.pushRow c.2).next = c.1.next + 1 := rfl
    have hrows : ∀ a, (c.1.pushRow c.2).rows a = if a = c.1.next then some c.2 else c.1.rows a :=
      fun _ => rfl
    have hpieces : (c.1.pushRow c.2).pieces = c.1.pieces := rfl
    have hboards : (c.1.pushRow c.2).boards = c.1.boards := rfl
    rw [hn] at h2 h3 h5 h7
    have hhead : r.1.rows c.1.next = some c.2 := by
      rw [(h3 c.1.next (by omega)).2, hrows]
      simp
    have hcells : c.2.map r.1.readCell = c.2.map c.1.readCell := by
      apply List.map_congr_left
      intro x hx
      cases x with
      | none => rfl
      | some a =>
        have := (c6 a hx).2
        simp only [Store.readCell, Option.some_bind]
        rw [(h3 a (by omega)).1, hpieces]
    refine ⟨?_, by omega, ?_, ?_, ?_, ?_, ?_, ?_⟩
    · rw [h1, hboards, c2]
    · intro a ha
      have := h3 a (by omega)
      rw [this.1, this.2, hpieces, hrows, c4 a ha, c1]
      simp [Nat.ne_of_lt (lt_of_lt_of_le ha c3)]
    · simp only [List.map_cons, hhead, Option.getD_some, hcells, c5, h4]
    · intro rr hrr
      rcases List.mem_cons.1 hrr with e | e
      · subst e
        exact ⟨c3, by omega, by simp [hhead]⟩
      · have := h5 rr e
        exact ⟨by omega, this.2.1, this.2.2⟩
    · rw [List.nodup_cons]
      refine ⟨?_, h6⟩
      intro hmem
      have := (h5 _ hmem).1
      omega
    · intro rr hrr a ha
      rcases List.mem_cons.1 hrr with e | e
      · subst e
        rw [hhead, Option.getD_some] at ha
        have := c6 a ha
        omega
      · have := h7 rr e a ha
        omega
    · intro a
      simp only [List.map_cons, hhead, Option.getD_some]
      rw [occurrences_cons]
      by_cases hmem : some a ∈ c.2
      · have hlt := (c6 a hmem).2
        have : occurrences (r.2.map fun rr => (r.1.rows rr).getD []) (some a) = 0 := by
          apply occurrences_eq_zero
          intro row' hrow' hin
          obtain ⟨rr, hrr, rfl⟩ := List.mem_map.1 hrow'
          have := (h7 rr hrr a hin).1
          omega
        rw [this]
        exact c7 a
      · rw [List.count_eq_zero.2 hmem, Nat.zero_add]
        exact h8 a

theorem Store.allocBoard_spec (s : Store) (v : Board) :
    ∃ rowRefs, (s.allocBoard v).1.boards (s.allocBoard v).2 = some rowRefs ∧
      rowRefs.Nodup ∧ s.next ≤ (s.allocBoard v).2 ∧
      (s.allocBoard v).2 < (s.allocBoard v).1.next ∧
      (∀ a, a < s.next → (s.allocBoard v).1.pieces a = s.pieces a ∧
        (s.allocBoard v).1.rows a = s.rows a ∧ (s.allocBoard v).1.boards a = s.boards a) ∧
      (s.allocBoard v).1.readBoard (s.allocBoard v).2 = v ∧
      (∀ rr ∈ rowRefs, s.next ≤ rr ∧ rr < (s.allocBoard v).1.next ∧
        ((s.allocBoard v).1.rows rr).isSome = true) ∧
      (∀ rr ∈ rowRefs, ∀ a, some a ∈ ((s.allocBoard v).1.rows rr).getD [] →
        s.next ≤ a ∧ a < (s.allocBoard v).1.next) ∧
      ∀ a, occurrences ((s.allocBoard v).1.view (s.allocBoard v).2) (some a) ≤ 1 := by
  obtain ⟨h1, h2, h3, h4, h5, h6, h7, h8⟩ := Store.allocRows_spec v s
  simp only [Store.allocBoard]
  generalize s.allocRows v = r at h1 h2 h3 h4 h5 h6 h7 h8 ⊢
  have hb : (r.1.pushBoard r.2).boards r.1.next = some r.2 := by
    simp [Store.pushBoard]
  have hview : (r.1.pushBoard r.2).view r.1.next = r.2.map fun rr => (r.1.rows rr).getD [] := by
    simp only [Store.view, hb, Option.getD_some]
    rfl
  refine ⟨r.2, hb, h6, h2, Nat.lt_succ_self _, ?_, ?_, ?_, ?_, ?_⟩
  · intro a ha
    refine ⟨(h3 a ha).1, (h3 a ha).2, ?_⟩
    simp only [Store.pushBoard, h1]
    simp [Nat.ne_of_lt (lt_of_lt_of_le ha h2)]
  · simp only [Store.readBoard, hview, List.map_map]
    exact h4
  · intro rr hrr
    have := h5 rr hrr
    exact ⟨this.1, Nat.lt_succ_of_lt this.2.1, this.2.2⟩
  · intro rr hrr a ha
    have := h7 rr hrr a ha
    exact ⟨this.1, Nat.lt_succ_of_lt this.2⟩
  · intro a
    rw [hview]
    exact h8 a

/-! ## `simulateMove` on the store: reads and writes of the copy -/

theorem map_ite_eq_set {α β : Type} [DecidableEq α] (g : α → β) (a : α) (v : β) :
    ∀ (l : List α) (i : Nat), l.Nodup → l[i]? = some a →
      l.map (fun y => if y = a then v else g y) = (l.map g).set i v := by
  intro l
  induction l with
  | nil => intro i _ h; simp at h
  | cons x t ih =>
    intro i hnd h
    rw [List.nodup_cons] at hnd
    cases i with
    | zero =>
      simp only [List.getElem?_cons_zero, Option.some.injEq] at h
      subst h
      simp only [List.map_cons, if_true, List.set_cons_zero, List.cons.injEq, true_and]
      apply List.map_congr_left
      intro y hy
      have : y ≠ x := fun e => hnd.1 (e ▸ hy)
      simp [this]
    | succ k =>
      simp only [List.getElem?_cons_succ] at h
      have hmem : a ∈ t := List.getElem?_mem h
      have : x ≠ a := fun e => hnd.1 (e ▸ hmem)
      simp only [List.map_cons, this, if_false, List.set_cons_succ, ih k hnd.2 h]

theorem Store.view_getElem? {s : Store} {n nb : Nat} {rowRefs : List Nat}
    (h : s.IsCopy n nb rowRefs) (i : Nat) :
    (s.view nb)[i]? = (rowRefs[i]?).map fun rr => (s.rows rr).getD [] := by
  simp [Store.view, h.1, List.getElem?_map]

theorem Store.readBoard_getElem? (s : Store) (nb i : Nat) :
    (s.readBoard nb)[i]? = ((s.view nb)[i]?).map fun row => row.map s.readCell := by
  simp [Store.readBoard, List.getElem?_map]

theorem Store.cellAt_value {s : Store} {n nb : Nat} {rowRefs : List Nat}
    (h : s.IsCopy n nb rowRefs) (r c : Int) :
    Mesa.cellAt (s.readBoard nb) r c = (s.cellAt nb r c).map s.readCell := by
  unfold Mesa.cellAt rowAt Store.cellAt
  simp only [h.1, Option.bind_eq_bind, Option.some_bind]
  by_cases hr : 0 ≤ r
  · simp only [hr, if_true, Store.readBoard_getElem?, Store.view_getElem? h]
    cases hrr : rowRefs[r.toNat]? with
    | none => simp
    | some rr =>
      have hsome := (h.2.2.1 rr (List.getElem?_mem hrr)).2
      obtain ⟨cells, hcells⟩ := Option.isSome_iff_exists.1 hsome
      simp only [Option.map_some', hcells, Option.getD_some, Option.some_bind, elemAt,
        Option.some.injEq]
      by_cases hc : 0 ≤ c
      · simp only [hc, if_true, List.getElem?_map]
        cases cells[c.toNat]? with
        | none => rfl
        | some x => rfl
      · simp only [hc, if_false]
        rfl
  · simp [hr]

theorem occurrences_set (rb : List (List (Option Nat))) (i j : Nat)
    (cells : List (Option Nat)) (x y : Option Nat) (hi : rb[i]? = some cells)
    (hj : j < cells.length) :
    occurrences (rb.set i (cells.set j x)) y + (if cells[j] = y then 1 else 0) =
      occurrences rb y + (if x = y then 1 else 0) := by
  obtain ⟨hlt, hget⟩ := List.getElem?_eq_some.1 hi
  have h1 := sum_map_set (fun row : List (Option Nat) => row.count y) rb i (cells.set j x) hlt
  simp only [hget] at h1
  have h2 := List.count_set x y cells j hj
  have h3 : (if cells[j] = y then 1 else 0) ≤ cells.count y := by
    split
    · rename_i e
      exact List.count_pos_iff.2 (e ▸ List.getElem_mem hj)
    · exact Nat.zero_le _
  simp only [beq_iff_eq] at h2
  unfold occurrences
  omega

theorem Store.setCell_some {s s' : Store} {n nb : Nat} {rowRefs : List Nat}
    (h : s.IsCopy n nb rowRefs) {r c : Int} {x : Option Nat}
    (hx : ∀ a, x = some a → n ≤ a ∧ a < s.next) (hs : s.setCell nb r c x = some s') :
    s'.pieces = s.pieces ∧ s'.boards = s.boards ∧ s'.next = s.next ∧
    (∀ a, a < n → s'.rows a = s.rows a) ∧ s'.IsCopy n nb rowRefs ∧
    Mesa.setCell (s.readBoard nb) r c (s.readCell x) = some (s'.readBoard nb) ∧
    ∃ old, s.cellAt nb r c = some old ∧
      (∀ y, occurrences (s'.view nb) y + (if old = y then 1 else 0) =
        occurrences (s.view nb) y + (if x = y then 1 else 0)) ∧
      ∀ r' c' z, s.cellAt nb r' c' = some z →
        s'.cellAt nb r' c' = some (if r' = r ∧ c' = c then x else z) := by
  unfold Store.setCell at hs
  by_cases hr : 0 ≤ r
  swap
  · simp [h.1, hr] at hs
  simp only [h.1, hr, if_true, Option.bind_eq_bind, Option.some_bind,
    Option.bind_eq_some] at hs
  obtain ⟨rr, hrr, cells, hcells, hs⟩ := hs
  split at hs
  swap
  · cases hs
  rename_i hc
  simp only [Option.some.injEq] at hs
  subst hs
  have hmem : rr ∈ rowRefs := List.getElem?_mem hrr
  have hw : ∀ a, (s.writeRow rr (cells.set c.toNat x)).rows a =
      if a = rr then some (cells.set c.toNat x) else s.rows a := fun _ => rfl
  have hwb : (s.writeRow rr (cells.set c.toNat x)).boards = s.boards := rfl
  have hrows : ∀ a, ((s.writeRow rr (cells.set c.toNat x)).rows a).getD [] =
      if a = rr then cells.set c.toNat x else (s.rows a).getD [] := by
    intro a; rw [hw]; split <;> rfl
  have hview : (s.writeRow rr (cells.set c.toNat x)).view nb =
      (s.view nb).set r.toNat (cells.set c.toNat x) := by
    simp only [Store.view, hwb, h.1, Option.getD_some, hrows]
    exact map_ite_eq_set _ rr _ rowRefs r.toNat h.2.1 hrr
  have hvget : (s.view nb)[r.toNat]? = some cells := by
    rw [Store.view_getElem? h, hrr]
    simp [hcells]
  have hcopy : (s.writeRow rr (cells.set c.toNat x)).IsCopy n nb rowRefs := by
    refine ⟨h.1, h.2.1, ?_, ?_, h.2.2.2.2.1, h.2.2.2.2.2.1, ?_⟩
    · intro a ha
      refine ⟨(h.2.2.1 a ha).1, ?_⟩
      rw [hw]
      split
      · rfl
      · exact (h.2.2.1 a ha).2
    · intro a ha q hq
      rw [hw] at hq
      split at hq
      · rename_i e
        subst e
        simp only [Option.getD_some] at hq
        rcases List.mem_or_eq_of_mem_set hq with hq | hq
        · apply h.2.2.2.1 a ha q
          rw [hcells]
          exact hq
        · exact (hx q hq.symm).1
      · exact h.2.2.2.1 a ha q hq
    · intro a ha q hq
      rw [hw] at hq
      split at hq
      · rename_i e
        subst e
        simp only [Option.getD_some] at hq
        rcases List.mem_or_eq_of_mem_set hq with hq | hq
        · apply h.2.2.2.2.2.2 a ha q
          rw [hcells]
          exact hq
        · exact (hx q hq.symm).2
      · exact h.2.2.2.2.2.2 a ha q hq
  refine ⟨rfl, rfl, rfl, ?_, hcopy, ?_, cells[c.toNat], ?_, ?_, ?_⟩
  · intro a ha
    have : a ≠ rr := by
      have := (h.2.2.1 rr hmem).1
      omega
    rw [hw]
    simp [this]
  · unfold Mesa.setCell rowAt
    simp only [hr, if_true, Store.readBoard_getElem?, hvget, Option.map_some',
      List.length_map, hc, and_self]
    simp only [Store.readBoard, hview, List.map_set]
    rfl
  · unfold Store.cellAt
    simp only [h.1, hr, if_true, hrr, hcells, Option.bind_eq_bind, Option.some_bind, hc.1,
      Option.some.injEq]
    rw [List.getElem?_eq_getElem hc.2]
    rfl
  · intro y
    rw [hview]
    exact occurrences_set (s.view nb) r.toNat c.toNat cells x y hvget hc.2
  · intro r' c' z hz
    unfold Store.cellAt at hz ⊢
    by_cases hr' : 0 ≤ r'
    swap
    · simp [h.1, hr'] at hz
    simp only [h.1, hwb, hw, hr', if_true, Option.bind_eq_bind, Option.some_bind,
      Option.bind_eq_some] at hz ⊢
    obtain ⟨rr', hrr', cells', hcells', hz⟩ := hz
    simp only [Option.some.injEq] at hz
    refine ⟨rr', hrr', ?_⟩
    by_cases hrow : r' = r
    · subst hrow
      rw [hrr] at hrr'
      cases hrr'
      rw [hcells] at hcells'
      cases hcells'
      refine ⟨cells.set c.toNat x, by simp, ?_⟩
      by_cases hcol : c' = c
      · subst hcol
        simp [hc.1, List.getElem?_set_self hc.2]
      · simp only [true_and, hcol, if_false, Option.some.injEq]
        rw [← hz]
        by_cases hc' : 0 ≤ c'
        · simp only [hc', if_true]
          rw [List.getElem?_set_ne (by omega)]
        · simp [hc']
    · have hne : rr' ≠ rr := by
        intro e
        subst e
        have hlt : r'.toNat < rowRefs.length := (List.getElem?_eq_some.1 hrr').1
        have := List.getElem?_inj hlt h.2.1 (hrr'.trans hrr.symm)
        omega
      refine ⟨cells', by simp [hne, hcells'], ?_⟩
      simp only [hrow, false_and, if_false, Option.some.injEq]
      exact hz

theorem Store.setCell_none {s : Store} {n nb : Nat} {rowRefs : List Nat}
    (h : s.IsCopy n nb rowRefs) {r c : Int} {x : Option Nat}
    (hs : s.setCell nb r c x = none) (v : Cell) :
    Mesa.setCell (s.readBoard nb) r c v = none := by
  unfold Store.setCell at hs
  unfold Mesa.setCell rowAt
  simp only [h.1, Option.bind_eq_bind, Option.some_bind] at hs
  by_cases hr : 0 ≤ r
  · simp only [hr, if_true, Store.readBoard_getElem?, Store.view_getElem? h] at hs ⊢
    cases hrr : rowRefs[r.toNat]? with
    | none => simp
    | some rr =>
      have hsome := (h.2.2.1 rr (List.getElem?_mem hrr)).2
      obtain ⟨cells, hcells⟩ := Option.isSome_iff_exists.1 hsome
      simp only [hrr, Option.some_bind, hcells] at hs
      simp only [Option.map_some', hcells, Option.getD_some, List.length_map]
      split at hs
      · cases hs
      · rename_i hc
        simp [hc]
  · simp [hr]

theorem Store.clearCaptured_some {n nb : Nat} {rowRefs : List Nat} :
    ∀ (caps : List Pos) {s s' : Store}, s.IsCopy n nb rowRefs →
      s.clearCaptured nb caps = some s' →
      s'.pieces = s.pieces ∧ s'.boards = s.boards ∧ s'.next = s.next ∧
      (∀ a, a < n → s'.rows a = s.rows a) ∧ s'.IsCopy n nb rowRefs ∧
      Mesa.clearCaptured (s.readBoard nb) caps = some (s'.readBoard nb) ∧
      ∀ a, occurrences (s'.view nb) (some a) ≤ occurrences (s.view nb) (some a) := by
  intro caps
  induction caps with
  | nil =>
    intro s s' h hs
    simp only [Store.clearCaptured, List.foldlM_nil, Option.pure_def, Option.some.injEq] at hs
    subst hs
    exact ⟨rfl, rfl, rfl, fun _ _ => rfl, h, rfl, fun _ => le_rfl⟩
  | cons cap rest ih =>
    intro s s' h hs
    simp only [Store.clearCaptured, List.foldlM_cons, Option.bind_eq_bind,
      Option.bind_eq_some] at hs
    obtain ⟨s1, h1, hs⟩ := hs
    obtain ⟨a1, a2, a3, a4, a5, a6, old, -, a7, -⟩ :=
      Store.setCell_some h (by intro a e; cases e) h1
    obtain ⟨b1, b2, b3, b4, b5, b6, b7⟩ := ih a5 hs
    refine ⟨b1.trans a1, b2.trans a2, b3.trans a3, ?_, b5, ?_, ?_⟩
    · intro a ha
      rw [b4 a ha, a4 a ha]
    · have hval : s.readCell none = none := rfl
      rw [hval] at a6
      simp only [Mesa.clearCaptured, List.foldlM_cons, a6, Option.bind_eq_bind,
        Option.some_bind]
      exact b6
    · intro a
      have := a7 (some a)
      have := b7 a
      simp only [reduceCtorEq, if_false] at *
      omega

theorem Store.clearCaptured_none {n nb : Nat} {rowRefs : List Nat} :
    ∀ (caps : List Pos) {s : Store}, s.IsCopy n nb rowRefs →
      s.clearCaptured nb caps = none →
      Mesa.clearCaptured (s.readBoard nb) caps = none := by
  intro caps
  induction caps with
  | nil =>
    intro s h hs
    simp [Store.clearCaptured] at hs
  | cons cap rest ih =>
    intro s h hs
    simp only [Store.clearCaptured, List.foldlM_cons, Option.bind_eq_bind] at hs
    simp only [Mesa.clearCaptured, List.foldlM_cons, Option.bind_eq_bind]
    cases h1 : s.setCell nb cap.row cap.col none with
    | none =>
      rw [Store.setCell_none h h1]
      rfl
    | some s1 =>
      obtain ⟨-, -, -, -, a5, a6, -⟩ := Store.setCell_some h (by intro a e; cases e) h1
      have hval : s.readCell none = none := rfl
      rw [hval] at a6
      rw [a6, Option.some_bind]
      rw [h1, Option.some_bind] at hs
      exact ih a5 hs

theorem Store.readCell_writePiece (s : Store) (q : Nat) (p' : Piece) (x : Option Nat) :
    (s.writePiece q p').readCell x = if x = some q then some p' else s.readCell x := by
  cases x with
  | none => simp [Store.readCell]
  | some a =>
    simp only [Store.readCell, Store.writePiece, Option.some_bind, Option.some.injEq]

theorem map_readCell_writePiece_of_not_mem (s : Store) (q : Nat) (p' : Piece)
    {cells : List (Option Nat)} (h : some q ∉ cells) :
    cells.map (s.writePiece q p').readCell = cells.map s.readCell := by
  apply List.map_congr_left
  intro x hx
  rw [Store.readCell_writePiece]
  have : x ≠ some q := fun e => h (e ▸ hx)
  simp [this]

theorem map_readCell_writePiece_row (s : Store) (q : Nat) (p' : Piece) :
    ∀ (cells : List (Option Nat)) (j : Nat), cells.count (some q) ≤ 1 →
      cells[j]? = some (some q) →
      cells.map (s.writePiece q p').readCell = (cells.map s.readCell).set j (some p') := by
  intro cells
  induction cells with
  | nil => intro j _ h; simp at h
  | cons x t ih =>
    intro j hcount hj
    cases j with
    | zero =>
      simp only [List.getElem?_cons_zero, Option.some.injEq] at hj
      subst hj
      rw [List.count_cons_self] at hcount
      have hnot : some q ∉ t := List.count_eq_zero.1 (by omega)
      simp only [List.map_cons, List.set_cons_zero, Store.readCell_writePiece, if_true,
        map_readCell_writePiece_of_not_mem s q p' hnot]
    | succ k =>
      simp only [List.getElem?_cons_succ] at hj
      have hmem : some q ∈ t := List.getElem?_mem hj
      have hpos : 0 < t.count (some q) := List.count_pos_iff.2 hmem
      have hx : x ≠ some q := by
        intro e
        rw [e, List.count_cons_self] at hcount
        omega
      rw [List.count_cons_of_ne hx.symm] at hcount
      simp only [List.map_cons, List.set_cons_succ, Store.readCell_writePiece, hx, if_false,
        ih k hcount hj]

theorem count_le_occurrences {rb : List (List (Option Nat))} {row : List (Option Nat)}
    (h : row ∈ rb) (x : Option Nat) : row.count x ≤ occurrences rb x := by
  induction rb with
  | nil => cases h
  | cons r t ih =>
    rw [occurrences_cons]
    rcases List.mem_cons.1 h with e | e
    · subst e; omega
    · have := ih e; omega

theorem map_readCell_writePiece_board (s : Store) (q : Nat) (p' : Piece) :
    ∀ (rb : List (List (Option Nat))) (i : Nat) (cells : List (Option Nat)) (j : Nat),
      occurrences rb (some q) ≤ 1 → rb[i]? = some cells → cells[j]? = some (some q) →
      rb.map (fun row => row.map (s.writePiece q p').readCell) =
        (rb.map fun row => row.map s.readCell).set i
          ((cells.map s.readCell).set j (some p')) := by
  intro rb
  induction rb with
  | nil => intro i cells j _ h; simp at h
  | cons row t ih =>
    intro i cells j hocc hi hj
    rw [occurrences_cons] at hocc
    have hmem : some q ∈ cells := List.getElem?_mem hj
    have hpos : 0 < cells.count (some q) := List.count_pos_iff.2 hmem
    cases i with
    | zero =>
      simp only [List.getElem?_cons_zero, Option.some.injEq] at hi
      subst hi
      have htail : ∀ r ∈ t, some q ∉ r := by
        intro r hr hin
        have h1 := count_le_occurrences hr (some q)
        have h2 : 0 < r.count (some q) := List.count_pos_iff.2 hin
        omega
      simp only [List.map_cons, List.set_cons_zero,
        map_readCell_writePiece_row s q p' row j (by omega) hj, List.cons.injEq, true_and]
      apply List.map_congr_left
      intro r hr
      exact map_readCell_writePiece_of_not_mem s q p' (htail r hr)
    | succ k =>
      simp only [List.getElem?_cons_succ] at hi
      have h1 := count_le_occurrences (List.getElem?_mem hi) (some q)
      have hrow : some q ∉ row := List.count_eq_zero.1 (by omega)
      simp only [List.map_cons, List.set_cons_succ,
        map_readCell_writePiece_of_not_mem s q p' hrow, ih k cells j (by omega) hi hj]

theorem Store.crownAt_some {s s' : Store} {n nb : Nat} {rowRefs : List Nat}
    (h : s.IsCopy n nb rowRefs) (hocc : ∀ a, occurrences (s.view nb) (some a) ≤ 1)
    {r c : Int} (hs : s.crownAt nb r c = some s') :
    ∃ q p, s.cellAt nb r c = some (some q) ∧ s.pieces q = some p ∧ n ≤ q ∧
      s' = s.writePiece q { p with isKing := true } ∧
      Mesa.cellAt (s.readBoard nb) r c = some (some p) ∧
      Mesa.setCell (s.readBoard nb) r c (some { p with isKing := true }) =
        some (s'.readBoard nb) := by
  unfold Store.crownAt at hs
  simp only [Option.bind_eq_bind, Option.bind_eq_some, Option.some.injEq] at hs
  obtain ⟨cell, hcell, q, hq, p, hp, hs⟩ := hs
  subst hq hs
  have hval := Store.cellAt_value h r c
  rw [hcell] at hval
  simp only [Option.map_some', Store.readCell, Option.some_bind, hp] at hval
  have hcell' := hcell
  unfold Store.cellAt at hcell'
  by_cases hr : 0 ≤ r
  swap
  · simp [h.1, hr] at hcell'
  simp only [h.1, hr, if_true, Option.bind_eq_bind, Option.some_bind, Option.bind_eq_some,
    Option.some.injEq] at hcell'
  obtain ⟨rr, hrr, cells, hcells, hget⟩ := hcell'
  by_cases hc : 0 ≤ c
  swap
  · simp [hc] at hget
  simp only [hc, if_true] at hget
  have hj : cells[c.toNat]? = some (some q) := by
    cases hx : cells[c.toNat]? with
    | none => simp [hx] at hget
    | some x =>
      rw [hx] at hget
      simp only [Option.join] at hget
      rw [show x = some q from hget]
  have hmem : rr ∈ rowRefs := List.getElem?_mem hrr
  have hge : n ≤ q := by
    apply h.2.2.2.1 rr hmem q
    rw [hcells]
    exact List.getElem?_mem hj
  have hvget : (s.view nb)[r.toNat]? = some cells := by
    rw [Store.view_getElem? h, hrr]
    simp [hcells]
  have hlt : c.toNat < cells.length := (List.getElem?_eq_some.1 hj).1
  refine ⟨q, p, hcell, hp, hge, rfl, hval, ?_⟩
  unfold Mesa.setCell rowAt
  simp only [hr, if_true, Store.readBoard_getElem?, hvget, Option.map_some',
    List.length_map, hc, hlt, and_self, Option.some.injEq]
  have hview : (s.writePiece q { p with isKing := true }).view nb = s.view nb := rfl
  simp only [Store.readBoard, hview]
  exact (map_readCell_writePiece_board s q _ (s.view nb) r.toNat cells c.toNat (hocc q)
    hvget hj).symm

theorem Store.crownAt_none {s : Store} {n nb : Nat} {rowRefs : List Nat}
    (h : s.IsCopy n nb rowRefs) {r c : Int} (hs : s.crownAt nb r c = none) :
    Mesa.cellAt (s.readBoard nb) r c = none ∨ Mesa.cellAt (s.readBoard nb) r c = some none := by
  rw [Store.cellAt_value h r c]
  unfold Store.crownAt at hs
  cases hcell : s.cellAt nb r c with
  | none => left; rfl
  | some cell =>
    right
    cases cell with
    | none => rfl
    | some q =>
      simp only [hcell, Option.bind_eq_bind, Option.some_bind] at hs
      cases hp : s.pieces q with
      | none => simp [Store.readCell, hp]
      | some p => simp [hp] at hs

/-! ## `simulateMove` on the store: the input is not written, the result is
that of `simulateMove` on values -/

theorem Store.cellAt_bounds {s : Store} {n nb : Nat} {rowRefs : List Nat}
    (h : s.IsCopy n nb rowRefs) {r c : Int} {x : Option Nat}
    (hc : s.cellAt nb r c = some x) : ∀ a, x = some a → n ≤ a ∧ a < s.next := by
  intro a ha
  subst ha
  unfold Store.cellAt at hc
  by_cases hr : 0 ≤ r
  swap
  · simp [h.1, hr] at hc
  simp only [h.1, hr, if_true, Option.bind_eq_bind, Option.some_bind, Option.bind_eq_some,
    Option.some.injEq] at hc
  obtain ⟨rr, hrr, cells, hcells, hget⟩ := hc
  by_cases hc0 : 0 ≤ c
  swap
  · simp [hc0] at hget
  simp only [hc0, if_true] at hget
  have hj : some a ∈ cells := by
    cases hx : cells[c.toNat]? with
    | none => simp [hx] at hget
    | some y =>
      rw [hx] at hget
      simp only [Option.join] at hget
      have : y = some a := hget
      exact this ▸ List.getElem?_mem hx
  have hmem : rr ∈ rowRefs := List.getElem?_mem hrr
  have hin : some a ∈ (s.rows rr).getD [] := by rw [hcells]; exact hj
  exact ⟨h.2.2.2.1 rr hmem a hin, h.2.2.2.2.2.2 rr hmem a hin⟩

theorem Store.IsCopy.writePiece {s : Store} {n nb : Nat} {rowRefs : List Nat}
    (h : s.IsCopy n nb rowRefs) (q : Nat) (p : Piece) :
    (s.writePiece q p).IsCopy n nb rowRefs := h

theorem Store.IsCopy.allocated {s : Store} {n nb : Nat} {rowRefs : List Nat}
    (h : s.IsCopy n nb rowRefs) : s.Allocated nb := by
  refine ⟨h.2.2.2.2.1.2, rowRefs, h.1, ?_⟩
  intro rr hrr
  refine ⟨h.2.2.2.2.2.1 rr hrr, ?_⟩
  intro cells hcells a ha
  apply h.2.2.2.2.2.2 rr hrr a
  rw [hcells]
  exact ha

theorem Store.readBoard_of_frame {s s' : Store} {b : Nat} (hb : s.Allocated b)
    (hf : ∀ a, a < s.next →
      s'.pieces a = s.pieces a ∧ s'.rows a = s.rows a ∧ s'.boards a = s.boards a) :
    s'.readBoard b = s.readBoard b := by
  obtain ⟨hlt, rowRefs, hboard, hrows⟩ := hb
  simp only [Store.readBoard, Store.view, (hf b hlt).2.2, hboard, Option.getD_some,
    List.map_map]
  apply List.map_congr_left
  intro rr hrr
  simp only [Function.comp, (hf rr (hrows rr hrr).1).2.1]
  apply List.map_congr_left
  intro x hx
  cases x with
  | none => rfl
  | some a =>
    simp only [Store.readCell, Option.some_bind]
    cases hc : s.rows rr with
    | none => simp [hc] at hx
    | some cells =>
      rw [hc, Option.getD_some] at hx
      exact (hf a ((hrows rr hrr).2 cells hc a hx)).1

theorem Store.Allocated.of_frame {s s' : Store} {b : Nat} (hb : s.Allocated b)
    (hn : s.next ≤ s'.next)
    (hf : ∀ a, a < s.next →
      s'.pieces a = s.pieces a ∧ s'.rows a = s.rows a ∧ s'.boards a = s.boards a) :
    s'.Allocated b := by
  obtain ⟨hlt, rowRefs, hboard, hrows⟩ := hb
  refine ⟨lt_of_lt_of_le hlt hn, rowRefs, by rw [(hf b hlt).2.2, hboard], ?_⟩
  intro rr hrr
  refine ⟨lt_of_lt_of_le (hrows rr hrr).1 hn, ?_⟩
  intro cells hcells a ha
  rw [(hf rr (hrows rr hrr).1).2.1] at hcells
  exact lt_of_lt_of_le ((hrows rr hrr).2 cells hcells a ha) hn

theorem Store.crownAt_spec {s : Store} {n nb : Nat} {rowRefs : List Nat}
    (h : s.IsCopy n nb rowRefs) (hocc : ∀ a, occurrences (s.view nb) (some a) ≤ 1)
    (r c : Int) :
    (∃ s', s.crownAt nb r c = some s' ∧ s'.IsCopy n nb rowRefs ∧ s'.rows = s.rows ∧
      s'.boards = s.boards ∧ s'.next = s.next ∧
      (∀ a, a < n → s'.pieces a = s.pieces a) ∧
      ((Mesa.cellAt (s.readBoard nb) r c).bind fun x => Option.bind x fun q =>
        Mesa.setCell (s.readBoard nb) r c (some { q with isKing := true })) =
        some (s'.readBoard nb)) ∨
    (s.crownAt nb r c = none ∧
      ((Mesa.cellAt (s.readBoard nb) r c).bind fun x => Option.bind x fun q =>
        Mesa.setCell (s.readBoard nb) r c (some { q with isKing := true })) = none) := by
  cases hs : s.crownAt nb r c with
  | none =>
    right
    refine ⟨rfl, ?_⟩
    rcases Store.crownAt_none h hs with e | e <;> rw [e] <;> rfl
  | some s' =>
    left
    obtain ⟨q, p, -, -, hge, rfl, hcell, hset⟩ := Store.crownAt_some h hocc hs
    refine ⟨_, rfl, h.writePiece q _, rfl, rfl, rfl, ?_, ?_⟩
    · intro a ha
      have : a ≠ q := by omega
      simp [Store.writePiece, this]
    · rw [hcell]
      exact hset

theorem Store.promotion_spec {s : Store} {n nb : Nat} {rowRefs : List Nat}
    (h : s.IsCopy n nb rowRefs) (hocc : ∀ a, occurrences (s.view nb) (some a) ≤ 1)
    (er ec : Int) (op : Option Piece) :
    (∃ s', (op.bind fun p =>
        if p.player = Player.white ∧ er = 0 then
          (s.crownAt nb er ec).bind fun s4 => some (s4, nb)
        else if p.player = Player.black ∧ er = 7 then
          (s.crownAt nb er ec).bind fun s4 => some (s4, nb)
        else some (s, nb)) = some (s', nb) ∧
      s'.IsCopy n nb rowRefs ∧ s'.rows = s.rows ∧ s'.boards = s.boards ∧
      s'.next = s.next ∧ (∀ a, a < n → s'.pieces a = s.pieces a) ∧
      (Option.bind op fun p =>
        if p.player = Player.white ∧ er = 0 then
          (Mesa.cellAt (s.readBoard nb) er ec).bind fun x => Option.bind x fun q =>
            Mesa.setCell (s.readBoard nb) er ec (some { q with isKing := true })
        else if p.player = Player.black ∧ er = 7 then
          (Mesa.cellAt (s.readBoard nb) er ec).bind fun x => Option.bind x fun q =>
            Mesa.setCell (s.readBoard nb) er ec (some { q with isKing := true })
        else some (s.readBoard nb)) = some (s'.readBoard nb)) ∨
    ((op.bind fun p =>
        if p.player = Player.white ∧ er = 0 then
          (s.crownAt nb er ec).bind fun s4 => some (s4, nb)
        else if p.player = Player.black ∧ er = 7 then
          (s.crownAt nb er ec).bind fun s4 => some (s4, nb)
        else some (s, nb)) = none ∧
      (Option.bind op fun p =>
        if p.player = Player.white ∧ er = 0 then
          (Mesa.cellAt (s.readBoard nb) er ec).bind fun x => Option.bind x fun q =>
            Mesa.setCell (s.readBoard nb) er ec (some { q with isKing := true })
        else if p.player = Player.black ∧ er = 7 then
          (Mesa.cellAt (s.readBoard nb) er ec).bind fun x => Option.bind x fun q =>
            Mesa.setCell (s.readBoard nb) er ec (some { q with isKing := true })
        else some (s.readBoard nb)) = none) := by
  cases op with
  | none => right; exact ⟨rfl, rfl⟩
  | some p =>
    simp only [Option.some_bind]
    have hcrown := Store.crownAt_spec h hocc er ec
    by_cases hw : p.player = Player.white ∧ er = 0
    · simp only [if_pos hw]
      rcases hcrown with ⟨s', e, f1, f2, f3, f4, f5, f6⟩ | ⟨e, f⟩
      · left
        exact ⟨s', by rw [e]; rfl, f1, f2, f3, f4, f5, f6⟩
      · right
        exact ⟨by rw [e]; rfl, f⟩
    · by_cases hbl : p.player = Player.black ∧ er = 7
      · simp only [if_neg hw, if_pos hbl]
        rcases hcrown with ⟨s', e, f1, f2, f3, f4, f5, f6⟩ | ⟨e, f⟩
        · left
          exact ⟨s', by rw [e]; rfl, f1, f2, f3, f4, f5, f6⟩
        · right
          exact ⟨by rw [e]; rfl, f⟩
      · simp only [if_neg hw, if_neg hbl]
        left
        exact ⟨s, rfl, h, rfl, rfl, rfl, fun _ _ => rfl, rfl⟩

theorem Store.simulateMove_spec (s : Store) (board : Nat) (sr sc er ec : Int)
    (caps : Option (List Pos)) (hb : s.Allocated board) :
    (∃ s' nb rowRefs, s.simulateMove board sr sc er ec caps = some (s', nb) ∧
      (∀ a, a < s.next →
        s'.pieces a = s.pieces a ∧ s'.rows a = s.rows a ∧ s'.boards a = s.boards a) ∧
      s.next ≤ s'.next ∧ s'.IsCopy s.next nb rowRefs ∧
      Mesa.simulateMove (s.readBoard board) sr sc er ec caps = some (s'.readBoard nb)) ∨
    (s.simulateMove board sr sc er ec caps = none ∧
      Mesa.simulateMove (s.readBoard board) sr sc er ec caps = none) := by
  obtain ⟨rowRefs0, hboard⟩ : ∃ rowRefs0, s.boards board = some rowRefs0 := by
    obtain ⟨-, rowRefs0, hboard, -⟩ := hb
    exact ⟨rowRefs0, hboard⟩
  obtain ⟨rowRefs, c1, c2, c3, c4, c5, c6, c7, c8, c9⟩ :=
    Store.allocBoard_spec s (s.readBoard board)
  have hstore : s.simulateMove board sr sc er ec caps =
      ((s.allocBoard (s.readBoard board)).1.cellAt (s.allocBoard (s.readBoard board)).2
        sr sc).bind fun piece =>
      ((s.allocBoard (s.readBoard board)).1.setCell (s.allocBoard (s.readBoard board)).2
        er ec piece).bind fun s1 =>
      (s1.setCell (s.allocBoard (s.readBoard board)).2 sr sc none).bind fun s2 =>
      (match caps with
        | some l => s2.clearCaptured (s.allocBoard (s.readBoard board)).2 l
        | none => some s2).bind fun s3 =>
      (piece.bind s3.pieces).bind fun p =>
      if p.player = Player.white ∧ er = 0 then
        (s3.crownAt (s.allocBoard (s.readBoard board)).2 er ec).bind fun s4 =>
          some (s4, (s.allocBoard (s.readBoard board)).2)
      else if p.player = Player.black ∧ er = 7 then
        (s3.crownAt (s.allocBoard (s.readBoard board)).2 er ec).bind fun s4 =>
          some (s4, (s.allocBoard (s.readBoard board)).2)
      else some (s3, (s.allocBoard (s.readBoard board)).2) := by
    unfold Store.simulateMove
    simp only [hboard, Option.bind_eq_bind, Option.some_bind]
    cases caps <;> rfl
  have hpure : ∀ v : Board, Mesa.simulateMove v sr sc er ec caps =
      (Mesa.cellAt v sr sc).bind fun piece =>
      (Mesa.setCell v er ec piece).bind fun b1 =>
      (Mesa.setCell b1 sr sc none).bind fun b2 =>
      (match caps with
        | some l => Mesa.clearCaptured b2 l
        | none => some b2).bind fun b3 =>
      Option.bind piece fun p =>
      if p.player = Player.white ∧ er = 0 then
        (Mesa.cellAt b3 er ec).bind fun x => Option.bind x fun q =>
          Mesa.setCell b3 er ec (some { q with isKing := true })
      else if p.player = Player.black ∧ er = 7 then
        (Mesa.cellAt b3 er ec).bind fun x => Option.bind x fun q =>
          Mesa.setCell b3 er ec (some { q with isKing := true })
      else some b3 := by
    intro v
    unfold Mesa.simulateMove
    cases caps <;> rfl
  rw [hstore, hpure]
  generalize s.allocBoard (s.readBoard board) = copy at c1 c2 c3 c4 c5 c6 c7 c8 c9 ⊢
  have hI : copy.1.IsCopy s.next copy.2 rowRefs :=
    ⟨c1, c2, fun rr hrr => ⟨(c7 rr hrr).1, (c7 rr hrr).2.2⟩,
      fun rr hrr a ha => (c8 rr hrr a ha).1, ⟨c3, c4⟩,
      fun rr hrr => (c7 rr hrr).2.1, fun rr hrr a ha => (c8 rr hrr a ha).2⟩
  have hnext : s.next ≤ copy.1.next := le_trans c3 (Nat.le_of_lt c4)
  simp only [← c6]
  cases hpiece : copy.1.cellAt copy.2 sr sc with
  | none =>
    right
    rw [Store.cellAt_value hI, hpiece]
    exact ⟨rfl, rfl⟩
  | some piece =>
    have hx := Store.cellAt_bounds hI hpiece
    rw [Store.cellAt_value hI, hpiece]
    simp only [Option.map_some', Option.some_bind]
    cases h1 : copy.1.setCell copy.2 er ec piece with
    | none =>
      right
      rw [Store.setCell_none hI h1]
      exact ⟨rfl, rfl⟩
    | some s1 =>
      obtain ⟨a1, a2, a3, a4, a5, a6, old1, -, a7, a8⟩ := Store.setCell_some hI hx h1
      rw [a6]
      simp only [Option.some_bind]
      cases h2 : s1.setCell copy.2 sr sc none with
      | none =>
        right
        rw [Store.setCell_none a5 h2]
        exact ⟨rfl, rfl⟩
      | some s2 =>
        obtain ⟨b1, b2, b3, b4, b5, b6, old2, hold2, b7, -⟩ :=
          Store.setCell_some a5 (by intro a e; cases e) h2
        have hval : s1.readCell none = none := rfl
        rw [hval] at b6
        rw [b6]
        simp only [Option.some_bind]
        have hold : old2 = piece := by
          have := a8 sr sc piece hpiece
          rw [hold2] at this
          simp only [Option.some.injEq] at this
          rw [this]
          split <;> rfl
        have hocc2 : ∀ a, occurrences (s2.view copy.2) (some a) ≤ 1 := by
          intro a
          have e1 := a7 (some a)
          have e2 := b7 (some a)
          have e0 := c9 a
          rw [hold] at e2
          simp only [reduceCtorEq, if_false] at e2
          split at e1 <;> split at e1 <;> split at e2 <;> omega
        have hclear : (∃ s3, (match caps with
              | some l => s2.clearCaptured copy.2 l
              | none => some s2) = some s3 ∧
            s3.pieces = s2.pieces ∧ s3.boards = s2.boards ∧ s3.next = s2.next ∧
            (∀ a, a < s.next → s3.rows a = s2.rows a) ∧ s3.IsCopy s.next copy.2 rowRefs ∧
            (match caps with
              | some l => Mesa.clearCaptured (s2.readBoard copy.2) l
              | none => some (s2.readBoard copy.2)) = some (s3.readBoard copy.2) ∧
            ∀ a, occurrences (s3.view copy.2) (some a) ≤ 1) ∨
            ((match caps with
              | some l => s2.clearCaptured copy.2 l
              | none => some s2) = none ∧
            (match caps with
              | some l => Mesa.clearCaptured (s2.readBoard copy.2) l
              | none => some (s2.readBoard copy.2)) = none) := by
          cases caps with
          | none =>
            left
            exact ⟨s2, rfl, rfl, rfl, rfl, fun _ _ => rfl, b5, rfl, hocc2⟩
          | some l =>
            cases hcl : s2.clearCaptured copy.2 l with
            | none =>
              right
              exact ⟨hcl, Store.clearCaptured_none l b5 hcl⟩
            | some s3 =>
              left
              obtain ⟨d1, d2, d3, d4, d5, d6, d7⟩ := Store.clearCaptured_some l b5 hcl
              exact ⟨s3, hcl, d1, d2, d3, d4, d5, d6,
                fun a => le_trans (d7 a) (hocc2 a)⟩
        rcases hclear with ⟨s3, e3, d1, d2, d3, d4, d5, d6, d7⟩ | ⟨e3, f3⟩
        · rw [e3, d6]
          simp only [Option.some_bind]
          have hp : piece.bind s3.pieces = copy.1.readCell piece := by
            rw [d1, b1, a1]
            rfl
          rw [hp]
          rcases Store.promotion_spec d5 d7 er ec (copy.1.readCell piece) with
            ⟨s4, e4, g1, g2, g3, g4, g5, g6⟩ | ⟨e4, f4⟩
          · left
            refine ⟨s4, copy.2, rowRefs, e4, ?_, ?_, g1, g6⟩
            · intro a ha
              refine ⟨?_, ?_, ?_⟩
              · rw [g5 a ha, d1, b1, a1]
                exact (c5 a ha).1
              · rw [g2, d4 a ha, b4 a ha, a4 a ha]
                exact (c5 a ha).2.1
              · rw [g3, d2, b2, a2]
                exact (c5 a ha).2.2
            · rw [g4, d3, b3, a3]
              exact hnext
          · right
            exact ⟨e4, f4⟩
        · right
          rw [e3, f3]
          exact ⟨rfl, rfl⟩

/-- C23: `simulateMove`, run on a store of objects in which the board it is
given was allocated, writes to no object that existed before the call: when
it returns, every piece object, row array and board array allocated before the
call is unchanged, so the input board has the contents it had; the board it
returns is a new object whose contents are the value of `simulateMove` on the
contents of the input; and a second call with the same arguments returns a
board with the same contents, leaving the first result and the input as they
were. -/
theorem simulateMove_no_mutation (s : Store) (board : Nat) (sr sc er ec : Int)
    (caps : Option (List Pos)) (hb : s.Allocated board)
    (hret : (s.simulateMove board sr sc er ec caps).isSome = true) :
    ∃ s' newBoard, s.simulateMove board sr sc er ec caps = some (s', newBoard) ∧
      (∀ a, a < s.next →
        s'.pieces a = s.pieces a ∧ s'.rows a = s.rows a ∧ s'.boards a = s.boards a) ∧
      s'.readBoard board = s.readBoard board ∧
      s.next ≤ newBoard ∧
      Mesa.simulateMove (s.readBoard board) sr sc er ec caps = some (s'.readBoard newBoard) ∧
      ∃ s'' newBoard2, s'.simulateMove board sr sc er ec caps = some (s'', newBoard2) ∧
        s''.readBoard newBoard2 = s'.readBoard newBoard ∧
        s''.readBoard newBoard = s'.readBoard newBoard ∧
        s''.readBoard board = s.readBoard board := by
  rcases Store.simulateMove_spec s board sr sc er ec caps hb with
    ⟨s', nb, rowRefs, hs, hf, hn, hI, hp⟩ | ⟨hnone, -⟩
  swap
  · rw [hnone] at hret
    cases hret
  have hsame := Store.readBoard_of_frame hb hf
  have hb' := hb.of_frame hn hf
  refine ⟨s', nb, hs, hf, hsame, hI.2.2.2.2.1.1, hp, ?_⟩
  rcases Store.simulateMove_spec s' board sr sc er ec caps hb' with
    ⟨s'', nb2, rowRefs2, hs2, hf2, hn2, hI2, hp2⟩ | ⟨-, hnone2⟩
  · refine ⟨s'', nb2, hs2, ?_, Store.readBoard_of_frame hI.allocated hf2, ?_⟩
    · rw [hsame, hp] at hp2
      simp only [Option.some.injEq] at hp2
      exact hp2.symm
    · rw [Store.readBoard_of_frame hb' hf2, hsame]
  · rw [hsame, hp] at hnone2
    cases hnone2

theorem promoStore_allocated : promoStore.Allocated 13 := by
  refine ⟨by decide, [3, 4, 5, 6, 7, 8, 9, 10], rfl, ?_⟩
  intro rr hrr
  simp only [List.mem_cons, List.mem_singleton, List.not_mem_nil, or_false] at hrr
  rcases hrr with rfl | rfl | rfl | rfl | rfl | rfl | rfl | rfl <;>
    refine ⟨by decide, ?_⟩ <;> intro cells hcells a ha <;>
    simp only [promoStore, Nat.reduceEqDiff, if_true, if_false, Option.some.injEq] at hcells <;>
    subst hcells <;> simp at ha <;> subst ha <;> decide

set_option maxRecDepth 1000000 in
/-- C23, example: the chain `(2, 3) → (4, 1)` of `promoBoard`, simulated on the
store `promoStore`. -/
theorem simulateMove_no_mutation_witness :
    promoStore.Allocated 13 ∧ promoStore.readBoard 13 = promoBoard ∧
    (promoStore.simulateMove 13 2 3 4 1 (some [⟨1, 4⟩, ⟨3, 2⟩])).isSome = true ∧
    ∃ s' newBoard,
      promoStore.simulateMove 13 2 3 4 1 (some [⟨1, 4⟩, ⟨3, 2⟩]) = some (s', newBoard) ∧
      (∀ a, a < promoStore.next →
        s'.pieces a = promoStore.pieces a ∧ s'.rows a = promoStore.rows a ∧
          s'.boards a = promoStore.boards a) ∧
      s'.readBoard 13 = promoStore.readBoard 13 ∧
      promoStore.next ≤ newBoard ∧
      Mesa.simulateMove (promoStore.readBoard 13) 2 3 4 1 (some [⟨1, 4⟩, ⟨3, 2⟩]) =
        some (s'.readBoard newBoard) ∧
      ∃ s'' newBoard2,
        s'.simulateMove 13 2 3 4 1 (some [⟨1, 4⟩, ⟨3, 2⟩]) = some (s'', newBoard2) ∧
        s''.readBoard newBoard2 = s'.readBoard newBoard ∧
        s''.readBoard newBoard = s'.readBoard newBoard ∧
        s''.readBoard 13 = promoStore.readBoard 13 :=
  ⟨promoStore_allocated, by decide, by decide,
    simulateMove_no_mutation promoStore 13 2 3 4 1 (some [⟨1, 4⟩, ⟨3, 2⟩])
      promoStore_allocated (by decide)⟩

/-! ## The dark squares -/

theorem setCell_some_inGrid {b b' : Board} {r c : Int} {v : Cell} (h : WellFormed b)
    (hs : setCell b r c v = some b') : inGrid r c = true := by
  unfold setCell at hs
  cases hr : rowAt b r with
  | none => simp [hr] at hs
  | some row =>
    simp only [hr] at hs
    split at hs
    · rename_i hc
      unfold rowAt at hr
      split at hr
      · rename_i h0
        obtain ⟨hlt, hget⟩ := List.getElem?_eq_some.1 hr
        have hlen : row.length = 8 := h.2 row (hget ▸ List.getElem_mem hlt)
        rw [inGrid_iff]
        rw [h.1] at hlt
        omega
      · cases hr
    · cases hs

theorem setCell_some_safeAt {b b' : Board} {r c : Int} {v : Cell} (h : WellFormed b)
    (hs : setCell b r c v = some b') :
    WellFormed b' ∧ inGrid r c = true ∧
      ∀ r' c', safeAt b' r' c' = if r' = r ∧ c' = c then v else safeAt b r' c' := by
  have hg := setCell_some_inGrid h hs
  obtain ⟨b'', e, w, s, -⟩ := setCell_wf h hg v
  rw [hs] at e
  cases e
  exact ⟨w, hg, s⟩

theorem clearCaptured_some_safeAt :
    ∀ (caps : List Pos) {b b' : Board}, WellFormed b → clearCaptured b caps = some b' →
      ∀ r c p, safeAt b' r c = some p → safeAt b r c = some p := by
  intro caps
  induction caps with
  | nil =>
    intro b b' _ hs r c p hp
    simp only [clearCaptured, List.foldlM_nil, Option.pure_def, Option.some.injEq] at hs
    exact hs ▸ hp
  | cons cap rest ih =>
    intro b b' h hs r c p hp
    simp only [clearCaptured, List.foldlM_cons, Option.bind_eq_bind] at hs
    cases h1 : setCell b cap.row cap.col none with
    | none => simp [h1] at hs
    | some b1 =>
      rw [h1, Option.some_bind] at hs
      obtain ⟨w1, -, s1⟩ := setCell_some_safeAt h h1
      have := ih w1 hs r c p hp
      rw [s1] at this
      split at this
      · cases this
      · exact this

theorem cellAt_some_safeAt {b : Board} {r c : Int} {x : Cell}
    (h : cellAt b r c = some x) : safeAt b r c = x := by
  unfold cellAt at h
  unfold safeAt
  cases hr : rowAt b r with
  | none => simp [hr] at h
  | some row =>
    simp only [hr, Option.map_some', Option.some.injEq] at h
    exact h

theorem simulateMove_some_pieces {b nb : Board} {sr sc er ec : Int}
    {caps : Option (List Pos)} (h : WellFormed b)
    (hs : simulateMove b sr sc er ec caps = some nb) :
    WellFormed nb ∧ inGrid er ec = true ∧ (∃ piece, safeAt b sr sc = some piece) ∧
      ∀ r c p, safeAt nb r c = some p → (r = er ∧ c = ec) ∨ safeAt b r c = some p := by
  have hpromo : ∀ (b3 : Board) (p : Piece), WellFormed b3 →
      (if p.player = Player.white ∧ er = 0 then
        (cellAt b3 er ec).bind fun x => Option.bind x fun q =>
          setCell b3 er ec (some { q with isKing := true })
      else if p.player = Player.black ∧ er = 7 then
        (cellAt b3 er ec).bind fun x => Option.bind x fun q =>
          setCell b3 er ec (some { q with isKing := true })
      else some b3) = some nb →
      ∀ r c q, safeAt nb r c = some q → (r = er ∧ c = ec) ∨ safeAt b3 r c = some q := by
    intro b3 p w3 hrest r c q hq
    have hset : ∀ v, setCell b3 er ec v = some nb →
        (r = er ∧ c = ec) ∨ safeAt b3 r c = some q := by
      intro v hv
      obtain ⟨-, -, sv⟩ := setCell_some_safeAt w3 hv
      rw [sv] at hq
      split at hq
      · rename_i e; exact Or.inl e
      · exact Or.inr hq
    split at hrest
    · simp only [Option.bind_eq_some] at hrest
      obtain ⟨x, -, q', -, hv⟩ := hrest
      exact hset _ hv
    · split at hrest
      · simp only [Option.bind_eq_some] at hrest
        obtain ⟨x, -, q', -, hv⟩ := hrest
        exact hset _ hv
      · simp only [Option.some.injEq] at hrest
        subst hrest
        exact Or.inr hq
  have hstart : ∀ (piece : Cell) (p : Piece), cellAt b sr sc = some piece →
      piece = some p → ∃ piece', safeAt b sr sc = some piece' := by
    intro piece p hc hp
    exact ⟨p, by rw [cellAt_some_safeAt hc, hp]⟩
  have hfirst : ∀ (piece : Cell) (b1 b2 : Board), setCell b er ec piece = some b1 →
      setCell b1 sr sc none = some b2 →
      WellFormed b2 ∧ inGrid er ec = true ∧
        ∀ r c q, safeAt b2 r c = some q → (r = er ∧ c = ec) ∨ safeAt b r c = some q := by
    intro piece b1 b2 h1 h2
    obtain ⟨w1, hg, s1⟩ := setCell_some_safeAt h h1
    obtain ⟨w2, -, s2⟩ := setCell_some_safeAt w1 h2
    refine ⟨w2, hg, ?_⟩
    intro r c q hq
    rw [s2] at hq
    split at hq
    · cases hq
    · rw [s1] at hq
      split at hq
      · rename_i e; exact Or.inl e
      · exact Or.inr hq
  have hwf := simulateMove_some_wf hs h
  unfold simulateMove at hs
  cases caps with
  | none =>
    simp only [Option.bind_eq_bind, Option.bind_eq_some, Option.some.injEq] at hs
    obtain ⟨piece, hc, b1, h1, b2, h2, b3, h3, p, hp, hrest⟩ := hs
    subst h3
    obtain ⟨w2, hg, f2⟩ := hfirst piece b1 b2 h1 h2
    refine ⟨hwf, hg, hstart piece p hc hp, ?_⟩
    intro r c q hq
    rcases hpromo b2 p w2 hrest r c q hq with e | e
    · exact Or.inl e
    · exact f2 r c q e
  | some l =>
    simp only [Option.bind_eq_bind, Option.bind_eq_some] at hs
    obtain ⟨piece, hc, b1, h1, b2, h2, b3, h3, p, hp, hrest⟩ := hs
    obtain ⟨w2, hg, f2⟩ := hfirst piece b1 b2 h1 h2
    have w3 := clearCaptured_some_wf l h3 w2
    refine ⟨hwf, hg, hstart piece p hc hp, ?_⟩
    intro r c q hq
    rcases hpromo b3 p w3 hrest r c q hq with e | e
    · exact Or.inl e
    · exact f2 r c q (clearCaptured_some_safeAt l w2 h3 r c q e)

theorem jumpsAt_parity {b : Board} (h : WellFormed b) {r c : Int} {j : Jump}
    (hj : j ∈ jumpsAt b r c) : (j.row + j.col) % 2 = (r + c) % 2 := by
  obtain ⟨piece, -, hav⟩ := (mem_jumpsAt_iff h).1 hj
  rcases hav with ⟨-, d, hd, -, hr, hc, -⟩ | ⟨-, d, hd, k, m, -, -, -, hr, hc, -⟩
  · rw [hr, hc]
    rcases directions_fst hd with e1 | e1 <;> rcases directions_snd hd with e2 | e2 <;>
      rw [e1, e2] <;> omega
  · rw [hr, hc]
    rcases directions_fst hd with e1 | e1 <;> rcases directions_snd hd with e2 | e2 <;>
      rw [e1, e2] <;> omega

theorem ScanChain.parity {b fb : Board} {r c fr fc : Int} {caps : List Pos}
    (hch : ScanChain b r c caps fr fc fb) :
    WellFormed b → (fr + fc) % 2 = (r + c) % 2 := by
  induction hch with
  | one hj _ =>
    intro hw
    exact jumpsAt_parity hw hj
  | cons hj hs _ ih =>
    intro hw
    rw [ih (simulateMove_some_wf hs hw)]
    exact jumpsAt_parity hw hj

theorem getAllPossibleMoves_parity {b : Board} (h : WellFormed b) {side : Player}
    {moves : List Move} (hm : getAllPossibleMoves b side = some moves) {m : Move}
    (hmem : m ∈ moves) :
    (m.row + m.col) % 2 = (m.startRow + m.startCol) % 2 ∧
    (∃ piece, safeAt b m.startRow m.startCol = some piece) ∧
    (m.captured = none → inGrid m.row m.col = true ∧ safeAt b m.row m.col = none) := by
  rw [getAllPossibleMoves_eq h side] at hm
  simp only [Option.some.injEq] at hm
  subst hm
  have hcap : ∀ sq, m ∈ capturesOf b side sq →
      (m.row + m.col) % 2 = (m.startRow + m.startCol) % 2 ∧
      (∃ piece, safeAt b m.startRow m.startCol = some piece) ∧
      (m.captured = none → inGrid m.row m.col = true ∧ safeAt b m.row m.col = none) := by
    intro sq hin
    unfold capturesOf at hin
    cases hp : safeAt b sq.1 sq.2 with
    | none => simp [hp] at hin
    | some piece =>
      simp only [hp] at hin
      split at hin
      · obtain ⟨paths, e, spec⟩ := findJumpPaths_spec h hp side
        rw [e, Option.getD_some, List.mem_map] at hin
        obtain ⟨p, hpm, rfl⟩ := hin
        obtain ⟨fb, hch, -⟩ := (spec p).1 hpm
        refine ⟨hch.parity h, ⟨piece, hp⟩, ?_⟩
        intro hnone
        simp [moveOfPath] at hnone
      · simp at hin
  have hsim : ∀ sq, m ∈ simplesOf b side sq →
      (m.row + m.col) % 2 = (m.startRow + m.startCol) % 2 ∧
      (∃ piece, safeAt b m.startRow m.startCol = some piece) ∧
      (m.captured = none → inGrid m.row m.col = true ∧ safeAt b m.row m.col = none) := by
    intro sq hin
    unfold simplesOf at hin
    cases hp : safeAt b sq.1 sq.2 with
    | none => simp [hp] at hin
    | some piece =>
      simp only [hp] at hin
      split at hin
      · rw [findSimpleMoves_eq h hp side, Option.getD_some, List.mem_map] at hin
        obtain ⟨mo, hmo, rfl⟩ := hin
        obtain ⟨d, ⟨hd, -⟩, k, hk, -, rfl, hg, hall⟩ :=
          (mem_simpleMovesOf_iff (safeAt_inGrid h hp) piece mo).1 hmo
        refine ⟨?_, ⟨piece, hp⟩, fun _ => ⟨hg, hall k hk le_rfl⟩⟩
        simp only [moveOfOption]
        rcases directions_fst hd with e1 | e1 <;> rcases directions_snd hd with e2 | e2 <;>
          rw [e1, e2] <;> omega
      · simp at hin
  split at hmem
  · obtain ⟨sq, -, hin⟩ := List.mem_flatMap.1 hmem
    exact hcap sq hin
  · obtain ⟨sq, -, hin⟩ := List.mem_flatMap.1 hmem
    exact hsim sq hin

theorem simulateMove_simple_some {b : Board} (h : WellFormed b) {sr sc er ec : Int}
    {piece : Piece} (hp : safeAt b sr sc = some piece) (hg : inGrid er ec = true)
    (he : safeAt b er ec = none) :
    ∃ nb, simulateMove b sr sc er ec none = some nb := by
  have hsg := safeAt_inGrid h hp
  have hne : ¬ (er = sr ∧ ec = sc) := by
    rintro ⟨rfl, rfl⟩; rw [hp] at he; cases he
  have hcell : cellAt b sr sc = some (some piece) := by
    rw [inGrid_iff] at hsg
    rw [cellAt_wf h hsg.1.1 hsg.1.2, hp]
  obtain ⟨b1, e1, w1, s1, -⟩ := setCell_wf h hg (some piece)
  obtain ⟨b2, e2, w2, s2, -⟩ := setCell_wf w1 hsg none
  have v2 : safeAt b2 er ec = some piece := by
    rw [s2, s1]; simp [hne]
  have hlg := inGrid_iff.1 hg
  have hcell2 : cellAt b2 er ec = some (some piece) := by
    rw [cellAt_wf w2 hlg.1.1 hlg.1.2, v2]
  obtain ⟨b4, e4, -⟩ := setCell_wf w2 hg (some { piece with isKing := true })
  unfold simulateMove
  simp only [hcell, e1, e2, hcell2, e4, Option.bind_eq_bind, Option.some_bind]
  split
  · exact ⟨_, rfl⟩
  · split
    · exact ⟨_, rfl⟩
    · exact ⟨_, rfl⟩

/-- C31: on a well-formed board whose pieces all stand on squares with
`row + col` odd, for every move returned by `getAllPossibleMoves`: the move
ends on a square with `row + col` odd, a simple move is always simulated
(`simulateMove` returns a board), and every board that `simulateMove` returns
for the move is well formed with all its pieces on squares with `row + col`
odd. -/
theorem simulateMove_keeps_dark_squares (b : Board) (side : Player) (moves : List Move)
    (m : Move) (hw : WellFormed b) (hd : OnDarkSquares b)
    (hm : getAllPossibleMoves b side = some moves) (hmem : m ∈ moves) :
    (m.row + m.col) % 2 = 1 ∧
    (m.captured = none →
      ∃ nb, simulateMove b m.startRow m.startCol m.row m.col m.captured = some nb) ∧
    ∀ nb, simulateMove b m.startRow m.startCol m.row m.col m.captured = some nb →
      WellFormed nb ∧ OnDarkSquares nb ∧
        ∀ r c p, safeAt nb r c = some p → (r + c) % 2 = 1 := by
  have hodd : ∀ r c p, safeAt b r c = some p → (r + c) % 2 = 1 := by
    intro r c p hp
    exact hd (r, c) (mem_allSquares.2 (safeAt_inGrid hw hp)) (by simp [hp])
  obtain ⟨hpar, ⟨piece, hpiece⟩, hsimple⟩ := getAllPossibleMoves_parity hw hm hmem
  have hend : (m.row + m.col) % 2 = 1 := by
    rw [hpar]
    exact hodd _ _ piece hpiece
  refine ⟨hend, ?_, ?_⟩
  · intro hnone
    obtain ⟨hg, he⟩ := hsimple hnone
    rw [hnone]
    exact simulateMove_simple_some hw hpiece hg he
  · intro nb hs
    obtain ⟨hwn, -, -, hpieces⟩ := simulateMove_some_pieces hw hs
    have hall : ∀ r c p, safeAt nb r c = some p → (r + c) % 2 = 1 := by
      intro r c p hp
      rcases hpieces r c p hp with ⟨rfl, rfl⟩ | hb
      · exact hend
      · exact hodd r c p hb
    refine ⟨hwn, ?_, hall⟩
    intro sq _ hsome
    obtain ⟨p, hp⟩ := Option.isSome_iff_exists.1 hsome
    exact hall sq.1 sq.2 p hp

set_option maxRecDepth 1000000 in
/-- C31, example: the capture chain of the white man of `chainBoard`, which
ends on `(0, 5)`, and the board `chainBoard2` that `simulateMove` returns for
it. -/
theorem simulateMove_keeps_dark_squares_witness :
    WellFormed chainBoard ∧ OnDarkSquares chainBoard ∧
    getAllPossibleMoves chainBoard Player.white =
      some [{ startRow := 4, startCol := 1, row := 0, col := 5,
              captured := some [⟨3, 2⟩, ⟨1, 4⟩] }] ∧
    simulateMove chainBoard 4 1 0 5 (some [⟨3, 2⟩, ⟨1, 4⟩]) = some chainBoard2 ∧
    OnDarkSquares chainBoard2 ∧
    (((0 : Int) + 5) % 2 = 1 ∧
      ((some [⟨3, 2⟩, ⟨1, 4⟩] : Option (List Pos)) = none →
        ∃ nb, simulateMove chainBoard 4 1 0 5 (some [⟨3, 2⟩, ⟨1, 4⟩]) = some nb) ∧
      ∀ nb, simulateMove chainBoard 4 1 0 5 (some [⟨3, 2⟩, ⟨1, 4⟩]) = some nb →
        WellFormed nb ∧ OnDarkSquares nb ∧
          ∀ r c p, safeAt nb r c = some p → (r + c) % 2 = 1) :=
  have hm : getAllPossibleMoves chainBoard Player.white =
      some [{ startRow := 4, startCol := 1, row := 0, col := 5,
              captured := some [⟨3, 2⟩, ⟨1, 4⟩] }] := by decide!
  ⟨by decide, by decide, hm, by decide!, by decide,
    simulateMove_keeps_dark_squares chainBoard Player.white _
      { startRow := 4, startCol := 1, row := 0, col := 5, captured := some [⟨3, 2⟩, ⟨1, 4⟩] }
      (by decide) (by decide) hm (by decide)⟩

end Mesa
